import Mathlib

set_option linter.dupNamespace false

/-!
# Mule: lowest-energy-barrier pathway on a multidimensional free-energy grid

A shallow embedding of `commonTools.h`, `array/NdArray.hpp`, `pmfParser.hpp` and
`pathFinder.hpp`, followed by theorems about the search engine.

Modelling conventions
* `std::vector<int>` is `List Int`; `int` values are unbounded integers (grid indices of an
  in-range point and their unit-step neighbours lie in `[-1, shape]`, and the offset of an index
  vector inside a grid is below its total size, far from wrap-around). The size of a shape in
  the grid constructor and in `reshape` is computed with 32-bit wrap-around (`wrapInt`), and so
  is the offset `positionInt`; `position` is the same offset on unbounded integers, equal to
  it when representable. A `double` converted by `int(x)` is `truncToInt x` on unbounded
  integers, and `intOfDouble x` says when that conversion is defined.
* `double` is `ℚ`: finite values, compared, added, subtracted, multiplied and divided exactly;
  `int(x)` of a `double` is truncation toward zero.
* An `assert` of the grid constructor and of `reshape` that fails ends the program
  (`NDEBUG` is not defined); the `assert`s on vector sizes are preconditions and appear as
  hypotheses.
* `v[i]` is `v.getD i d`: a read past the end (undefined in the source) yields the default `d`.
* A grid access `data[position(pos)]` outside the storage is undefined in the source:
  `readCell` and `writeCell`, which take the offset on 32-bit `int`, give `none` there; `get`
  and `set` take the offset on unbounded integers, read the default and leave the grid as it
  is there, and stand for the source only at an offset inside the storage.
* `std::map<std::vector<int>, std::vector<int>>` is a finite partial function
  `List Int → Option (List Int)`; `m[q] = p` is a pointwise update.
* `exit(1)` is a distinguished outcome; recursion and the `while` loop take a fuel argument,
  and `none` means that the fuel ran out.
* The cell type `T` of a grid is any type with the scalar operation an operator uses; the copy
  constructor and the arithmetic loops read and write the storage cell by cell, and their
  theorems are stated for grids that satisfy the invariant of the constructor (`WellFormed`).
* The "nD for loop" of `operator<<` and `writePmfFile` is an inner loop on the axis counter
  (structural) inside an outer loop with fuel; only the index vectors visited are modelled,
  not the text written.
* Files are not modelled: the explicit-bounds constructor of the energy surface takes as input
  the two-dimensional table that `readDat` returns for its file.
-/

namespace commonTools

/-- The accuracy of float num calculation: `const double accuracy = 1e-8`. -/
def accuracy : ℚ := 1 / 100000000

/-- Source `commonTools::vectorInVectorOfVector` for integer vectors: linear membership scan. -/
def vectorInVectorOfVector (vec : List Int) : List (List Int) → Bool
  | [] => false
  | vecItem :: rest => if vec = vecItem then true else vectorInVectorOfVector vec rest

end commonTools

namespace NdArray

/-- Source `NdArray::NdArray<T>`: the backing storage `data`, its length `totalSize`, and the
`shape`. -/
structure NdArray (T : Type) where
  data : List T
  totalSize : Int
  shape : List Int

/-- Source `NdArray::position` on unbounded integers: for every `i`, `tempSum = pos[i]` is
multiplied by `shape[j]` for every `j` in `i + 1 .. pos.size() - 1` and added to `realPos`. This
is the value the source computes whenever it is representable as `int`; `positionInt` is the
same loop on 32-bit `int`. -/
def position {T : Type} (arr : NdArray T) (pos : List Int) : Int :=
  (List.range pos.length).foldl
    (fun realPos i =>
      realPos + (List.range' (i + 1) (pos.length - (i + 1))).foldl
        (fun tempSum j => tempSum * arr.shape.getD j 0) (pos.getD i 0))
    0

/-- Source `NdArray::operator[]` used as a read: `data[position(pos)]`. An offset outside the
storage is an out-of-bounds read in the source (undefined); the embedding returns `default`
there, so a value of `get` stands for a value of the source only at an offset inside the
storage. -/
def get {T : Type} [Inhabited T] (arr : NdArray T) (pos : List Int) : T :=
  if 0 ≤ position arr pos then arr.data.getD (position arr pos).toNat default else default

/-- Source `NdArray::operator[]` used as a write: `data[position(pos)] = v`. An offset outside
the storage (undefined in the source) leaves the grid as it is. -/
def set {T : Type} (arr : NdArray T) (pos : List Int) (v : T) : NdArray T :=
  if 0 ≤ position arr pos then
    { arr with data := arr.data.set (position arr pos).toNat v }
  else arr

/-- The value a 32-bit `int` holds after an arithmetic result `x`: two's-complement
wrap-around. -/
def wrapInt (x : Int) : Int := (x + 2147483648) % 4294967296 - 2147483648

/-- The loop `totalSize = 1; for (auto i : shape) totalSize *= i;` shared by the constructor and
`reshape`, on 32-bit `int`. -/
def sizeOfShape (shape : List Int) : Int :=
  shape.foldl (fun totalSize i => wrapInt (totalSize * i)) 1

/-- The two ways the construction or reshaping of a grid ends the program: a failed `assert`,
or `new T[totalSize]` with a negative length. -/
inductive GridError where
  | assertionFailed
  | badArrayLength
  deriving DecidableEq, Repr

/-- Source constructor `NdArray::NdArray(shape, defaultValue)`: computes `totalSize`, asserts
that it is not zero, allocates `totalSize` cells and fills them with `defaultValue`. -/
def construct {T : Type} (shape : List Int) (defaultValue : T) : Except GridError (NdArray T) :=
  if sizeOfShape shape = 0 then .error .assertionFailed
  else if sizeOfShape shape < 0 then .error .badArrayLength
  else
    .ok { data := List.replicate (sizeOfShape shape).toNat defaultValue
          totalSize := sizeOfShape shape
          shape := shape }

/-- Source `NdArray::reshape`: computes the size of `newShape`, then
`assert(this->totalSize = totalSize)`, which stores that size in `totalSize` and fails only when
it is zero, then stores `newShape`. -/
def reshape {T : Type} (arr : NdArray T) (newShape : List Int) : Except GridError (NdArray T) :=
  if sizeOfShape newShape ≠ 0 then
    .ok { arr with totalSize := sizeOfShape newShape, shape := newShape }
  else .error .assertionFailed

/-- Source `NdArray::getTotalSize`. -/
def getTotalSize {T : Type} (arr : NdArray T) : Int := arr.totalSize

/-- Source `NdArray::getShape`. -/
def getShape {T : Type} (arr : NdArray T) : List Int := arr.shape

/-- Source `NdArray::getCArray`: the backing storage in linear order. -/
def getCArray {T : Type} (arr : NdArray T) : List T := arr.data

end NdArray

namespace pmfParser

/-- Source `pmfParser::pmf<T>`: the energy grid with its boundaries, widths, shape and
dimension. -/
structure pmf (T : Type) where
  data : NdArray.NdArray T
  lowerboundary : List ℚ
  upperboundary : List ℚ
  width : List ℚ
  shape : List Int
  dimension : Int

/-- Source `pmf::getShape`. -/
def getShape {T : Type} (m : pmf T) : List Int := m.shape

/-- Source `pmf::getDimension`. -/
def getDimension {T : Type} (m : pmf T) : Int := m.dimension

/-- Conversion `int(x)` of a `double` on unbounded integers: truncation toward zero. This is
the value the source computes whenever it is representable as `int`; `intOfDouble` is the
conversion to a 32-bit `int`. -/
def truncToInt (x : ℚ) : Int := if 0 ≤ x then ⌊x⌋ else ⌈x⌉

/-- Source `pmf::RCToInternal`:
`internalPosition[i] = int((RCPosition[i] - lowerboundary[i] + accuracy) / width[i])`. -/
def RCToInternal {T : Type} (m : pmf T) (RCPosition : List ℚ) : List Int :=
  (List.range m.dimension.toNat).map fun i =>
    truncToInt ((RCPosition.getD i 0 - m.lowerboundary.getD i 0 + commonTools.accuracy)
      / m.width.getD i 0)

/-- Source `pmf::internalToRC`:
`RCPosition[i] = double(internalPosition[i] * width[i] + lowerboundary[i])`. -/
def internalToRC {T : Type} (m : pmf T) (internalPosition : List Int) : List ℚ :=
  (List.range m.dimension.toNat).map fun i =>
    (internalPosition.getD i 0 : ℚ) * m.width.getD i 0 + m.lowerboundary.getD i 0

/-- Source `pmf::operator[](const std::vector<int>& internalPosition)`: direct grid access. -/
def getInternal {T : Type} [Inhabited T] (m : pmf T) (internalPosition : List Int) : T :=
  NdArray.get m.data internalPosition

end pmfParser

namespace pathFinder

open commonTools pmfParser

/-- Source `pathFinder::pathFinder`: the data members of the search engine. -/
structure pathFinder where
  pmfData : pmf ℚ
  lowerboundary : List Int
  upperboundary : List Int
  width : List Int
  initialPoint : List Int
  endPoint : List Int
  pbc : List Bool
  dimension : Int
  fatherPoint : List Int → Option (List Int)
  openList : List (List Int)
  closeList : List (List Int)
  targetedPoints : List (List Int)
  forceConstants : List (List ℚ)

/-- The two ways the program leaves by `exit(1)` inside the search engine. -/
inductive FatalError where
  | noAdjacentPoint
  | noResults
  deriving DecidableEq, Repr

/-- Source constructor `pathFinder::pathFinder(pmfData, initialPoint, endPoint, pbc)`. The three
`assert`s on the sizes are preconditions and appear as hypotheses of the theorems. -/
def construct (pmfData : pmf ℚ) (initialPoint endPoint : List ℚ) (pbc : List Bool) :
    pathFinder where
  pmfData := pmfData
  lowerboundary := List.replicate (getDimension pmfData).toNat 0
  upperboundary := (getShape pmfData).map fun b => b - 1
  width := List.replicate (getDimension pmfData).toNat 1
  initialPoint := RCToInternal pmfData initialPoint
  endPoint := RCToInternal pmfData endPoint
  pbc := pbc
  dimension := getDimension pmfData
  fatherPoint := fun _ => none
  openList := [RCToInternal pmfData initialPoint]
  closeList := []
  targetedPoints := []
  forceConstants := []

/-- Source `pathFinder::setTargetedPoints`: appends the internal coordinates of every target and
its force constants. -/
def setTargetedPoints (s : pathFinder) (points forceConst : List (List ℚ)) : pathFinder :=
  (List.range points.length).foldl
    (fun t i =>
      { t with
        targetedPoints := t.targetedPoints ++ [RCToInternal t.pmfData (points.getD i [])]
        forceConstants := t.forceConstants ++ [forceConst.getD i []] })
    s

/-- Source `pathFinder::defaultFunc`: the zero heuristic. -/
def defaultFunc (_s : pathFinder) (_point : List Int) : ℚ := 0

/-- The axis distance computed inside `manhattonPotential` for target `t` and axis `j`. -/
def axisDistance (s : pathFinder) (point t : List Int) (j : Nat) : Int :=
  if s.pbc.getD j false = false then
    |point.getD j 0 - t.getD j 0|
  else
    let d1 := |point.getD j 0 - t.getD j 0|
    let d2 := |point.getD j 0 - s.lowerboundary.getD j 0| + |t.getD j 0 - s.upperboundary.getD j 0|
    let d3 := |point.getD j 0 - s.upperboundary.getD j 0| + |t.getD j 0 - s.lowerboundary.getD j 0|
    if (if d1 < d2 then d1 else d2) < d3 then (if d1 < d2 then d1 else d2) else d3

/-- Source `pathFinder::manhattonPotential`: zero without targets, otherwise the sum over the
targets `i` and axes `j` of `distance * forceConstants[i][j]`. -/
def manhattonPotential (s : pathFinder) (point : List Int) : ℚ :=
  if s.targetedPoints.length = 0 then 0
  else
    (List.range s.targetedPoints.length).foldl
      (fun energy i =>
        (List.range (s.targetedPoints.getD i []).length).foldl
          (fun energy j =>
            energy + (axisDistance s point (s.targetedPoints.getD i []) j : ℚ)
              * (s.forceConstants.getD i []).getD j 0)
          energy)
      0

/-- The loop of `popMin`: scans `popList[i], popList[i+1], ...` and keeps the first strictly
smaller priority together with its position. -/
def popMinLoop (prio : List Int → ℚ) : List (List Int) → Nat → ℚ → Nat → ℚ × Nat
  | [], _, minEnergy, minPos => (minEnergy, minPos)
  | x :: rest, i, minEnergy, minPos =>
    if prio x < minEnergy then popMinLoop prio rest (i + 1) (prio x) i
    else popMinLoop prio rest (i + 1) minEnergy minPos

/-- Source `pathFinder::popMin`: returns the point of `popList` with the lowest
`pmfData[point] + func(point)` and the list with that position erased. The `assert` on a
non-empty list is the `none` branch. -/
def popMin (s : pathFinder) (popList : List (List Int)) (func : pathFinder → List Int → ℚ) :
    Option (List Int × List (List Int)) :=
  match popList with
  | [] => none
  | first :: _ =>
    let prio := fun x => getInternal s.pmfData x + func s x
    let minPos := (popMinLoop prio popList 0 (prio first) 0).2
    match popList[minPos]? with
    | some minPoint => some (minPoint, popList.eraseIdx minPos)
    | none => none

/-- One pass of the `for` loop of `findAdjacentPoints` for axis `i`: the left neighbour `p` and
the right neighbour `q`, each pushed when its size is not zero. -/
def adjacentAxis (s : pathFinder) (point : List Int) (adjacentPoints : List (List Int))
    (i : Nat) : List (List Int) :=
  let p : List Int :=
    if ((point.getD i 0 - s.width.getD i 0 : Int) : ℚ) ≥ (s.lowerboundary.getD i 0 : ℚ) - accuracy
    then point.set i (point.getD i 0 - s.width.getD i 0)
    else if s.pbc.getD i false then point.set i (s.upperboundary.getD i 0)
    else []
  let q : List Int :=
    if ((point.getD i 0 + s.width.getD i 0 : Int) : ℚ) ≤ (s.upperboundary.getD i 0 : ℚ) + accuracy
    then point.set i (point.getD i 0 + s.width.getD i 0)
    else if s.pbc.getD i false then point.set i (s.lowerboundary.getD i 0)
    else []
  let adjacentPoints := if p.length ≠ 0 then adjacentPoints ++ [p] else adjacentPoints
  if q.length ≠ 0 then adjacentPoints ++ [q] else adjacentPoints

/-- The list `adjacentPoints` at the end of the `for` loop of `findAdjacentPoints`. -/
def adjacentList (s : pathFinder) (point : List Int) : List (List Int) :=
  (List.range s.dimension.toNat).foldl (adjacentAxis s point) []

/-- Source `pathFinder::findAdjacentPoints`: the neighbour list, or the fatal
"No adjacent point is found" exit when it is empty. -/
def findAdjacentPoints (s : pathFinder) (point : List Int) : Except FatalError (List (List Int)) :=
  if (adjacentList s point).length ≠ 0 then .ok (adjacentList s point)
  else .error .noAdjacentPoint

/-- The body of the `for` loop over the neighbours `q` of `p` inside `Dijkstra`. -/
def visit (p : List Int) (s : pathFinder) (q : List Int) : pathFinder :=
  if vectorInVectorOfVector q s.openList then s
  else if !vectorInVectorOfVector q s.closeList then
    { s with
      openList := s.openList ++ [q]
      fatherPoint := fun k => if k = q then some p else s.fatherPoint k }
  else s

/-- How one pass of the `while` loop of `Dijkstra` ends: it goes round again, it leaves by
`break` because the end point was found, or the program exits with a fatal error. -/
inductive Step where
  | next (s : pathFinder)
  | found (s : pathFinder)
  | fatal (s : pathFinder)

/-- One pass of the body of the `while` loop of `Dijkstra`. -/
def DijkstraBody (func : pathFinder → List Int → ℚ) (s : pathFinder) : Option Step :=
  match popMin s s.openList func with
  | none => none
  | some (p, rest) =>
    let s1 := { s with openList := rest, closeList := s.closeList ++ [p] }
    if p = s1.endPoint then some (.found s1)
    else
      match findAdjacentPoints s1 p with
      | .error _ => some (.fatal s1)
      | .ok adj => some (.next (adj.foldl (visit p) s1))

/-- How a call of `Dijkstra` ends: it returns with the final state, or the program exits inside
`findAdjacentPoints`. -/
inductive SearchResult where
  | returned (s : pathFinder)
  | fatal (s : pathFinder)

/-- Source `pathFinder::Dijkstra`: `while (openList.size() != 0)` around `DijkstraBody`. -/
def Dijkstra (func : pathFinder → List Int → ℚ) : Nat → pathFinder → Option SearchResult
  | 0, _ => none
  | fuel + 1, s =>
    if s.openList.length ≠ 0 then
      match DijkstraBody func s with
      | none => none
      | some (.next s1) => Dijkstra func fuel s1
      | some (.found s1) => some (.returned s1)
      | some (.fatal s1) => some (.fatal s1)
    else some (.returned s)

/-- Source `pathFinder::constructResults`: pushes the ancestors of `point`, oldest first, and
returns `point`. -/
def constructResults (s : pathFinder) :
    Nat → List Int → List (List Int) → Option (List Int × List (List Int))
  | 0, _, _ => none
  | fuel + 1, point, internalTrajectory =>
    match s.fatherPoint point with
    | some father =>
      match constructResults s fuel father internalTrajectory with
      | some (r, traj) => some (point, traj ++ [r])
      | none => none
    | none => some (point, internalTrajectory)

/-- The vector `internalTrajectory` of `getResults`: `constructResults(endPoint, ...)` followed by
`push_back(endPoint)`. -/
def internalTrajectory (s : pathFinder) (fuel : Nat) : Option (List (List Int)) :=
  match constructResults s fuel s.endPoint [] with
  | some (_, traj) => some (traj ++ [s.endPoint])
  | none => none

/-- Source `pathFinder::getResults`: exits when nothing was closed, otherwise returns the
trajectory in real coordinates and the energy of each of its points. -/
def getResults (s : pathFinder) (fuel : Nat) :
    Option (Except FatalError (List (List ℚ) × List ℚ)) :=
  if s.closeList.length = 0 then some (.error .noResults)
  else
    match internalTrajectory s fuel with
    | some traj =>
      some (.ok (traj.map (internalToRC s.pmfData), traj.map (getInternal s.pmfData)))
    | none => none

/-- Source `pathFinder::getExploredPoints`. -/
def getExploredPoints (s : pathFinder) : Except FatalError (List (List ℚ)) :=
  if s.closeList.length = 0 then .error .noResults
  else .ok (s.closeList.map (internalToRC s.pmfData))

/-- Source `pathFinder::getExploredPointNum`. -/
def getExploredPointNum (s : pathFinder) : Except FatalError Int :=
  if s.closeList.length = 0 then .error .noResults
  else .ok s.closeList.length

/-- A grid point is in range for `shape`: one index per axis, each in `[0, shape[i] - 1]`. -/
def inRange (shape point : List Int) : Prop :=
  point.length = shape.length ∧
    ∀ i, i < shape.length → 0 ≤ point.getD i 0 ∧ point.getD i 0 ≤ shape.getD i 0 - 1

instance (shape point : List Int) : Decidable (inRange shape point) := by
  unfold inRange; infer_instance

/-- The configuration the constructor establishes and the search never changes: boundaries
`0` and `shape - 1`, unit width, and the asserted sizes. -/
def Configured (s : pathFinder) : Prop :=
  s.dimension = (s.pmfData.shape.length : Int) ∧
  s.lowerboundary = List.replicate s.pmfData.shape.length 0 ∧
  s.upperboundary = s.pmfData.shape.map (fun b => b - 1) ∧
  s.width = List.replicate s.pmfData.shape.length 1 ∧
  s.pbc.length = s.pmfData.shape.length

/-- The neighbours `adjacentAxis` pushes for axis `i`, with the comparisons against `accuracy`
carried out on the integers. -/
def axisNeighbours (shape : List Int) (pbc : List Bool) (point : List Int) (i : Nat) :
    List (List Int) :=
  (if 1 ≤ point.getD i 0 then [point.set i (point.getD i 0 - 1)]
   else if pbc.getD i false then [point.set i (shape.getD i 0 - 1)] else [])
  ++
  (if point.getD i 0 + 1 ≤ shape.getD i 0 - 1 then [point.set i (point.getD i 0 + 1)]
   else if pbc.getD i false then [point.set i 0] else [])

/-- Two engine states agree on everything but the search state (open list, closed list and
parent mapping). -/
structure SameConfig (a b : pathFinder) : Prop where
  pmfData : a.pmfData = b.pmfData
  lowerboundary : a.lowerboundary = b.lowerboundary
  upperboundary : a.upperboundary = b.upperboundary
  width : a.width = b.width
  initialPoint : a.initialPoint = b.initialPoint
  endPoint : a.endPoint = b.endPoint
  pbc : a.pbc = b.pbc
  dimension : a.dimension = b.dimension
  targetedPoints : a.targetedPoints = b.targetedPoints
  forceConstants : a.forceConstants = b.forceConstants

/-- The state after `popMin` returned `p` and left `rest`, and `p` was pushed on the closed
list: the first two statements of the body of the `while` loop. -/
def closePoint (s : pathFinder) (p : List Int) (rest : List (List Int)) : pathFinder :=
  { s with openList := rest, closeList := s.closeList ++ [p] }

/-- A search state as the constructor leaves it: the start point alone is open, nothing is
closed and no parent is recorded. -/
def Fresh (s : pathFinder) : Prop :=
  s.openList = [s.initialPoint] ∧ s.closeList = [] ∧ ∀ k, s.fatherPoint k = none

/-- The invariant of the search state during a search started from the fresh state `s0`. -/
structure SearchInv (s0 s : pathFinder) : Prop where
  config : SameConfig s s0
  openNodup : s.openList.Nodup
  closeNodup : s.closeList.Nodup
  disjoint : ∀ q ∈ s.openList, q ∉ s.closeList
  startSeen : s0.initialPoint ∈ s.openList ∨ s0.initialPoint ∈ s.closeList
  startRoot : s.fatherPoint s0.initialPoint = none
  hasFather : ∀ q, q ∈ s.openList ∨ q ∈ s.closeList → q ≠ s0.initialPoint →
    ∃ p, s.fatherPoint q = some p
  father : ∀ q p, s.fatherPoint q = some p →
    (q ∈ s.openList ∨ q ∈ s.closeList) ∧ q ∈ adjacentList s0 p ∧
      ∃ i : Nat, s.closeList[i]? = some p ∧ ∀ j : Nat, s.closeList[j]? = some q → i < j

/-- Every open or closed point is in range for the grid. -/
def InvRange (s0 s : pathFinder) : Prop :=
  ∀ q, q ∈ s.openList ∨ q ∈ s.closeList → inRange s0.pmfData.shape q

/-- At the head of the loop: every neighbour of a closed point is open or closed, and the end
point is not closed yet. -/
def InvExpanded (s0 s : pathFinder) : Prop :=
  (∀ x ∈ s.closeList, ∀ q ∈ adjacentList s0 x, q ∈ s.openList ∨ q ∈ s.closeList) ∧
    s0.endPoint ∉ s.closeList

/-- The engine state carried by a search result. -/
def SearchResult.state : SearchResult → pathFinder
  | .returned s => s
  | .fatal s => s

/-- The state after exactly `k` completed passes of the `while` loop of `Dijkstra`; `none` when
the loop does not make `k` passes. -/
def afterPasses (func : pathFinder → List Int → ℚ) : Nat → pathFinder → Option pathFinder
  | 0, s => some s
  | k + 1, s =>
    if s.openList.length ≠ 0 then
      match DijkstraBody func s with
      | some (.next s1) => afterPasses func k s1
      | some (.found s1) => if k = 0 then some s1 else none
      | _ => none
    else none

/-- Every index vector of a grid of the given shape, in row-major order. -/
def allPoints : List Int → List (List Int)
  | [] => [[]]
  | n :: shape =>
    ((List.range n.toNat).product (allPoints shape)).map fun xt => (xt.1 : Int) :: xt.2

/-- The point `b` is one of the points `findAdjacentPoints` returns for `a`. -/
def IsNeighbour (s : pathFinder) (a b : List Int) : Prop :=
  ∃ adj, findAdjacentPoints s a = .ok adj ∧ b ∈ adj

/-- A lattice path of the engine: it starts at the start point, ends at the end point, and every
step goes to a point returned by `findAdjacentPoints`. -/
def IsLatticePath (s : pathFinder) (path : List (List Int)) : Prop :=
  List.Chain' (IsNeighbour s) path ∧ path.head? = some s.initialPoint ∧
    path.getLast? = some s.endPoint

/-- The largest grid energy met along a path (zero for the empty path). -/
def pathMaxEnergy (m : pmf ℚ) : List (List Int) → ℚ
  | [] => 0
  | x :: rest => rest.foldl (fun e y => max e (getInternal m y)) (getInternal m x)

/-- The point `q` differs from `point` in axis `i` and in no other axis. -/
def DiffersExactlyAt (point q : List Int) (i : Nat) : Prop :=
  q.length = point.length ∧ q.getD i 0 ≠ point.getD i 0 ∧
    ∀ j, j ≠ i → q.getD j 0 = point.getD j 0

/-- An energy surface with unit bins starting at the origin, for the examples. -/
def unitGrid (shape : List Int) (data : List ℚ) : pmf ℚ where
  data := { data := data, totalSize := shape.prod, shape := shape }
  lowerboundary := List.replicate shape.length 0
  upperboundary := shape.map fun n => (n : ℚ) - 1
  width := List.replicate shape.length 1
  shape := shape
  dimension := shape.length

/-- A 3x3 surface: the direct route along the first row crosses a peak of 10, the detour
through the second row stays at 4. -/
def detourGrid : pmf ℚ := unitGrid [3, 3] [0, 10, 0, 4, 4, 4, 9, 9, 9]

/-- The engine on `detourGrid` from cell (0,0) to cell (0,2), no periodic axis. -/
def detourEngine : pathFinder := construct detourGrid [0, 0] [0, 2] [false, false]

/-- The engine on `detourGrid` with the first axis periodic. -/
def periodicEngine : pathFinder := construct detourGrid [0, 0] [0, 2] [true, false]

/-- The engine on a single periodic cell. -/
def singleCellRing : pathFinder := construct (unitGrid [1] [0]) [0] [0] [true]



end pathFinder

namespace NdArray

/-- The row-major offset as the specification words it: the sum over `i` of `p[i]` times the
product of `s[j]` over `j > i`. -/
def linearOffset (s p : List Int) : Int :=
  ((List.range p.length).map fun i =>
    p.getD i 0 * ((List.range' (i + 1) (p.length - (i + 1))).map fun j => s.getD j 0).prod).sum

/-- A grid of six rational cells of shape 2x3, holding 0, 1, ..., 5 in linear order. -/
def sampleGrid : NdArray ℚ := { data := [0, 1, 2, 3, 4, 5], totalSize := 6, shape := [2, 3] }

end NdArray

namespace pmfParser

/-- The shifted, scaled coordinate of axis `i`:
`(rc[i] - lowerboundary[i] + accuracy) / width[i]`. -/
def scaledCoordinate {T : Type} (m : pmf T) (rc : List ℚ) (i : Nat) : ℚ :=
  (rc.getD i 0 - m.lowerboundary.getD i 0 + commonTools.accuracy) / m.width.getD i 0

end pmfParser

namespace pathFinder

open commonTools pmfParser

/-- The axis distance as the specification words it: the absolute index difference on a
non-periodic axis; on a periodic axis the minimum of that difference and the two wrap-around
distances, one leaving through the lower boundary and re-entering at the upper one, the other
leaving through the upper boundary and re-entering at the lower one. -/
def axisDistanceSpec (periodic : Bool) (lower upper x t : Int) : Int :=
  if periodic then min |x - t| (min (|x - lower| + |t - upper|) (|x - upper| + |t - lower|))
  else |x - t|

/-- The bias heuristic as the specification words it: the sum over the targets and over the
axes of axis distance times force constant, on a grid of the given shape. -/
def manhattonSpec (pbc : List Bool) (shape : List Int) (targets : List (List Int))
    (forceConstants : List (List ℚ)) (point : List Int) : ℚ :=
  ((List.range targets.length).map fun i =>
    ((List.range shape.length).map fun j =>
      (axisDistanceSpec (pbc.getD j false) 0 (shape.getD j 0 - 1) (point.getD j 0)
        ((targets.getD i []).getD j 0) : ℚ) * (forceConstants.getD i []).getD j 0).sum).sum

/-- Two engine states agree on the grid, the index bounds and the periodicity flags. -/
structure SameConfigBounds (a b : pathFinder) : Prop where
  pmfData : a.pmfData = b.pmfData
  lowerboundary : a.lowerboundary = b.lowerboundary
  upperboundary : a.upperboundary = b.upperboundary
  pbc : a.pbc = b.pbc

/-- One pass of the loop of `setTargetedPoints`, for the target of index `i`. -/
def targetStep (points forceConst : List (List ℚ)) (t : pathFinder) (i : Nat) : pathFinder :=
  { t with
    targetedPoints := t.targetedPoints ++ [RCToInternal t.pmfData (points.getD i [])]
    forceConstants := t.forceConstants ++ [forceConst.getD i []] }


end pathFinder

namespace NdArray

/-- Source copy constructor `NdArray(const NdArray& arr)`: a new storage of `totalSize` cells,
cell `i` holding `arr.getCArray()[i]`, with the same `totalSize` and `shape`. -/
def copy {T : Type} [Inhabited T] (arr : NdArray T) : NdArray T where
  data := (List.range arr.totalSize.toNat).map fun i => arr.data.getD i default
  totalSize := arr.totalSize
  shape := arr.shape

/-- The loop `for (int i = 0; i < n; i++) sumArr.data[i] op= other[i];` shared by the
arithmetic operators; `other i` is the right operand of cell `i`. -/
def cellLoop {T : Type} [Inhabited T] (op : T → T → T) (n : Int) (sumArr : NdArray T)
    (other : Nat → T) : NdArray T :=
  (List.range n.toNat).foldl
    (fun acc i => { acc with data := acc.data.set i (op (acc.data.getD i default) (other i)) })
    sumArr

/-- Source `NdArray operator+ (const NdArray& arr) const`: asserts equal shapes, copies `arr`
and adds `this->data[i]` to cell `i` for every `i < arr.totalSize`. -/
def operatorAdd {T : Type} [Inhabited T] [Add T] (self arr : NdArray T) :
    Except GridError (NdArray T) :=
  if self.shape = arr.shape then
    .ok (cellLoop (fun x y => x + y) arr.totalSize (copy arr) fun i => self.data.getD i default)
  else .error .assertionFailed

/-- Source `NdArray operator+ (const T& num) const`: copies `*this` and adds `num` to every
cell. -/
def operatorAddScalar {T : Type} [Inhabited T] [Add T] (self : NdArray T) (num : T) :
    NdArray T :=
  cellLoop (fun x y => x + y) self.totalSize (copy self) fun _ => num

/-- Source `NdArray operator- (const NdArray& arr) const`: asserts equal shapes, copies `*this`
and subtracts `arr.data[i]` from cell `i` for every `i < arr.totalSize`. -/
def operatorSub {T : Type} [Inhabited T] [Sub T] (self arr : NdArray T) :
    Except GridError (NdArray T) :=
  if self.shape = arr.shape then
    .ok (cellLoop (fun x y => x - y) arr.totalSize (copy self) fun i => arr.data.getD i default)
  else .error .assertionFailed

/-- Source `NdArray operator- (const T& num) const`. -/
def operatorSubScalar {T : Type} [Inhabited T] [Sub T] (self : NdArray T) (num : T) :
    NdArray T :=
  cellLoop (fun x y => x - y) self.totalSize (copy self) fun _ => num

/-- Source `NdArray operator* (const NdArray& arr) const`. -/
def operatorMul {T : Type} [Inhabited T] [Mul T] (self arr : NdArray T) :
    Except GridError (NdArray T) :=
  if self.shape = arr.shape then
    .ok (cellLoop (fun x y => x * y) arr.totalSize (copy self) fun i => arr.data.getD i default)
  else .error .assertionFailed

/-- Source `NdArray operator* (const T& num) const`. -/
def operatorMulScalar {T : Type} [Inhabited T] [Mul T] (self : NdArray T) (num : T) :
    NdArray T :=
  cellLoop (fun x y => x * y) self.totalSize (copy self) fun _ => num

/-- Source `NdArray operator/ (const NdArray& arr) const`. -/
def operatorDiv {T : Type} [Inhabited T] [Div T] (self arr : NdArray T) :
    Except GridError (NdArray T) :=
  if self.shape = arr.shape then
    .ok (cellLoop (fun x y => x / y) arr.totalSize (copy self) fun i => arr.data.getD i default)
  else .error .assertionFailed

/-- Source `NdArray operator/ (const T& num) const`. -/
def operatorDivScalar {T : Type} [Inhabited T] [Div T] (self : NdArray T) (num : T) :
    NdArray T :=
  cellLoop (fun x y => x / y) self.totalSize (copy self) fun _ => num

/-- Source `NdArray operator% (const NdArray& arr) const`. -/
def operatorMod {T : Type} [Inhabited T] [Mod T] (self arr : NdArray T) :
    Except GridError (NdArray T) :=
  if self.shape = arr.shape then
    .ok (cellLoop (fun x y => x % y) arr.totalSize (copy self) fun i => arr.data.getD i default)
  else .error .assertionFailed

/-- Source `NdArray operator% (const T& num) const`. -/
def operatorModScalar {T : Type} [Inhabited T] [Mod T] (self : NdArray T) (num : T) :
    NdArray T :=
  cellLoop (fun x y => x % y) self.totalSize (copy self) fun _ => num

/-- Source `NdArray::maxValue`: starts from `data[0]` and keeps every cell that is strictly
greater than the running maximum. -/
def maxValue {T : Type} [Inhabited T] [LinearOrder T] (arr : NdArray T) : T :=
  (List.range arr.totalSize.toNat).foldl
    (fun maxN i => if arr.data.getD i default > maxN then arr.data.getD i default else maxN)
    (arr.data.getD 0 default)

/-- Source `NdArray::minValue`: starts from `data[0]` and keeps every cell that is strictly
smaller than the running minimum. -/
def minValue {T : Type} [Inhabited T] [LinearOrder T] (arr : NdArray T) : T :=
  (List.range arr.totalSize.toNat).foldl
    (fun minN i => if arr.data.getD i default < minN then arr.data.getD i default else minN)
    (arr.data.getD 0 default)

/-- The inner loop `while (n >= 0)` of the "nD for loop" of `operator<<` and `writePmfFile`,
entered with `n = m - 1`: adds one to `loopFlag[n]`; when that exceeds `shape[n] - 1` the entry
is reset to zero and `n` goes down by one, otherwise the loop is left. Returns `loopFlag` and
`n`. -/
def carry (shape : List Int) : Nat → List Int → List Int × Int
  | 0, loopFlag => (loopFlag, -1)
  | m + 1, loopFlag =>
    if (loopFlag.set m (loopFlag.getD m 0 + 1)).getD m 0 > shape.getD m 0 - 1 then
      carry shape m ((loopFlag.set m (loopFlag.getD m 0 + 1)).set m 0)
    else (loopFlag.set m (loopFlag.getD m 0 + 1), m)

/-- The outer loop `while (n >= 0)` of the "nD for loop": visits `loopFlag`, runs the inner loop
from `n = dimension - 1` and goes round again while `n >= 0`. Returns the index vectors in the
order visited. -/
def odometer (shape : List Int) (dimension : Nat) :
    Nat → List Int → List (List Int) → Option (List (List Int))
  | 0, _, _ => none
  | fuel + 1, loopFlag, visited =>
    if (carry shape dimension loopFlag).2 ≥ 0 then
      odometer shape dimension fuel (carry shape dimension loopFlag).1 (visited ++ [loopFlag])
    else some (visited ++ [loopFlag])

/-- The invariant the constructor establishes: `totalSize` is the size of `shape`, it is
positive, and the storage holds `totalSize` cells. -/
def WellFormed {T : Type} (arr : NdArray T) : Prop :=
  arr.totalSize = sizeOfShape arr.shape ∧ 0 < arr.totalSize ∧
    arr.data.length = arr.totalSize.toNat

/-- The grid `result` has the shape and size of `a`, and its cell at every linear offset is
`op` of the cells of `a` and `b` at that offset. -/
def Cellwise {T : Type} (op : T → T → T) (a b result : NdArray T) : Prop :=
  result.shape = a.shape ∧ result.totalSize = a.totalSize ∧
    result.data = List.zipWith op a.data b.data

/-- The grid `result` has the shape and size of `a`, and its cell at every linear offset is
`op` of the cell of `a` at that offset and the scalar `c`. -/
def CellwiseScalar {T : Type} (op : T → T → T) (a : NdArray T) (c : T) (result : NdArray T) :
    Prop :=
  result.shape = a.shape ∧ result.totalSize = a.totalSize ∧
    result.data = a.data.map fun x => op x c

/-- A grid of six integer cells of shape 2x3. -/
def sampleIntGrid : NdArray Int := { data := [7, -3, 4, 9, 0, 5], totalSize := 6, shape := [2, 3] }

/-- A second grid of six integer cells of shape 2x3, without a zero cell. -/
def sampleDivisors : NdArray Int := { data := [2, 3, -1, 4, 5, 2], totalSize := 6, shape := [2, 3] }

end NdArray

namespace pmfParser

end pmfParser

namespace pathFinder

open commonTools pmfParser

/-- The point reached from `q` by following recorded parents at most `n` times, stopping at a
point without a parent. -/
def followParents (s : pathFinder) : Nat → List Int → List Int
  | 0, q => q
  | n + 1, q =>
    match s.fatherPoint q with
    | some p => followParents s n p
    | none => q

/-- The cyclic distance between cells `a` and `b` of a periodic axis with `N` cells, as the
specification words it: `min(|a - b|, N - |a - b|)`. -/
def cyclicDistance (N a b : Int) : Int := min |a - b| (N - |a - b|)

/-- The state a search leaves behind, or the state itself when the fuel ran out. -/
def stateAfter (func : pathFinder → List Int → ℚ) (fuel : Nat) (s : pathFinder) : pathFinder :=
  match Dijkstra func fuel s with
  | some r => r.state
  | none => s

/-- Whether the search returns (rather than exiting or running out of fuel). -/
def hasReturned (func : pathFinder → List Int → ℚ) (fuel : Nat) (s : pathFinder) : Bool :=
  match Dijkstra func fuel s with
  | some (.returned _) => true
  | _ => false

end pathFinder

namespace pmfParser

end pmfParser

namespace pathFinder

open commonTools pmfParser

end pathFinder

namespace NdArray

/-- Source `NdArray::position` on 32-bit `int`: `tempSum *= shape[j]` and `realPos += tempSum`
each leave the value reduced to the range of `int` (two's-complement wrap-around, as in the
size loop of the constructor). -/
def positionInt {T : Type} (arr : NdArray T) (pos : List Int) : Int :=
  (List.range pos.length).foldl
    (fun realPos i =>
      wrapInt (realPos + (List.range' (i + 1) (pos.length - (i + 1))).foldl
        (fun tempSum j => wrapInt (tempSum * arr.shape.getD j 0)) (pos.getD i 0)))
    0

/-- A value is representable as a 32-bit `int`. -/
def FitsInt (x : Int) : Prop := -2147483648 ≤ x ∧ x < 2147483648

instance (x : Int) : Decidable (FitsInt x) := by
  unfold FitsInt; infer_instance

/-- Source `NdArray::operator[]` used as a read, `data[position(pos)]`, with the offset computed
on 32-bit `int`: the cell at that offset when `position` passes its `assert` on the length and
the offset lies inside the storage; `none` otherwise (a failed `assert`, or a read outside the
storage, which is undefined in the source). -/
def readCell {T : Type} (arr : NdArray T) (pos : List Int) : Option T :=
  if pos.length = arr.shape.length ∧ 0 ≤ positionInt arr pos
      ∧ (positionInt arr pos).toNat < arr.data.length then
    arr.data[(positionInt arr pos).toNat]?
  else none

/-- Source `NdArray::operator[]` used as a write, `data[position(pos)] = v`, with the offset
computed on 32-bit `int`: the grid with that cell replaced when `position` passes its `assert`
and the offset lies inside the storage; `none` otherwise (a failed `assert`, or a write outside
the storage, which is undefined in the source). -/
def writeCell {T : Type} (arr : NdArray T) (pos : List Int) (v : T) : Option (NdArray T) :=
  if pos.length = arr.shape.length ∧ 0 ≤ positionInt arr pos
      ∧ (positionInt arr pos).toNat < arr.data.length then
    some { arr with data := arr.data.set (positionInt arr pos).toNat v }
  else none

end NdArray

namespace pmfParser

/-- Conversion `int(x)` of a `double` to a 32-bit `int`: the truncation toward zero when that is
representable as `int`; otherwise the conversion is undefined in the source (`none`). -/
def intOfDouble (x : ℚ) : Option Int :=
  if -2147483649 < x ∧ x < 2147483648 then some (truncToInt x) else none

end pmfParser

namespace pathFinder

open commonTools pmfParser

/-- The engine on `detourGrid` whose end coordinate (0, 4) lies outside the grid, at a linear
offset (4) that is inside the storage of nine cells. -/
def strayEnd : pathFinder := construct detourGrid [0, 0] [0, 4] [false, false]

/-! ## Frontier selection -/

theorem vectorInVectorOfVector_iff (vec : List Int) (vecList : List (List Int)) :
    vectorInVectorOfVector vec vecList = true ↔ vec ∈ vecList := by
  induction vecList with
  | nil => simp [vectorInVectorOfVector]
  | cons a l ih =>
    by_cases h : vec = a
    · simp [vectorInVectorOfVector, h]
    · simp [vectorInVectorOfVector, h, ih]

theorem popMinLoop_spec (prio : List Int → ℚ) (l : List (List Int)) :
    ∀ (pre : List (List Int)) (e0 : ℚ) (k0 : Nat) (y0 : List Int),
      (pre ++ l)[k0]? = some y0 → prio y0 = e0 → (∀ z ∈ pre, e0 ≤ prio z) →
      (∀ j z, j < k0 → (pre ++ l)[j]? = some z → e0 < prio z) →
      ∃ y, (pre ++ l)[(popMinLoop prio l pre.length e0 k0).2]? = some y ∧
        (∀ z ∈ pre ++ l, prio y ≤ prio z) ∧
        (∀ j z, j < (popMinLoop prio l pre.length e0 k0).2 → (pre ++ l)[j]? = some z →
          prio y < prio z) := by
  induction l with
  | nil =>
    intro pre e0 k0 y0 hk he hpre hlt
    refine ⟨y0, by simpa [popMinLoop] using hk, ?_, ?_⟩
    · intro z hz
      rw [he]
      exact hpre z (by simpa using hz)
    · intro j z hj hz
      rw [he]
      exact hlt j z (by simpa [popMinLoop] using hj) hz
  | cons x rest ih =>
    intro pre e0 k0 y0 hk he hpre hlt
    have hsplit : pre ++ x :: rest = (pre ++ [x]) ++ rest := by simp
    have hlen : (pre ++ [x]).length = pre.length + 1 := by simp
    by_cases hx : prio x < e0
    · have hstep : popMinLoop prio (x :: rest) pre.length e0 k0
          = popMinLoop prio rest (pre ++ [x]).length (prio x) pre.length := by
        simp [popMinLoop, hx]
      rw [hstep, hsplit]
      apply ih (pre ++ [x]) (prio x) pre.length x
      · rw [List.getElem?_append_left (by simp)]
        simp
      · rfl
      · intro z hz
        rcases List.mem_append.mp hz with hz | hz
        · exact le_trans (le_of_lt hx) (hpre z hz)
        · simp at hz
          rw [hz]
      · intro j z hj hz
        have : z ∈ pre := by
          rw [List.getElem?_append_left (by simp; omega)] at hz
          rw [List.getElem?_append_left hj] at hz
          exact List.mem_iff_getElem?.mpr ⟨j, hz⟩
        exact lt_of_lt_of_le hx (hpre z this)
    · have hstep : popMinLoop prio (x :: rest) pre.length e0 k0
          = popMinLoop prio rest (pre ++ [x]).length e0 k0 := by
        simp [popMinLoop, hx]
      rw [hstep, hsplit]
      apply ih (pre ++ [x]) e0 k0 y0
      · rw [← hsplit]; exact hk
      · exact he
      · intro z hz
        rcases List.mem_append.mp hz with hz | hz
        · exact hpre z hz
        · simp at hz
          rw [hz]
          exact not_lt.mp hx
      · intro j z hj hz
        rw [← hsplit] at hz
        exact hlt j z hj hz

/-- What `popMin` returns on a non-empty list: it splits the list around the returned point,
whose priority is minimal, and strictly smaller than that of every earlier member. -/
theorem popMin_spec (s : pathFinder) (func : pathFinder → List Int → ℚ)
    (popList : List (List Int)) (hne : popList ≠ []) :
    ∃ p l1 l2, popMin s popList func = some (p, l1 ++ l2) ∧ popList = l1 ++ p :: l2 ∧
      (∀ q ∈ popList, getInternal s.pmfData p + func s p ≤ getInternal s.pmfData q + func s q) ∧
      (∀ q ∈ l1, getInternal s.pmfData p + func s p < getInternal s.pmfData q + func s q) := by
  cases popList with
  | nil => exact absurd rfl hne
  | cons first tl =>
    obtain ⟨y, hy, hmin, hlt⟩ := popMinLoop_spec
      (fun x => getInternal s.pmfData x + func s x) (first :: tl) [] _ 0 first
      (by simp) rfl (by simp) (by simp)
    simp only [List.nil_append, List.length_nil] at hy hmin hlt
    set k := (popMinLoop (fun x => getInternal s.pmfData x + func s x) (first :: tl) 0
      (getInternal s.pmfData first + func s first) 0).2 with hk
    have hklt : k < (first :: tl).length := by
      by_contra hcon
      rw [List.getElem?_eq_none (not_lt.mp hcon)] at hy
      exact absurd hy (by simp)
    refine ⟨y, (first :: tl).take k, (first :: tl).drop (k + 1), ?_, ?_, hmin, ?_⟩
    · simp only [popMin]
      rw [← hk, hy, List.eraseIdx_eq_take_drop_succ]
    · have hget : (first :: tl)[k] = y := by
        rw [List.getElem?_eq_getElem hklt] at hy
        exact Option.some.inj hy
      rw [← hget, ← List.drop_eq_getElem_cons hklt, List.take_append_drop]
    · intro q hq
      obtain ⟨j, hj⟩ := List.mem_iff_getElem?.mp hq
      have hjk : j < k := by
        by_contra hcon
        rw [List.getElem?_take_eq_none (not_lt.mp hcon)] at hj
        exact absurd hj (by simp)
      rw [List.getElem?_take_of_lt hjk] at hj
      exact hlt j q hjk hj

/-! ## Adjacency generation -/

theorem accuracy_pos : (0 : ℚ) < accuracy := by unfold accuracy; norm_num

theorem accuracy_lt_one : accuracy < (1 : ℚ) := by unfold accuracy; norm_num

theorem ge_sub_accuracy_iff (a b : Int) : ((a : ℚ) ≥ (b : ℚ) - accuracy) ↔ b ≤ a := by
  constructor
  · intro h
    by_contra hcon
    have h1 : a + 1 ≤ b := by omega
    have h2 : ((a : ℚ) + 1) ≤ (b : ℚ) := by exact_mod_cast h1
    have := accuracy_lt_one
    linarith
  · intro h
    have h2 : (b : ℚ) ≤ (a : ℚ) := by exact_mod_cast h
    have := accuracy_pos
    show (b : ℚ) - accuracy ≤ a
    linarith

theorem le_add_accuracy_iff (a b : Int) : ((a : ℚ) ≤ (b : ℚ) + accuracy) ↔ a ≤ b := by
  constructor
  · intro h
    by_contra hcon
    have h1 : b + 1 ≤ a := by omega
    have h2 : ((b : ℚ) + 1) ≤ (a : ℚ) := by exact_mod_cast h1
    have := accuracy_lt_one
    linarith
  · intro h
    have h2 : (a : ℚ) ≤ (b : ℚ) := by exact_mod_cast h
    have := accuracy_pos
    linarith

theorem getD_replicate_of_lt {α : Type} (n i : Nat) (a d : α) (h : i < n) :
    (List.replicate n a).getD i d = a := by
  simp [List.getD_eq_getElem?_getD, List.getElem?_replicate, h]

theorem getD_map_sub_one (shape : List Int) (i : Nat) (h : i < shape.length) :
    (shape.map (fun b => b - 1)).getD i 0 = shape.getD i 0 - 1 := by
  simp [List.getD_eq_getElem?_getD, List.getElem?_map, List.getElem?_eq_getElem h]

theorem adjacentAxis_eq (s : pathFinder) (hc : Configured s) (point : List Int)
    (acc : List (List Int)) (i : Nat) (hi : i < s.pmfData.shape.length)
    (hlen : point.length = s.pmfData.shape.length) :
    adjacentAxis s point acc i = acc ++ axisNeighbours s.pmfData.shape s.pbc point i := by
  obtain ⟨_, hlb, hub, hw, _⟩ := hc
  have hpos : ∀ v : Int, (point.set i v).length ≠ 0 := by
    intro v; rw [List.length_set]; omega
  have e1 : s.width.getD i 0 = 1 := by rw [hw]; exact getD_replicate_of_lt _ _ _ _ hi
  have e2 : s.lowerboundary.getD i 0 = 0 := by rw [hlb]; exact getD_replicate_of_lt _ _ _ _ hi
  have e3 : s.upperboundary.getD i 0 = s.pmfData.shape.getD i 0 - 1 := by
    rw [hub]; exact getD_map_sub_one _ _ hi
  have hne : point ≠ [] := by
    intro h; rw [h] at hlen; simp at hlen; omega
  unfold adjacentAxis axisNeighbours
  simp only [e1, e2, e3, ge_sub_accuracy_iff, le_add_accuracy_iff]
  have c1 : (0 ≤ point.getD i 0 - 1) ↔ (1 ≤ point.getD i 0) := by omega
  simp only [c1]
  generalize point.getD i 0 = x
  generalize s.pmfData.shape.getD i 0 = N
  by_cases h1 : 1 ≤ x <;>
  by_cases h2 : x + 1 ≤ N - 1 <;>
  cases hp : s.pbc.getD i false <;>
  simp [h1, h2, hne]

theorem foldl_range_eq_flatMap {α : Type} (f : List α → Nat → List α) (g : Nat → List α)
    (n : Nat) (hf : ∀ acc i, i < n → f acc i = acc ++ g i) :
    (List.range n).foldl f [] = (List.range n).flatMap g := by
  induction n with
  | zero => rfl
  | succ n ih =>
    rw [List.range_succ, List.foldl_append, ih (fun acc i hi => hf acc i (by omega)),
      List.flatMap_append]
    show f _ n = _
    rw [hf _ n (by omega)]
    simp

theorem adjacentList_eq (s : pathFinder) (hc : Configured s) (point : List Int)
    (hlen : point.length = s.pmfData.shape.length) :
    adjacentList s point
      = (List.range s.pmfData.shape.length).flatMap
          (axisNeighbours s.pmfData.shape s.pbc point) := by
  unfold adjacentList
  rw [hc.1, Int.toNat_ofNat]
  exact foldl_range_eq_flatMap _ _ _ (fun acc i hi => adjacentAxis_eq s hc point acc i hi hlen)

theorem mem_adjacentList (s : pathFinder) (hc : Configured s) (point : List Int)
    (hlen : point.length = s.pmfData.shape.length) (q : List Int) :
    q ∈ adjacentList s point ↔
      ∃ i, i < s.pmfData.shape.length ∧ q ∈ axisNeighbours s.pmfData.shape s.pbc point i := by
  rw [adjacentList_eq s hc point hlen]
  simp [List.mem_flatMap]

/-! ## One pass of the search loop -/

theorem SameConfig.refl (a : pathFinder) : SameConfig a a :=
  ⟨rfl, rfl, rfl, rfl, rfl, rfl, rfl, rfl, rfl, rfl⟩

theorem SameConfig.trans {a b c : pathFinder} (h1 : SameConfig a b) (h2 : SameConfig b c) :
    SameConfig a c :=
  ⟨h1.pmfData.trans h2.pmfData, h1.lowerboundary.trans h2.lowerboundary,
    h1.upperboundary.trans h2.upperboundary, h1.width.trans h2.width,
    h1.initialPoint.trans h2.initialPoint, h1.endPoint.trans h2.endPoint, h1.pbc.trans h2.pbc,
    h1.dimension.trans h2.dimension, h1.targetedPoints.trans h2.targetedPoints,
    h1.forceConstants.trans h2.forceConstants⟩

theorem adjacentList_congr {a b : pathFinder} (h : SameConfig a b) (point : List Int) :
    adjacentList a point = adjacentList b point := by
  have hax : adjacentAxis a point = adjacentAxis b point := by
    funext acc i
    simp only [adjacentAxis, h.lowerboundary, h.upperboundary, h.width, h.pbc]
  simp only [adjacentList, hax, h.dimension]

theorem closePoint_sameConfig (s : pathFinder) (p : List Int) (rest : List (List Int)) :
    SameConfig (closePoint s p rest) s :=
  ⟨rfl, rfl, rfl, rfl, rfl, rfl, rfl, rfl, rfl, rfl⟩

theorem visit_of_seen (p : List Int) (t : pathFinder) (q : List Int)
    (h : q ∈ t.openList ∨ q ∈ t.closeList) : visit p t q = t := by
  unfold visit
  by_cases ho : q ∈ t.openList
  · simp [(vectorInVectorOfVector_iff q t.openList).mpr ho]
  · have hc : q ∈ t.closeList := h.resolve_left ho
    have ho2 : vectorInVectorOfVector q t.openList = false := by
      cases hb : vectorInVectorOfVector q t.openList
      · rfl
      · exact absurd ((vectorInVectorOfVector_iff q t.openList).mp hb) ho
    simp [ho2, (vectorInVectorOfVector_iff q t.closeList).mpr hc]

theorem visit_of_new (p : List Int) (t : pathFinder) (q : List Int)
    (ho : q ∉ t.openList) (hc : q ∉ t.closeList) :
    visit p t q =
      { t with
        openList := t.openList ++ [q]
        fatherPoint := fun k => if k = q then some p else t.fatherPoint k } := by
  have ho2 : vectorInVectorOfVector q t.openList = false := by
    cases hb : vectorInVectorOfVector q t.openList
    · rfl
    · exact absurd ((vectorInVectorOfVector_iff q t.openList).mp hb) ho
  have hc2 : vectorInVectorOfVector q t.closeList = false := by
    cases hb : vectorInVectorOfVector q t.closeList
    · rfl
    · exact absurd ((vectorInVectorOfVector_iff q t.closeList).mp hb) hc
  unfold visit
  simp [ho2, hc2]

/-- The effect of the `for` loop over the neighbours: the new points `new` are appended, in
order, to the open list, each with parent `p`; nothing else changes. -/
theorem visit_fold_spec (p : List Int) (adj : List (List Int)) : ∀ t : pathFinder,
    ∃ new : List (List Int),
      (adj.foldl (visit p) t).openList = t.openList ++ new ∧
      (adj.foldl (visit p) t).closeList = t.closeList ∧
      SameConfig (adj.foldl (visit p) t) t ∧
      new.Nodup ∧
      (∀ q ∈ new, q ∈ adj ∧ q ∉ t.openList ∧ q ∉ t.closeList) ∧
      (∀ q ∈ adj, q ∈ t.openList ∨ q ∈ t.closeList ∨ q ∈ new) ∧
      (∀ k, (adj.foldl (visit p) t).fatherPoint k
          = if k ∈ new then some p else t.fatherPoint k) := by
  induction adj with
  | nil =>
    intro t
    exact ⟨[], by simp, rfl, SameConfig.refl t, List.nodup_nil, by simp, by simp, by simp⟩
  | cons q adj ih =>
    intro t
    rw [List.foldl_cons]
    by_cases hseen : q ∈ t.openList ∨ q ∈ t.closeList
    · rw [visit_of_seen p t q hseen]
      obtain ⟨new, h1, h2, h3, h4, h5, h6, h7⟩ := ih t
      refine ⟨new, h1, h2, h3, h4, ?_, ?_, h7⟩
      · intro x hx
        exact ⟨List.mem_cons_of_mem _ (h5 x hx).1, (h5 x hx).2⟩
      · intro x hx
        rcases List.mem_cons.mp hx with hx | hx
        · rw [hx]
          rcases hseen with h | h
          · exact Or.inl h
          · exact Or.inr (Or.inl h)
        · exact h6 x hx
    · have ho : q ∉ t.openList := fun h => hseen (Or.inl h)
      have hc : q ∉ t.closeList := fun h => hseen (Or.inr h)
      rw [visit_of_new p t q ho hc]
      obtain ⟨new, h1, h2, h3, h4, h5, h6, h7⟩ := ih
        { t with
          openList := t.openList ++ [q]
          fatherPoint := fun k => if k = q then some p else t.fatherPoint k }
      simp only at h1 h2 h5 h6 h7
      have hqnew : q ∉ new := fun h => (h5 q h).2.1 (by simp)
      refine ⟨q :: new, ?_, h2, ?_, ?_, ?_, ?_, ?_⟩
      · rw [h1]; simp
      · exact h3.trans ⟨rfl, rfl, rfl, rfl, rfl, rfl, rfl, rfl, rfl, rfl⟩
      · exact List.nodup_cons.mpr ⟨hqnew, h4⟩
      · intro x hx
        rcases List.mem_cons.mp hx with hx | hx
        · rw [hx]; exact ⟨by simp, ho, hc⟩
        · obtain ⟨a, b, c⟩ := h5 x hx
          exact ⟨List.mem_cons_of_mem _ a, fun h => b (by simp [h]), c⟩
      · intro x hx
        rcases List.mem_cons.mp hx with hx | hx
        · rw [hx]; exact Or.inr (Or.inr (by simp))
        · rcases h6 x hx with h | h | h
          · rcases List.mem_append.mp h with h | h
            · exact Or.inl h
            · exact Or.inr (Or.inr (by simp at h; simp [h]))
          · exact Or.inr (Or.inl h)
          · exact Or.inr (Or.inr (List.mem_cons_of_mem _ h))
      · intro k
        rw [h7 k]
        by_cases hk : k ∈ new
        · simp [hk]
        · by_cases hkq : k = q
          · simp [hkq]
          · simp [hk, hkq]

/-- One pass of the loop body on a non-empty open list: `popMin` splits the open list around a
point `p` of minimal priority, `p` is closed, and the pass ends in one of three ways. -/
theorem DijkstraBody_spec (func : pathFinder → List Int → ℚ) (s : pathFinder)
    (hne : s.openList ≠ []) :
    ∃ p l1 l2, s.openList = l1 ++ p :: l2 ∧
      (∀ q ∈ s.openList,
        getInternal s.pmfData p + func s p ≤ getInternal s.pmfData q + func s q) ∧
      ((p = s.endPoint ∧ DijkstraBody func s = some (.found (closePoint s p (l1 ++ l2)))) ∨
       (p ≠ s.endPoint ∧ adjacentList s p = [] ∧
          DijkstraBody func s = some (.fatal (closePoint s p (l1 ++ l2)))) ∨
       (p ≠ s.endPoint ∧ adjacentList s p ≠ [] ∧
          DijkstraBody func s
            = some (.next ((adjacentList s p).foldl (visit p) (closePoint s p (l1 ++ l2)))))) := by
  obtain ⟨p, l1, l2, hpop, hsplit, hmin, _⟩ := popMin_spec s func s.openList hne
  refine ⟨p, l1, l2, hsplit, hmin, ?_⟩
  have hadj : adjacentList (closePoint s p (l1 ++ l2)) p = adjacentList s p :=
    adjacentList_congr (closePoint_sameConfig s p (l1 ++ l2)) p
  by_cases hend : p = s.endPoint
  · left
    refine ⟨hend, ?_⟩
    simp only [DijkstraBody, hpop]
    rw [if_pos hend]
    rfl
  · right
    by_cases hempty : adjacentList s p = []
    · left
      refine ⟨hend, hempty, ?_⟩
      simp only [DijkstraBody, hpop]
      rw [if_neg hend]
      have : findAdjacentPoints { s with openList := l1 ++ l2, closeList := s.closeList ++ [p] } p
          = .error .noAdjacentPoint := by
        unfold findAdjacentPoints
        have h' : adjacentList { s with openList := l1 ++ l2, closeList := s.closeList ++ [p] } p
            = [] := hadj.trans hempty
        simp [h']
      rw [this]
      rfl
    · right
      refine ⟨hend, hempty, ?_⟩
      simp only [DijkstraBody, hpop]
      rw [if_neg hend]
      have h' : adjacentList { s with openList := l1 ++ l2, closeList := s.closeList ++ [p] } p
          = adjacentList s p := hadj
      have : findAdjacentPoints { s with openList := l1 ++ l2, closeList := s.closeList ++ [p] } p
          = .ok (adjacentList s p) := by
        unfold findAdjacentPoints
        rw [h']
        simp [hempty]
      rw [this]
      rfl

/-! ## Invariants of the search state -/

theorem SearchInv_of_fresh (s0 : pathFinder) (h : Fresh s0) : SearchInv s0 s0 := by
  obtain ⟨ho, hc, hf⟩ := h
  refine ⟨SameConfig.refl s0, ?_, ?_, ?_, ?_, hf _, ?_, ?_⟩
  · rw [ho]; simp
  · rw [hc]; simp
  · rw [hc]; simp
  · rw [ho]; simp
  · intro q hq hne
    rw [ho, hc] at hq
    simp at hq
    exact absurd hq hne
  · intro q p hqp
    rw [hf q] at hqp
    exact absurd hqp (by simp)

theorem construct_fresh (pmfData : pmf ℚ) (a b : List ℚ) (pbc : List Bool) :
    Fresh (construct pmfData a b pbc) :=
  ⟨rfl, rfl, fun _ => rfl⟩

theorem SearchInv_closePoint {s0 s : pathFinder} (h : SearchInv s0 s) (p : List Int)
    (l1 l2 : List (List Int)) (hsplit : s.openList = l1 ++ p :: l2) :
    SearchInv s0 (closePoint s p (l1 ++ l2)) := by
  have hnd := h.openNodup
  rw [hsplit] at hnd
  have hp1 : p ∉ l1 := fun hm =>
    (List.nodup_append.mp hnd).2.2 hm (List.mem_cons_self _ _)
  have hp2 : p ∉ l2 := (List.nodup_cons.mp (List.nodup_append.mp hnd).2.1).1
  have hpo : p ∈ s.openList := by rw [hsplit]; simp
  have hsub : ∀ q, q ∈ l1 ++ l2 → q ∈ s.openList := by
    intro q hq
    rw [hsplit]
    rcases List.mem_append.mp hq with hq | hq
    · exact List.mem_append_left _ hq
    · exact List.mem_append_right _ (List.mem_cons_of_mem _ hq)
  have hsup : ∀ q, q ∈ s.openList → q ∈ l1 ++ l2 ∨ q = p := by
    intro q hq
    rw [hsplit] at hq
    rcases List.mem_append.mp hq with hq | hq
    · exact Or.inl (List.mem_append_left _ hq)
    · rcases List.mem_cons.mp hq with hq | hq
      · exact Or.inr hq
      · exact Or.inl (List.mem_append_right _ hq)
  have hseen : ∀ q, (q ∈ s.openList ∨ q ∈ s.closeList) →
      (q ∈ l1 ++ l2 ∨ q ∈ s.closeList ++ [p]) := by
    intro q hq
    rcases hq with hq | hq
    · rcases hsup q hq with hq | hq
      · exact Or.inl hq
      · exact Or.inr (by simp [hq])
    · exact Or.inr (List.mem_append_left _ hq)
  refine ⟨(closePoint_sameConfig s p _).trans h.config, ?_, ?_, ?_, ?_, h.startRoot, ?_, ?_⟩
  · show (l1 ++ l2).Nodup
    have h1 := List.nodup_append.mp hnd
    refine List.nodup_append.mpr ⟨h1.1, (List.nodup_cons.mp h1.2.1).2, ?_⟩
    intro x hx1 hx2
    exact h1.2.2 hx1 (List.mem_cons_of_mem _ hx2)
  · show (s.closeList ++ [p]).Nodup
    refine List.nodup_append.mpr ⟨h.closeNodup, by simp, ?_⟩
    intro x hx1 hx2
    simp at hx2
    rw [hx2] at hx1
    exact h.disjoint p hpo hx1
  · intro q hq
    show q ∉ s.closeList ++ [p]
    intro hc
    rcases List.mem_append.mp hc with hc | hc
    · exact h.disjoint q (hsub q hq) hc
    · simp at hc
      rw [hc] at hq
      rcases List.mem_append.mp hq with hq | hq
      · exact hp1 hq
      · exact hp2 hq
  · exact hseen _ h.startSeen
  · intro q hq hne
    refine h.hasFather q ?_ hne
    rcases hq with hq | hq
    · exact Or.inl (hsub q hq)
    · rcases List.mem_append.mp hq with hq | hq
      · exact Or.inr hq
      · simp at hq
        rw [hq]
        exact Or.inl hpo
  · intro q f hqf
    obtain ⟨hq, hadj, i, hi, hlt⟩ := h.father q f hqf
    refine ⟨hseen q hq, hadj, i, ?_, ?_⟩
    · show (s.closeList ++ [p])[i]? = some f
      have hil : i < s.closeList.length := by
        by_contra hcon
        rw [List.getElem?_eq_none (not_lt.mp hcon)] at hi
        exact absurd hi (by simp)
      rw [List.getElem?_append_left hil]
      exact hi
    · intro j hj
      have hj' : (s.closeList ++ [p])[j]? = some q := hj
      have hil : i < s.closeList.length := by
        by_contra hcon
        rw [List.getElem?_eq_none (not_lt.mp hcon)] at hi
        exact absurd hi (by simp)
      by_cases hjl : j < s.closeList.length
      · rw [List.getElem?_append_left hjl] at hj'
        exact hlt j hj'
      · omega

theorem SearchInv_visit_fold {s0 t : pathFinder} (h : SearchInv s0 t) (p : List Int)
    (c : List (List Int)) (hlast : t.closeList = c ++ [p]) (adj : List (List Int))
    (hadj : ∀ q ∈ adj, q ∈ adjacentList s0 p) :
    SearchInv s0 (adj.foldl (visit p) t) := by
  obtain ⟨new, h1, h2, h3, h4, h5, h6, h7⟩ := visit_fold_spec p adj t
  have hstart : s0.initialPoint ∉ new := by
    intro hm
    rcases h.startSeen with hs | hs
    · exact (h5 _ hm).2.1 hs
    · exact (h5 _ hm).2.2 hs
  refine ⟨h3.trans h.config, ?_, ?_, ?_, ?_, ?_, ?_, ?_⟩
  · rw [h1]
    refine List.nodup_append.mpr ⟨h.openNodup, h4, ?_⟩
    intro x hx1 hx2
    exact (h5 x hx2).2.1 hx1
  · rw [h2]; exact h.closeNodup
  · intro q hq
    rw [h2]
    rw [h1] at hq
    rcases List.mem_append.mp hq with hq | hq
    · exact h.disjoint q hq
    · exact (h5 q hq).2.2
  · rw [h1, h2]
    rcases h.startSeen with hs | hs
    · exact Or.inl (List.mem_append_left _ hs)
    · exact Or.inr hs
  · rw [h7, if_neg hstart]
    exact h.startRoot
  · intro q hq hne
    rw [h7]
    by_cases hqn : q ∈ new
    · exact ⟨p, by simp [hqn]⟩
    · rw [if_neg hqn]
      refine h.hasFather q ?_ hne
      rw [h1, h2] at hq
      rcases hq with hq | hq
      · rcases List.mem_append.mp hq with hq | hq
        · exact Or.inl hq
        · exact absurd hq hqn
      · exact Or.inr hq
  · intro q f hqf
    rw [h7] at hqf
    rw [h1, h2]
    by_cases hqn : q ∈ new
    · rw [if_pos hqn] at hqf
      have hf : p = f := Option.some.inj hqf
      subst hf
      refine ⟨Or.inl (List.mem_append_right _ hqn), hadj q (h5 q hqn).1, c.length, ?_, ?_⟩
      · rw [hlast]; simp
      · intro j hj
        exact absurd (List.mem_iff_getElem?.mpr ⟨j, hj⟩) (h5 q hqn).2.2
    · rw [if_neg hqn] at hqf
      obtain ⟨hq, hadj', i, hi, hlt⟩ := h.father q f hqf
      refine ⟨?_, hadj', i, hi, hlt⟩
      rcases hq with hq | hq
      · exact Or.inl (List.mem_append_left _ hq)
      · exact Or.inr hq

/-! ## Neighbours of in-range points -/

theorem mem_axisNeighbours (shape : List Int) (pbc : List Bool) (point : List Int) (i : Nat)
    (q : List Int) :
    q ∈ axisNeighbours shape pbc point i ↔
      (1 ≤ point.getD i 0 ∧ q = point.set i (point.getD i 0 - 1)) ∨
      (¬ 1 ≤ point.getD i 0 ∧ pbc.getD i false = true ∧ q = point.set i (shape.getD i 0 - 1)) ∨
      (point.getD i 0 + 1 ≤ shape.getD i 0 - 1 ∧ q = point.set i (point.getD i 0 + 1)) ∨
      (¬ point.getD i 0 + 1 ≤ shape.getD i 0 - 1 ∧ pbc.getD i false = true ∧
        q = point.set i 0) := by
  unfold axisNeighbours
  generalize point.getD i 0 = x
  generalize shape.getD i 0 = N
  by_cases h1 : 1 ≤ x <;>
  by_cases h2 : x + 1 ≤ N - 1 <;>
  cases hp : pbc.getD i false <;>
  simp [h1, h2]

theorem getD_set (l : List Int) (i j : Nat) (v : Int) (hi : i < l.length) :
    (l.set i v).getD j 0 = if i = j then v else l.getD j 0 := by
  simp only [List.getD_eq_getElem?_getD, List.getElem?_set]
  by_cases h : i = j
  · subst h
    simp [hi]
  · simp [h]

theorem inRange_set (shape p : List Int) (i : Nat) (v : Int) (hp : inRange shape p)
    (hv : 0 ≤ v ∧ v ≤ shape.getD i 0 - 1) : inRange shape (p.set i v) := by
  refine ⟨by rw [List.length_set]; exact hp.1, ?_⟩
  intro j hj
  by_cases hi : i < p.length
  · rw [getD_set p i j v hi]
    by_cases h : i = j
    · rw [if_pos h, ← h]; exact hv
    · rw [if_neg h]; exact hp.2 j hj
  · rw [List.set_eq_of_length_le (not_lt.mp hi)]
    exact hp.2 j hj

theorem inRange_of_mem_axisNeighbours (shape : List Int) (pbc : List Bool) (p : List Int)
    (i : Nat) (hi : i < shape.length) (hp : inRange shape p) (q : List Int)
    (hq : q ∈ axisNeighbours shape pbc p i) : inRange shape q := by
  have hx := hp.2 i hi
  rcases (mem_axisNeighbours shape pbc p i q).mp hq with
    ⟨h1, rfl⟩ | ⟨_, _, rfl⟩ | ⟨h1, rfl⟩ | ⟨_, _, rfl⟩
  · exact inRange_set shape p i _ hp ⟨by omega, by omega⟩
  · exact inRange_set shape p i _ hp ⟨by omega, by omega⟩
  · exact inRange_set shape p i _ hp ⟨by omega, by omega⟩
  · exact inRange_set shape p i _ hp ⟨by omega, by omega⟩

theorem inRange_of_mem_adjacentList (s : pathFinder) (hc : Configured s) (p : List Int)
    (hp : inRange s.pmfData.shape p) (q : List Int) (hq : q ∈ adjacentList s p) :
    inRange s.pmfData.shape q := by
  obtain ⟨i, hi, hqi⟩ := (mem_adjacentList s hc p hp.1 q).mp hq
  exact inRange_of_mem_axisNeighbours _ _ p i hi hp q hqi

/-! ## What one pass does to the invariants -/

theorem DijkstraBody_next_inv (func : pathFinder → List Int → ℚ) {s0 s s1 : pathFinder}
    (h : SearchInv s0 s) (hne : s.openList ≠ [])
    (hb : DijkstraBody func s = some (.next s1)) :
    ∃ p, p ∈ s.openList ∧ p ≠ s0.endPoint ∧
      (∀ q ∈ s.openList,
        getInternal s.pmfData p + func s p ≤ getInternal s.pmfData q + func s q) ∧
      s1.closeList = s.closeList ++ [p] ∧ SearchInv s0 s1 ∧
      (∀ q, q ∈ s.openList → q = p ∨ q ∈ s1.openList) ∧
      (∀ q, q ∈ s1.openList → q ∈ s.openList ∨ q ∈ adjacentList s0 p) ∧
      (∀ q, q ∈ adjacentList s0 p → q ∈ s1.openList ∨ q ∈ s1.closeList) := by
  obtain ⟨p, l1, l2, hsplit, hmin, hcase⟩ := DijkstraBody_spec func s hne
  have hadj0 : adjacentList s p = adjacentList s0 p := adjacentList_congr h.config p
  rcases hcase with ⟨_, he⟩ | ⟨_, _, he⟩ | ⟨hend, _, he⟩
  · rw [he] at hb; cases hb
  · rw [he] at hb; cases hb
  · rw [he] at hb
    have hs1 : s1 = (adjacentList s p).foldl (visit p) (closePoint s p (l1 ++ l2)) := by
      injection hb with hb
      injection hb with hb
      exact hb.symm
    have hinv1 := SearchInv_closePoint h p l1 l2 hsplit
    obtain ⟨new, h1, h2, _, _, h5, h6, _⟩ :=
      visit_fold_spec p (adjacentList s p) (closePoint s p (l1 ++ l2))
    have hinv2 := SearchInv_visit_fold hinv1 p s.closeList rfl (adjacentList s p)
      (fun q hq => hadj0 ▸ hq)
    rw [← hs1] at h1 h2 hinv2
    have ho : (closePoint s p (l1 ++ l2)).openList = l1 ++ l2 := rfl
    have hcl : (closePoint s p (l1 ++ l2)).closeList = s.closeList ++ [p] := rfl
    rw [ho] at h1 h5 h6
    rw [hcl] at h2 h5 h6
    refine ⟨p, by rw [hsplit]; simp, by rw [← h.config.endPoint]; exact hend, hmin, h2, hinv2,
      ?_, ?_, ?_⟩
    · intro q hq
      rw [hsplit] at hq
      rw [h1]
      rcases List.mem_append.mp hq with hq | hq
      · exact Or.inr (by simp [hq])
      · rcases List.mem_cons.mp hq with hq | hq
        · exact Or.inl hq
        · exact Or.inr (by simp [hq])
    · intro q hq
      rw [h1] at hq
      rw [hsplit]
      rcases List.mem_append.mp hq with hq | hq
      · left
        rcases List.mem_append.mp hq with hq | hq
        · simp [hq]
        · simp [hq]
      · right
        rw [← hadj0]
        exact (h5 q hq).1
    · intro q hq
      rw [← hadj0] at hq
      rw [h1, h2]
      rcases h6 q hq with hq | hq | hq
      · exact Or.inl (List.mem_append_left _ hq)
      · exact Or.inr hq
      · exact Or.inl (List.mem_append_right _ hq)

theorem DijkstraBody_found_inv (func : pathFinder → List Int → ℚ) {s0 s s1 : pathFinder}
    (h : SearchInv s0 s) (hne : s.openList ≠ [])
    (hb : DijkstraBody func s = some (.found s1)) :
    s0.endPoint ∈ s.openList ∧
      (∀ q ∈ s.openList,
        getInternal s.pmfData s0.endPoint + func s s0.endPoint
          ≤ getInternal s.pmfData q + func s q) ∧
      s1.closeList = s.closeList ++ [s0.endPoint] ∧ SearchInv s0 s1 ∧
      (∀ q, q ∈ s1.openList → q ∈ s.openList) := by
  obtain ⟨p, l1, l2, hsplit, hmin, hcase⟩ := DijkstraBody_spec func s hne
  rcases hcase with ⟨hend, he⟩ | ⟨_, _, he⟩ | ⟨_, _, he⟩
  · rw [he] at hb
    have hs1 : s1 = closePoint s p (l1 ++ l2) := by
      injection hb with hb
      injection hb with hb
      exact hb.symm
    have hp : p = s0.endPoint := by rw [← h.config.endPoint]; exact hend
    have hinv1 := SearchInv_closePoint h p l1 l2 hsplit
    rw [← hs1] at hinv1
    rw [← hp]
    refine ⟨by rw [hsplit]; simp, hmin, by rw [hs1]; rfl, hinv1, ?_⟩
    intro q hq
    rw [hs1] at hq
    have hq' : q ∈ l1 ++ l2 := hq
    rw [hsplit]
    rcases List.mem_append.mp hq' with hq' | hq'
    · simp [hq']
    · simp [hq']
  · rw [he] at hb; cases hb
  · rw [he] at hb; cases hb

theorem DijkstraBody_fatal_inv (func : pathFinder → List Int → ℚ) {s0 s s1 : pathFinder}
    (h : SearchInv s0 s) (hne : s.openList ≠ [])
    (hb : DijkstraBody func s = some (.fatal s1)) :
    ∃ p, p ∈ s.openList ∧ p ≠ s0.endPoint ∧ adjacentList s0 p = [] ∧
      s1.closeList = s.closeList ++ [p] ∧ SearchInv s0 s1 := by
  obtain ⟨p, l1, l2, hsplit, hmin, hcase⟩ := DijkstraBody_spec func s hne
  rcases hcase with ⟨_, he⟩ | ⟨hend, hempty, he⟩ | ⟨_, _, he⟩
  · rw [he] at hb; cases hb
  · rw [he] at hb
    have hs1 : s1 = closePoint s p (l1 ++ l2) := by
      injection hb with hb
      injection hb with hb
      exact hb.symm
    have hinv1 := SearchInv_closePoint h p l1 l2 hsplit
    rw [← hs1] at hinv1
    refine ⟨p, by rw [hsplit]; simp, by rw [← h.config.endPoint]; exact hend, ?_,
      by rw [hs1]; rfl, hinv1⟩
    rw [← adjacentList_congr h.config p]
    exact hempty
  · rw [he] at hb; cases hb

theorem DijkstraBody_isSome (func : pathFinder → List Int → ℚ) (s : pathFinder)
    (hne : s.openList ≠ []) : ∃ r, DijkstraBody func s = some r := by
  obtain ⟨p, l1, l2, _, _, hcase⟩ := DijkstraBody_spec func s hne
  rcases hcase with ⟨_, he⟩ | ⟨_, _, he⟩ | ⟨_, _, he⟩
  · exact ⟨_, he⟩
  · exact ⟨_, he⟩
  · exact ⟨_, he⟩

/-! ## The search loop -/

/-- Loop rule for `Dijkstra`: a property kept by every pass that goes round again holds at the
last head of the loop, from which the result is read off. -/
theorem Dijkstra_loop (func : pathFinder → List Int → ℚ) (P : pathFinder → Prop)
    (hstep : ∀ s s1, P s → s.openList ≠ [] → DijkstraBody func s = some (.next s1) → P s1) :
    ∀ (fuel : Nat) (s : pathFinder) (r : SearchResult), P s → Dijkstra func fuel s = some r →
      ∃ t, P t ∧ ((t.openList = [] ∧ r = .returned t) ∨
        (t.openList ≠ [] ∧ ∃ t1, (DijkstraBody func t = some (.found t1) ∧ r = .returned t1) ∨
          (DijkstraBody func t = some (.fatal t1) ∧ r = .fatal t1))) := by
  intro fuel
  induction fuel with
  | zero =>
    intro s r _ h
    simp [Dijkstra] at h
  | succ n ih =>
    intro s r hP h
    by_cases hne : s.openList = []
    · refine ⟨s, hP, Or.inl ⟨hne, ?_⟩⟩
      simp [Dijkstra, hne] at h
      exact h.symm
    · have hlen : s.openList.length ≠ 0 := by
        intro h0; exact hne (List.length_eq_zero.mp h0)
      simp only [Dijkstra, if_pos hlen] at h
      obtain ⟨b, hb⟩ := DijkstraBody_isSome func s hne
      rw [hb] at h
      cases b with
      | next s1 => exact ih s1 r (hstep s s1 hP hne hb) h
      | found s1 =>
        refine ⟨s, hP, Or.inr ⟨hne, s1, Or.inl ⟨hb, ?_⟩⟩⟩
        simp at h
        exact h.symm
      | fatal s1 =>
        refine ⟨s, hP, Or.inr ⟨hne, s1, Or.inr ⟨hb, ?_⟩⟩⟩
        simp at h
        exact h.symm

/-- Rule for `afterPasses`: a property kept by every completed pass holds after any number of
passes. -/
theorem afterPasses_rule (func : pathFinder → List Int → ℚ) (P : pathFinder → Prop)
    (hnext : ∀ s s1, P s → s.openList ≠ [] → DijkstraBody func s = some (.next s1) → P s1)
    (hfound : ∀ s s1, P s → s.openList ≠ [] → DijkstraBody func s = some (.found s1) → P s1) :
    ∀ (k : Nat) (s t : pathFinder), P s → afterPasses func k s = some t → P t := by
  intro k
  induction k with
  | zero =>
    intro s t hP h
    simp [afterPasses] at h
    rw [← h]; exact hP
  | succ n ih =>
    intro s t hP h
    by_cases hne : s.openList = []
    · simp [afterPasses, hne] at h
    · have hlen : s.openList.length ≠ 0 := by
        intro h0; exact hne (List.length_eq_zero.mp h0)
      simp only [afterPasses, if_pos hlen] at h
      obtain ⟨b, hb⟩ := DijkstraBody_isSome func s hne
      rw [hb] at h
      cases b with
      | next s1 => exact ih s1 t (hnext s s1 hP hne hb) h
      | found s1 =>
        simp only at h
        by_cases hn : n = 0
        · rw [if_pos hn] at h
          have : s1 = t := Option.some.inj h
          rw [← this]
          exact hfound s s1 hP hne hb
        · rw [if_neg hn] at h
          exact absurd h (by simp)
      | fatal s1 => simp at h

/-! ## Counting the grid points -/

theorem inRange_cons (n : Int) (shape : List Int) (p : List Int) (h : inRange (n :: shape) p) :
    ∃ x xs, p = x :: xs ∧ 0 ≤ x ∧ x ≤ n - 1 ∧ inRange shape xs := by
  obtain ⟨hlen, hall⟩ := h
  cases p with
  | nil => simp at hlen
  | cons x xs =>
    refine ⟨x, xs, rfl, ?_, ?_, ?_, ?_⟩
    · have := hall 0 (by simp)
      simpa using this.1
    · have := hall 0 (by simp)
      simpa using this.2
    · simpa using hlen
    · intro i hi
      have := hall (i + 1) (by simp; omega)
      simpa using this

theorem mem_allPoints (shape : List Int) : ∀ p, inRange shape p → p ∈ allPoints shape := by
  induction shape with
  | nil =>
    intro p hp
    have : p = [] := List.length_eq_zero.mp hp.1
    simp [allPoints, this]
  | cons n shape ih =>
    intro p hp
    obtain ⟨x, xs, rfl, h0, h1, hxs⟩ := inRange_cons n shape p hp
    simp only [allPoints, List.mem_map]
    refine ⟨(x.toNat, xs), ?_, ?_⟩
    · show (x.toNat, xs) ∈ (List.range n.toNat) ×ˢ (allPoints shape)
      rw [List.mem_product]
      refine ⟨?_, ih xs hxs⟩
      simp only [List.mem_range]
      omega
    · simp [Int.toNat_of_nonneg h0]

theorem length_allPoints (shape : List Int) :
    (allPoints shape).length = (shape.map Int.toNat).prod := by
  induction shape with
  | nil => simp [allPoints]
  | cons n shape ih =>
    simp only [allPoints, List.length_map, List.map_cons, List.prod_cons]
    show ((List.range n.toNat) ×ˢ (allPoints shape)).length = _
    rw [List.length_product, ih, List.length_range]

theorem prod_toNat_of_inRange (shape : List Int) :
    ∀ p, inRange shape p → (((shape.map Int.toNat).prod : Nat) : Int) = shape.prod := by
  induction shape with
  | nil => intro p _; simp
  | cons n shape ih =>
    intro p hp
    obtain ⟨x, xs, _, h0, h1, hxs⟩ := inRange_cons n shape p hp
    have hn : 0 ≤ n := by omega
    simp only [List.map_cons, List.prod_cons, Nat.cast_mul, ih xs hxs, Int.toNat_of_nonneg hn]

theorem length_le_of_inRange (shape : List Int) (l : List (List Int)) (hnd : l.Nodup)
    (hr : ∀ q ∈ l, inRange shape q) : l.length ≤ (shape.map Int.toNat).prod := by
  rw [← length_allPoints]
  exact (List.subperm_of_subset hnd (fun q hq => mem_allPoints shape q (hr q hq))).length_le

/-! ## Points stay in range, and the loop terminates -/

theorem InvRange_next (func : pathFinder → List Int → ℚ) {s0 s s1 : pathFinder}
    (hc : Configured s0) (h : SearchInv s0 s) (hr : InvRange s0 s) (hne : s.openList ≠ [])
    (hb : DijkstraBody func s = some (.next s1)) : InvRange s0 s1 := by
  obtain ⟨p, hp, _, _, hcl, _, _, hopen, _⟩ := DijkstraBody_next_inv func h hne hb
  intro q hq
  rcases hq with hq | hq
  · rcases hopen q hq with hq | hq
    · exact hr q (Or.inl hq)
    · exact inRange_of_mem_adjacentList s0 hc p (hr p (Or.inl hp)) q hq
  · rw [hcl] at hq
    rcases List.mem_append.mp hq with hq | hq
    · exact hr q (Or.inr hq)
    · simp at hq
      rw [hq]; exact hr p (Or.inl hp)

theorem InvRange_found (func : pathFinder → List Int → ℚ) {s0 s s1 : pathFinder}
    (h : SearchInv s0 s) (hr : InvRange s0 s) (hne : s.openList ≠ [])
    (hb : DijkstraBody func s = some (.found s1)) : InvRange s0 s1 := by
  obtain ⟨hp, _, hcl, _, hopen⟩ := DijkstraBody_found_inv func h hne hb
  intro q hq
  rcases hq with hq | hq
  · exact hr q (Or.inl (hopen q hq))
  · rw [hcl] at hq
    rcases List.mem_append.mp hq with hq | hq
    · exact hr q (Or.inr hq)
    · simp at hq
      rw [hq]; exact hr _ (Or.inl hp)

theorem closeList_length_le {s0 s : pathFinder} (h : SearchInv s0 s) (hr : InvRange s0 s) :
    s.closeList.length ≤ (s0.pmfData.shape.map Int.toNat).prod :=
  length_le_of_inRange _ _ h.closeNodup (fun q hq => hr q (Or.inr hq))

theorem Dijkstra_terminates (func : pathFinder → List Int → ℚ) (s0 : pathFinder)
    (hc : Configured s0) :
    ∀ (fuel : Nat) (s : pathFinder), SearchInv s0 s → InvRange s0 s →
      (s0.pmfData.shape.map Int.toNat).prod < s.closeList.length + fuel →
      ∃ r, Dijkstra func fuel s = some r ∧
        r.state.closeList.length ≤ (s0.pmfData.shape.map Int.toNat).prod := by
  intro fuel
  induction fuel with
  | zero =>
    intro s h hr hlt
    have := closeList_length_le h hr
    omega
  | succ n ih =>
    intro s h hr hlt
    by_cases hne : s.openList = []
    · refine ⟨.returned s, by simp [Dijkstra, hne], closeList_length_le h hr⟩
    · have hlen : s.openList.length ≠ 0 := by
        intro h0; exact hne (List.length_eq_zero.mp h0)
      obtain ⟨b, hb⟩ := DijkstraBody_isSome func s hne
      cases b with
      | next s1 =>
        obtain ⟨p, _, _, _, hcl, hinv1, _⟩ := DijkstraBody_next_inv func h hne hb
        have hr1 := InvRange_next func hc h hr hne hb
        have hlt1 : (s0.pmfData.shape.map Int.toNat).prod < s1.closeList.length + n := by
          rw [hcl]; simp; omega
        obtain ⟨r, hr', hle⟩ := ih s1 hinv1 hr1 hlt1
        exact ⟨r, by simp only [Dijkstra, if_pos hlen, hb]; exact hr', hle⟩
      | found s1 =>
        obtain ⟨_, _, _, hinv1, _⟩ := DijkstraBody_found_inv func h hne hb
        have hr1 := InvRange_found func h hr hne hb
        exact ⟨.returned s1, by simp only [Dijkstra, if_pos hlen, hb],
          closeList_length_le hinv1 hr1⟩
      | fatal s1 =>
        obtain ⟨p, hp, _, _, hcl, hinv1⟩ := DijkstraBody_fatal_inv func h hne hb
        refine ⟨.fatal s1, by simp only [Dijkstra, if_pos hlen, hb], ?_⟩
        have : ∀ q ∈ s1.closeList, inRange s0.pmfData.shape q := by
          intro q hq
          rw [hcl] at hq
          rcases List.mem_append.mp hq with hq | hq
          · exact hr q (Or.inr hq)
          · simp at hq
            rw [hq]; exact hr p (Or.inl hp)
        exact length_le_of_inRange _ _ hinv1.closeNodup this

theorem construct_configured (pmfData : pmf ℚ) (a b : List ℚ) (pbc : List Bool)
    (hdim : pmfData.dimension = (pmfData.shape.length : Int))
    (hpbc : pbc.length = pmfData.shape.length) :
    Configured (construct pmfData a b pbc) := by
  refine ⟨hdim, ?_, rfl, ?_, hpbc⟩
  · show List.replicate (getDimension pmfData).toNat 0 = List.replicate pmfData.shape.length 0
    simp [getDimension, hdim]
  · show List.replicate (getDimension pmfData).toNat 1 = List.replicate pmfData.shape.length 1
    simp [getDimension, hdim]

theorem InvRange_of_fresh (s0 : pathFinder) (hf : Fresh s0)
    (hs : inRange s0.pmfData.shape s0.initialPoint) : InvRange s0 s0 := by
  intro q hq
  rw [hf.1, hf.2.1] at hq
  simp at hq
  rw [hq]; exact hs

/-! ## Path reconstruction -/

theorem constructResults_spec {s0 s : pathFinder} (h : SearchInv s0 s) :
    ∀ (n : Nat) (q : List Int) (j : Nat), s.closeList[j]? = some q → j ≤ n →
      ∃ chain : List (List Int),
        (∀ fuel, n + 1 ≤ fuel → ∀ traj,
          constructResults s fuel q traj = some (q, traj ++ chain)) ∧
        (chain ++ [q]).head? = some s0.initialPoint ∧
        List.Chain' (fun a b => b ∈ adjacentList s0 a) (chain ++ [q]) ∧
        (∀ x ∈ chain, x ∈ s.closeList) := by
  intro n
  induction n with
  | zero =>
    intro q j hj hjn
    have hqc : q ∈ s.closeList := List.mem_iff_getElem?.mpr ⟨j, hj⟩
    cases hf : s.fatherPoint q with
    | none =>
      have hq : q = s0.initialPoint := by
        by_contra hne
        obtain ⟨p, hp⟩ := h.hasFather q (Or.inr hqc) hne
        rw [hf] at hp
        exact absurd hp (by simp)
      refine ⟨[], ?_, by simp [hq], by simp, by simp⟩
      intro fuel hfuel traj
      obtain ⟨f, rfl⟩ : ∃ f, fuel = f + 1 := ⟨fuel - 1, by omega⟩
      simp [constructResults, hf]
    | some p =>
      obtain ⟨_, _, i, _, hlt⟩ := h.father q p hf
      have := hlt j hj
      omega
  | succ m ih =>
    intro q j hj hjn
    have hqc : q ∈ s.closeList := List.mem_iff_getElem?.mpr ⟨j, hj⟩
    cases hf : s.fatherPoint q with
    | none =>
      have hq : q = s0.initialPoint := by
        by_contra hne
        obtain ⟨p, hp⟩ := h.hasFather q (Or.inr hqc) hne
        rw [hf] at hp
        exact absurd hp (by simp)
      refine ⟨[], ?_, by simp [hq], by simp, by simp⟩
      intro fuel hfuel traj
      obtain ⟨f, rfl⟩ : ∃ f, fuel = f + 1 := ⟨fuel - 1, by omega⟩
      simp [constructResults, hf]
    | some p =>
      obtain ⟨_, hadj, i, hi, hlt⟩ := h.father q p hf
      have hij := hlt j hj
      obtain ⟨chain, hrun, hhead, hchain, hmem⟩ := ih p i hi (by omega)
      refine ⟨chain ++ [p], ?_, ?_, ?_, ?_⟩
      · intro fuel hfuel traj
        obtain ⟨f, rfl⟩ : ∃ f, fuel = f + 1 := ⟨fuel - 1, by omega⟩
        simp only [constructResults, hf]
        rw [hrun f (by omega) traj]
        simp
      · rw [List.head?_append_of_ne_nil _ (by simp)]
        exact hhead
      · refine List.chain'_append.mpr ⟨hchain, by simp, ?_⟩
        intro x hx y hy
        simp at hx hy
        rw [← hx, ← hy]
        exact hadj
      · intro x hx
        rcases List.mem_append.mp hx with hx | hx
        · exact hmem x hx
        · simp at hx
          rw [hx]
          exact List.mem_iff_getElem?.mpr ⟨i, hi⟩

/-- The trajectory of a state in which the end point is closed: it runs from the start point to
the end point along neighbour steps, inside the closed list. -/
theorem internalTrajectory_spec {s0 s : pathFinder} (h : SearchInv s0 s)
    (hend : s0.endPoint ∈ s.closeList) :
    ∃ traj : List (List Int),
      (∀ fuel, s.closeList.length ≤ fuel → internalTrajectory s fuel = some traj) ∧
      traj.head? = some s0.initialPoint ∧ traj.getLast? = some s0.endPoint ∧
      List.Chain' (fun a b => b ∈ adjacentList s0 a) traj ∧
      (∀ x ∈ traj, x ∈ s.closeList) := by
  obtain ⟨j, hj⟩ := List.mem_iff_getElem?.mp hend
  have hjl : j < s.closeList.length := by
    by_contra hcon
    rw [List.getElem?_eq_none (not_lt.mp hcon)] at hj
    exact absurd hj (by simp)
  obtain ⟨chain, hrun, hhead, hchain, hmem⟩ := constructResults_spec h j s0.endPoint j hj (le_refl _)
  refine ⟨chain ++ [s0.endPoint], ?_, hhead, by simp, hchain, ?_⟩
  · intro fuel hfuel
    unfold internalTrajectory
    rw [h.config.endPoint, hrun fuel (by omega) []]
    simp
  · intro x hx
    rcases List.mem_append.mp hx with hx | hx
    · exact hmem x hx
    · simp at hx
      rw [hx]; exact hend

/-- The trajectory of a state in which the end point was never reached: the end point alone. -/
theorem internalTrajectory_unreached {s0 s : pathFinder} (h : SearchInv s0 s)
    (hopen : s0.endPoint ∉ s.openList) (hclose : s0.endPoint ∉ s.closeList) (fuel : Nat)
    (hfuel : 1 ≤ fuel) : internalTrajectory s fuel = some [s0.endPoint] := by
  have hf : s.fatherPoint s0.endPoint = none := by
    cases hf : s.fatherPoint s0.endPoint with
    | none => rfl
    | some p =>
      rcases (h.father _ p hf).1 with hm | hm
      · exact absurd hm hopen
      · exact absurd hm hclose
  obtain ⟨f, rfl⟩ : ∃ f, fuel = f + 1 := ⟨fuel - 1, by omega⟩
  unfold internalTrajectory
  rw [h.config.endPoint]
  simp [constructResults, hf]

/-! ## Claims on frontier selection and adjacency -/

theorem findAdjacentPoints_of_ne_nil (s : pathFinder) (point : List Int)
    (h : adjacentList s point ≠ []) : findAdjacentPoints s point = .ok (adjacentList s point) := by
  unfold findAdjacentPoints
  have : (adjacentList s point).length ≠ 0 := fun h0 => h (List.length_eq_zero.mp h0)
  rw [if_pos this]

theorem findAdjacentPoints_of_nil (s : pathFinder) (point : List Int)
    (h : adjacentList s point = []) : findAdjacentPoints s point = .error .noAdjacentPoint := by
  unfold findAdjacentPoints
  rw [h]
  simp

theorem isNeighbour_iff (s : pathFinder) (a b : List Int) :
    IsNeighbour s a b ↔ b ∈ adjacentList s a := by
  constructor
  · rintro ⟨adj, hadj, hb⟩
    by_cases hnil : adjacentList s a = []
    · rw [findAdjacentPoints_of_nil s a hnil] at hadj
      cases hadj
    · rw [findAdjacentPoints_of_ne_nil s a hnil] at hadj
      cases hadj
      exact hb
  · intro hb
    exact ⟨_, findAdjacentPoints_of_ne_nil s a (List.ne_nil_of_mem hb), hb⟩

theorem axisNeighbours_eq_nil_iff (shape : List Int) (pbc : List Bool) (point : List Int)
    (i : Nat) (h0 : 0 ≤ point.getD i 0) (h1 : point.getD i 0 ≤ shape.getD i 0 - 1) :
    axisNeighbours shape pbc point i = [] ↔ pbc.getD i false = false ∧ shape.getD i 0 = 1 := by
  unfold axisNeighbours
  generalize point.getD i 0 = x at h0 h1
  generalize shape.getD i 0 = N at h1
  by_cases c1 : 1 ≤ x <;>
  by_cases c2 : x + 1 ≤ N - 1 <;>
  cases hp : pbc.getD i false <;>
  simp [c1, c2] <;> omega

theorem length_flatMap_const {α β : Type} (l : List α) (f : α → List β) (c : Nat)
    (h : ∀ x ∈ l, (f x).length = c) : (l.flatMap f).length = l.length * c := by
  induction l with
  | nil => simp
  | cons a l ih =>
    rw [List.flatMap_cons, List.length_append, h a (by simp),
      ih (fun x hx => h x (List.mem_cons_of_mem _ hx)), List.length_cons]
    ring

/-- C4 (frontier selection): on a non-empty open list and for every heuristic, `popMin` returns
a member `p` whose priority (own grid energy plus heuristic) is at most that of every member,
and the list it leaves is the original list with that one occurrence removed, the other members
keeping their order. -/
theorem popMin_selects_minimum (s : pathFinder) (func : pathFinder → List Int → ℚ)
    (popList : List (List Int)) (hne : popList ≠ []) :
    ∃ p l1 l2, popMin s popList func = some (p, l1 ++ l2) ∧ popList = l1 ++ p :: l2 ∧
      p ∈ popList ∧
      ∀ q ∈ popList, getInternal s.pmfData p + func s p ≤ getInternal s.pmfData q + func s q := by
  obtain ⟨p, l1, l2, h1, h2, h3, _⟩ := popMin_spec s func popList hne
  exact ⟨p, l1, l2, h1, h2, by rw [h2]; simp, h3⟩

theorem popMin_selects_minimum_witness :
    ([[0, 1], [1, 0], [1, 1]] : List (List Int)) ≠ [] ∧
    ∃ p l1 l2, popMin detourEngine [[0, 1], [1, 0], [1, 1]] manhattonPotential
        = some (p, l1 ++ l2) ∧
      ([[0, 1], [1, 0], [1, 1]] : List (List Int)) = l1 ++ p :: l2 ∧
      p ∈ ([[0, 1], [1, 0], [1, 1]] : List (List Int)) ∧
      ∀ q ∈ ([[0, 1], [1, 0], [1, 1]] : List (List Int)),
        getInternal detourEngine.pmfData p + manhattonPotential detourEngine p
          ≤ getInternal detourEngine.pmfData q + manhattonPotential detourEngine q :=
  ⟨by decide, popMin_selects_minimum detourEngine manhattonPotential _ (by decide)⟩

/-- C5 (periodic adjacency): for an in-range point and a periodic axis `i` with `N` cells,
`findAdjacentPoints` returns a list that contains the point with component `i` replaced by
`N - 1` when that component is `0`, and by `0` when that component is `N - 1`. -/
theorem findAdjacentPoints_periodic_wrap (pmfData : pmf ℚ) (a b : List ℚ) (pbc : List Bool)
    (hdim : pmfData.dimension = (pmfData.shape.length : Int))
    (hpbc : pbc.length = pmfData.shape.length)
    (point : List Int) (hp : inRange pmfData.shape point)
    (i : Nat) (hi : i < pmfData.shape.length) (hper : pbc.getD i false = true) :
    ∃ adj, findAdjacentPoints (construct pmfData a b pbc) point = .ok adj ∧
      (point.getD i 0 = 0 → point.set i (pmfData.shape.getD i 0 - 1) ∈ adj) ∧
      (point.getD i 0 = pmfData.shape.getD i 0 - 1 → point.set i 0 ∈ adj) := by
  have hc := construct_configured pmfData a b pbc hdim hpbc
  have hmem : ∀ q, q ∈ adjacentList (construct pmfData a b pbc) point ↔
      ∃ i, i < pmfData.shape.length ∧ q ∈ axisNeighbours pmfData.shape pbc point i :=
    mem_adjacentList (construct pmfData a b pbc) hc point hp.1
  have hx := hp.2 i hi
  have hleft : ∃ q, q ∈ adjacentList (construct pmfData a b pbc) point := by
    by_cases h1 : 1 ≤ point.getD i 0
    · exact ⟨_, (hmem _).mpr ⟨i, hi, (mem_axisNeighbours _ _ _ _ _).mpr (Or.inl ⟨h1, rfl⟩)⟩⟩
    · exact ⟨_, (hmem _).mpr ⟨i, hi,
        (mem_axisNeighbours _ _ _ _ _).mpr (Or.inr (Or.inl ⟨h1, hper, rfl⟩))⟩⟩
  obtain ⟨q0, hq0⟩ := hleft
  refine ⟨_, findAdjacentPoints_of_ne_nil _ _ (List.ne_nil_of_mem hq0), ?_, ?_⟩
  · intro h0
    refine (hmem _).mpr ⟨i, hi, (mem_axisNeighbours _ _ _ _ _).mpr
      (Or.inr (Or.inl ⟨by omega, hper, rfl⟩))⟩
  · intro hN
    refine (hmem _).mpr ⟨i, hi, (mem_axisNeighbours _ _ _ _ _).mpr
      (Or.inr (Or.inr (Or.inr ⟨by omega, hper, rfl⟩)))⟩

theorem findAdjacentPoints_periodic_wrap_witness :
    inRange [3, 3] [0, 1] ∧
    ∃ adj, findAdjacentPoints periodicEngine [0, 1] = .ok adj ∧
      (([0, 1] : List Int).getD 0 0 = 0 →
        ([0, 1] : List Int).set 0 (([3, 3] : List Int).getD 0 0 - 1) ∈ adj) ∧
      (([0, 1] : List Int).getD 0 0 = ([3, 3] : List Int).getD 0 0 - 1 →
        ([0, 1] : List Int).set 0 0 ∈ adj) :=
  ⟨by decide, findAdjacentPoints_periodic_wrap detourGrid [0, 0] [0, 2] [true, false]
    (by decide) (by decide) [0, 1] (by decide) 0 (by decide) (by decide)⟩

theorem set_getD_self (point : List Int) (i : Nat) (hi : i < point.length) :
    point.set i (point.getD i 0) = point := by
  apply List.ext_getElem?
  intro j
  rw [List.getElem?_set]
  by_cases h : i = j
  · subst h
    simp [hi, List.getD_eq_getElem?_getD]
  · simp [h]

theorem differsExactlyAt_set (point : List Int) (i : Nat) (v : Int) (hi : i < point.length)
    (hv : v ≠ point.getD i 0) : DiffersExactlyAt point (point.set i v) i := by
  refine ⟨List.length_set _ _ _, ?_, ?_⟩
  · rw [getD_set point i i v hi, if_pos rfl]
    exact hv
  · intro j hj
    rw [getD_set point i j v hi, if_neg (fun h => hj h.symm)]

theorem adjacentList_eq_nil_iff (s : pathFinder) (hc : Configured s) (point : List Int)
    (hp : inRange s.pmfData.shape point) :
    adjacentList s point = [] ↔
      ∀ i, i < s.pmfData.shape.length →
        s.pbc.getD i false = false ∧ s.pmfData.shape.getD i 0 = 1 := by
  rw [adjacentList_eq s hc point hp.1, List.flatMap_eq_nil_iff]
  constructor
  · intro h i hi
    exact (axisNeighbours_eq_nil_iff _ _ point i (hp.2 i hi).1 (hp.2 i hi).2).mp
      (h i (List.mem_range.mpr hi))
  · intro h i hi
    have hi' := List.mem_range.mp hi
    exact (axisNeighbours_eq_nil_iff _ _ point i (hp.2 i hi').1 (hp.2 i hi').2).mpr (h i hi')

/-- C6, amended: for an in-range point, every point returned by `findAdjacentPoints` is the
input changed in one axis `i` only; it differs from the input in exactly that axis, unless axis
`i` is periodic with a single cell, where the returned point is the input itself. When axis `i`
is not periodic the component differs by exactly one unit step and stays within
`[0, shape[i] - 1]`. An interior point gets exactly `2 * D` neighbours. -/
theorem findAdjacentPoints_one_axis (pmfData : pmf ℚ) (a b : List ℚ) (pbc : List Bool)
    (hdim : pmfData.dimension = (pmfData.shape.length : Int))
    (hpbc : pbc.length = pmfData.shape.length)
    (point : List Int) (hp : inRange pmfData.shape point) :
    (∀ q, IsNeighbour (construct pmfData a b pbc) point q →
      ∃ i, i < pmfData.shape.length ∧
        (DiffersExactlyAt point q i ∨
          (q = point ∧ pbc.getD i false = true ∧ pmfData.shape.getD i 0 = 1)) ∧
        (pbc.getD i false = false →
          (q.getD i 0 = point.getD i 0 - 1 ∨ q.getD i 0 = point.getD i 0 + 1) ∧
            0 ≤ q.getD i 0 ∧ q.getD i 0 ≤ pmfData.shape.getD i 0 - 1)) ∧
    ((∀ i, i < pmfData.shape.length →
        0 < point.getD i 0 ∧ point.getD i 0 < pmfData.shape.getD i 0 - 1) →
      (adjacentList (construct pmfData a b pbc) point).length = 2 * pmfData.shape.length ∧
      (0 < pmfData.shape.length →
        findAdjacentPoints (construct pmfData a b pbc) point
          = .ok (adjacentList (construct pmfData a b pbc) point))) := by
  have hc := construct_configured pmfData a b pbc hdim hpbc
  have hmem : ∀ q, q ∈ adjacentList (construct pmfData a b pbc) point ↔
      ∃ i, i < pmfData.shape.length ∧ q ∈ axisNeighbours pmfData.shape pbc point i :=
    mem_adjacentList (construct pmfData a b pbc) hc point hp.1
  constructor
  · intro q hq
    obtain ⟨i, hi, hqi⟩ := (hmem q).mp ((isNeighbour_iff _ _ _).mp hq)
    have hx := hp.2 i hi
    have hil : i < point.length := by rw [hp.1]; exact hi
    refine ⟨i, hi, ?_⟩
    rcases (mem_axisNeighbours _ _ _ _ _).mp hqi with
      ⟨h1, rfl⟩ | ⟨h1, hper, rfl⟩ | ⟨h1, rfl⟩ | ⟨h1, hper, rfl⟩
    · refine ⟨Or.inl (differsExactlyAt_set point i _ hil (by omega)), ?_⟩
      intro _
      rw [getD_set point i i _ hil, if_pos rfl]
      omega
    · constructor
      · by_cases hN : pmfData.shape.getD i 0 = 1
        · right
          refine ⟨?_, hper, hN⟩
          have : pmfData.shape.getD i 0 - 1 = point.getD i 0 := by omega
          rw [this]
          exact set_getD_self point i hil
        · left
          exact differsExactlyAt_set point i _ hil (by omega)
      · intro hnp
        rw [hper] at hnp
        exact absurd hnp (by simp)
    · refine ⟨Or.inl (differsExactlyAt_set point i _ hil (by omega)), ?_⟩
      intro _
      rw [getD_set point i i _ hil, if_pos rfl]
      omega
    · constructor
      · by_cases hN : pmfData.shape.getD i 0 = 1
        · right
          refine ⟨?_, hper, hN⟩
          have : (0 : Int) = point.getD i 0 := by omega
          rw [this]
          exact set_getD_self point i hil
        · left
          exact differsExactlyAt_set point i _ hil (by omega)
      · intro hnp
        rw [hper] at hnp
        exact absurd hnp (by simp)
  · intro hint
    have hlen : (adjacentList (construct pmfData a b pbc) point).length
        = 2 * pmfData.shape.length := by
      have heq : adjacentList (construct pmfData a b pbc) point
          = (List.range pmfData.shape.length).flatMap
              (axisNeighbours pmfData.shape pbc point) :=
        adjacentList_eq (construct pmfData a b pbc) hc point hp.1
      rw [heq, length_flatMap_const _ _ 2, List.length_range, Nat.mul_comm]
      intro i hi
      have h := hint i (List.mem_range.mp hi)
      have c1 : 1 ≤ point.getD i 0 := by omega
      have c2 : point.getD i 0 + 1 ≤ pmfData.shape.getD i 0 - 1 := by omega
      unfold axisNeighbours
      rw [if_pos c1, if_pos c2]
      rfl
    refine ⟨hlen, ?_⟩
    intro hD
    apply findAdjacentPoints_of_ne_nil
    intro hnil
    rw [hnil, List.length_nil] at hlen
    omega

theorem findAdjacentPoints_one_axis_witness :
    inRange [3, 3] [1, 1] ∧
    (∀ q, IsNeighbour detourEngine [1, 1] q →
      ∃ i, i < ([3, 3] : List Int).length ∧
        (DiffersExactlyAt [1, 1] q i ∨
          (q = [1, 1] ∧ ([false, false] : List Bool).getD i false = true ∧
            ([3, 3] : List Int).getD i 0 = 1)) ∧
        (([false, false] : List Bool).getD i false = false →
          (q.getD i 0 = ([1, 1] : List Int).getD i 0 - 1 ∨
              q.getD i 0 = ([1, 1] : List Int).getD i 0 + 1) ∧
            0 ≤ q.getD i 0 ∧ q.getD i 0 ≤ ([3, 3] : List Int).getD i 0 - 1)) ∧
    ((∀ i, i < ([3, 3] : List Int).length →
        0 < ([1, 1] : List Int).getD i 0 ∧
          ([1, 1] : List Int).getD i 0 < ([3, 3] : List Int).getD i 0 - 1) →
      (adjacentList detourEngine [1, 1]).length = 2 * ([3, 3] : List Int).length ∧
      (0 < ([3, 3] : List Int).length →
        findAdjacentPoints detourEngine [1, 1] = .ok (adjacentList detourEngine [1, 1]))) :=
  ⟨by decide, findAdjacentPoints_one_axis detourGrid [0, 0] [0, 2] [false, false]
    (by decide) (by decide) [1, 1] (by decide)⟩

/-- C6 as stated fails on a periodic axis with a single cell: both neighbours generated for
the only cell are that cell itself, which differs from the input in no axis. -/
theorem findAdjacentPoints_one_axis_counterexample :
    inRange [1] [0] ∧
    ∃ adj q, findAdjacentPoints singleCellRing [0] = .ok adj ∧ q ∈ adj ∧
      ∀ i, ¬ DiffersExactlyAt [0] q i := by
  refine ⟨by decide, [[0], [0]], [0], ?_, by simp, ?_⟩
  · with_unfolding_all rfl
  · intro i h
    exact h.2.1 rfl

/-- C7 (degenerate graph error): for an in-range point, `findAdjacentPoints` ends in the fatal
"No adjacent point is found" exit if and only if every axis is non-periodic and has exactly one
cell; in every other case it returns a non-empty neighbour list. -/
theorem findAdjacentPoints_fails_iff (pmfData : pmf ℚ) (a b : List ℚ) (pbc : List Bool)
    (hdim : pmfData.dimension = (pmfData.shape.length : Int))
    (hpbc : pbc.length = pmfData.shape.length)
    (point : List Int) (hp : inRange pmfData.shape point) :
    (findAdjacentPoints (construct pmfData a b pbc) point = .error .noAdjacentPoint ↔
      ∀ i, i < pmfData.shape.length →
        pbc.getD i false = false ∧ pmfData.shape.getD i 0 = 1) ∧
    ((¬ ∀ i, i < pmfData.shape.length →
        pbc.getD i false = false ∧ pmfData.shape.getD i 0 = 1) →
      ∃ adj, findAdjacentPoints (construct pmfData a b pbc) point = .ok adj ∧ adj ≠ []) := by
  have hc := construct_configured pmfData a b pbc hdim hpbc
  have hnil : adjacentList (construct pmfData a b pbc) point = [] ↔
      ∀ i, i < pmfData.shape.length →
        pbc.getD i false = false ∧ pmfData.shape.getD i 0 = 1 :=
    adjacentList_eq_nil_iff (construct pmfData a b pbc) hc point hp
  constructor
  · rw [← hnil]
    constructor
    · intro h
      by_contra hne
      rw [findAdjacentPoints_of_ne_nil _ _ hne] at h
      cases h
    · exact findAdjacentPoints_of_nil _ _
  · intro h
    have hne : adjacentList (construct pmfData a b pbc) point ≠ [] := fun h0 => h (hnil.mp h0)
    exact ⟨_, findAdjacentPoints_of_ne_nil _ _ hne, hne⟩

theorem findAdjacentPoints_fails_iff_witness :
    inRange [3, 3] [0, 0] ∧
    (findAdjacentPoints detourEngine [0, 0] = .error .noAdjacentPoint ↔
      ∀ i, i < ([3, 3] : List Int).length →
        ([false, false] : List Bool).getD i false = false ∧ ([3, 3] : List Int).getD i 0 = 1) ∧
    ((¬ ∀ i, i < ([3, 3] : List Int).length →
        ([false, false] : List Bool).getD i false = false ∧ ([3, 3] : List Int).getD i 0 = 1) →
      ∃ adj, findAdjacentPoints detourEngine [0, 0] = .ok adj ∧ adj ≠ []) :=
  ⟨by decide, findAdjacentPoints_fails_iff detourGrid [0, 0] [0, 2] [false, false]
    (by decide) (by decide) [0, 0] (by decide)⟩

/-! ## Claims on the search state -/

theorem eq_some_getD {α : Type} (x : Option α) (d : α) (h : x.isSome = true) :
    x = some (x.getD d) := by
  cases x with
  | none => simp at h
  | some a => rfl

theorem SearchInv_afterPasses (func : pathFinder → List Int → ℚ) {s0 : pathFinder}
    (hf : Fresh s0) (k : Nat) (t : pathFinder) (h : afterPasses func k s0 = some t) :
    SearchInv s0 t :=
  afterPasses_rule func (SearchInv s0)
    (fun _ _ hP hne hb => (DijkstraBody_next_inv func hP hne hb).choose_spec.2.2.2.2.1)
    (fun _ _ hP hne hb => (DijkstraBody_found_inv func hP hne hb).2.2.2.1)
    k s0 t (SearchInv_of_fresh s0 hf) h

theorem SearchInv_result (func : pathFinder → List Int → ℚ) {s0 : pathFinder}
    (hf : Fresh s0) (fuel : Nat) (r : SearchResult) (h : Dijkstra func fuel s0 = some r) :
    SearchInv s0 r.state := by
  obtain ⟨t, hP, hcase⟩ := Dijkstra_loop func (SearchInv s0)
    (fun _ _ hP hne hb => (DijkstraBody_next_inv func hP hne hb).choose_spec.2.2.2.2.1)
    fuel s0 r (SearchInv_of_fresh s0 hf) h
  rcases hcase with ⟨_, rfl⟩ | ⟨hne, t1, ⟨hb, rfl⟩ | ⟨hb, rfl⟩⟩
  · exact hP
  · exact (DijkstraBody_found_inv func hP hne hb).2.2.2.1
  · exact (DijkstraBody_fatal_inv func hP hne hb).choose_spec.2.2.2.2

theorem Dijkstra_of_afterPasses (func : pathFinder → List Int → ℚ) :
    ∀ (k : Nat) (s t : pathFinder), afterPasses func k s = some t → t.openList = [] →
      ∀ fuel, k < fuel → Dijkstra func fuel s = some (.returned t) := by
  intro k
  induction k with
  | zero =>
    intro s t h hopen fuel hfuel
    obtain ⟨f, rfl⟩ : ∃ f, fuel = f + 1 := ⟨fuel - 1, by omega⟩
    simp [afterPasses] at h
    subst h
    simp [Dijkstra, hopen]
  | succ n ih =>
    intro s t h hopen fuel hfuel
    obtain ⟨f, rfl⟩ : ∃ f, fuel = f + 1 := ⟨fuel - 1, by omega⟩
    by_cases hne : s.openList = []
    · simp [afterPasses, hne] at h
    · have hlen : s.openList.length ≠ 0 := by
        intro h0; exact hne (List.length_eq_zero.mp h0)
      simp only [afterPasses, if_pos hlen] at h
      simp only [Dijkstra, if_pos hlen]
      obtain ⟨b, hb⟩ := DijkstraBody_isSome func s hne
      rw [hb] at h ⊢
      cases b with
      | next s1 => exact ih s1 t h hopen f (by omega)
      | found s1 =>
        simp only at h
        by_cases hn : n = 0
        · rw [if_pos hn] at h
          have : s1 = t := Option.some.inj h
          rw [this]
        · rw [if_neg hn] at h
          exact absurd h (by simp)
      | fatal s1 => simp at h

/-- C8 (visited-once invariant): after construction and after every pass of the loop of
`Dijkstra`, the open list has no duplicate, the closed list has no duplicate, and no point is
in both lists. -/
theorem visited_once_invariant (pmfData : pmf ℚ) (a b : List ℚ) (pbc : List Bool)
    (func : pathFinder → List Int → ℚ) (k : Nat) (s : pathFinder)
    (h : afterPasses func k (construct pmfData a b pbc) = some s) :
    s.openList.Nodup ∧ s.closeList.Nodup ∧ ∀ q, q ∈ s.openList → q ∉ s.closeList := by
  have hinv := SearchInv_afterPasses func (construct_fresh pmfData a b pbc) k s h
  exact ⟨hinv.openNodup, hinv.closeNodup, hinv.disjoint⟩

theorem visited_once_invariant_witness :
    afterPasses defaultFunc 3 detourEngine
      = some ((afterPasses defaultFunc 3 detourEngine).getD detourEngine) ∧
    ((afterPasses defaultFunc 3 detourEngine).getD detourEngine).openList.Nodup ∧
    ((afterPasses defaultFunc 3 detourEngine).getD detourEngine).closeList.Nodup ∧
    ∀ q, q ∈ ((afterPasses defaultFunc 3 detourEngine).getD detourEngine).openList →
      q ∉ ((afterPasses defaultFunc 3 detourEngine).getD detourEngine).closeList :=
  ⟨eq_some_getD _ _ (by with_unfolding_all decide),
    visited_once_invariant detourGrid [0, 0] [0, 2] [false, false] defaultFunc 3 _
      (eq_some_getD _ _ (by with_unfolding_all decide))⟩

/-- C9 (termination): for an in-range start point, any end point, any periodicity vector and
any heuristic, the loop of `Dijkstra` ends, by returning or by the fatal adjacency exit, and at
that moment at most `V = product(shape)` points are closed; `V + 1` units of fuel are enough,
that is, the loop makes at most `V` passes. -/
theorem Dijkstra_terminates_within_V (pmfData : pmf ℚ) (a b : List ℚ) (pbc : List Bool)
    (func : pathFinder → List Int → ℚ)
    (hdim : pmfData.dimension = (pmfData.shape.length : Int))
    (hpbc : pbc.length = pmfData.shape.length)
    (hstart : inRange pmfData.shape (RCToInternal pmfData a))
    (fuel : Nat) (hfuel : pmfData.shape.prod.toNat < fuel) :
    ∃ r, Dijkstra func fuel (construct pmfData a b pbc) = some r ∧
      (r.state.closeList.length : Int) ≤ pmfData.shape.prod := by
  have hc := construct_configured pmfData a b pbc hdim hpbc
  have hf := construct_fresh pmfData a b pbc
  have hprod := prod_toNat_of_inRange pmfData.shape _ hstart
  have hV : (pmfData.shape.map Int.toNat).prod = pmfData.shape.prod.toNat := by
    rw [← hprod, Int.toNat_ofNat]
  obtain ⟨r, hr, hle⟩ := Dijkstra_terminates func (construct pmfData a b pbc) hc fuel
    (construct pmfData a b pbc) (SearchInv_of_fresh _ hf) (InvRange_of_fresh _ hf hstart)
    (by
      show (pmfData.shape.map Int.toNat).prod < _ + fuel
      rw [hV]; omega)
  refine ⟨r, hr, ?_⟩
  rw [← hprod]
  exact_mod_cast hle

theorem Dijkstra_terminates_within_V_witness :
    inRange detourGrid.shape (RCToInternal detourGrid [0, 0]) ∧
    detourGrid.shape.prod.toNat < 10 ∧
    ∃ r, Dijkstra manhattonPotential 10 (construct detourGrid [0, 0] [0, 2] [false, false])
        = some r ∧
      (r.state.closeList.length : Int) ≤ detourGrid.shape.prod :=
  ⟨by with_unfolding_all decide, by decide,
    Dijkstra_terminates_within_V detourGrid [0, 0] [0, 2] [false, false] manhattonPotential
      (by decide) (by decide) (by with_unfolding_all decide) 10 (by decide)⟩

/-- C2 (path reconstruction): for every search that finalized the end point, the internal
trajectory built by `getResults` (`constructResults` followed by appending the end point) is in
start-to-end order: its first point is the start grid point, its last point is the end grid
point, and every later point is returned by `findAdjacentPoints` for the point before it. The
recursion needs no more fuel than the number of closed points. -/
theorem trajectory_start_to_end (pmfData : pmf ℚ) (a b : List ℚ) (pbc : List Bool)
    (func : pathFinder → List Int → ℚ) (fuel : Nat) (r : SearchResult)
    (hrun : Dijkstra func fuel (construct pmfData a b pbc) = some r)
    (hend : r.state.endPoint ∈ r.state.closeList) :
    ∃ traj : List (List Int),
      (∀ n, r.state.closeList.length ≤ n → internalTrajectory r.state n = some traj) ∧
      traj.head? = some r.state.initialPoint ∧ traj.getLast? = some r.state.endPoint ∧
      List.Chain' (IsNeighbour r.state) traj := by
  have hinv := SearchInv_result func (construct_fresh pmfData a b pbc) fuel r hrun
  have he : r.state.endPoint = (construct pmfData a b pbc).endPoint := hinv.config.endPoint
  have hs : r.state.initialPoint = (construct pmfData a b pbc).initialPoint :=
    hinv.config.initialPoint
  obtain ⟨traj, hrun', hhead, hlast, hchain, _⟩ := internalTrajectory_spec hinv (he ▸ hend)
  refine ⟨traj, hrun', by rw [hs]; exact hhead, by rw [he]; exact hlast, ?_⟩
  refine hchain.imp ?_
  intro x y hxy
  rw [isNeighbour_iff, adjacentList_congr hinv.config x]
  exact hxy

theorem trajectory_start_to_end_witness :
    Dijkstra defaultFunc 10 (construct detourGrid [0, 0] [0, 2] [false, false])
      = some ((Dijkstra defaultFunc 10 detourEngine).getD (.fatal detourEngine)) ∧
    ((Dijkstra defaultFunc 10 detourEngine).getD (.fatal detourEngine)).state.endPoint
      ∈ ((Dijkstra defaultFunc 10 detourEngine).getD (.fatal detourEngine)).state.closeList ∧
    ∃ traj : List (List Int),
      (∀ n, ((Dijkstra defaultFunc 10 detourEngine).getD
            (.fatal detourEngine)).state.closeList.length ≤ n →
          internalTrajectory
            ((Dijkstra defaultFunc 10 detourEngine).getD (.fatal detourEngine)).state n
            = some traj) ∧
      traj.head? = some
        ((Dijkstra defaultFunc 10 detourEngine).getD (.fatal detourEngine)).state.initialPoint ∧
      traj.getLast? = some
        ((Dijkstra defaultFunc 10 detourEngine).getD (.fatal detourEngine)).state.endPoint ∧
      List.Chain'
        (IsNeighbour ((Dijkstra defaultFunc 10 detourEngine).getD (.fatal detourEngine)).state)
        traj :=
  ⟨eq_some_getD _ _ (by with_unfolding_all decide), by with_unfolding_all decide,
    trajectory_start_to_end detourGrid [0, 0] [0, 2] [false, false] defaultFunc 10 _
      (eq_some_getD _ _ (by with_unfolding_all decide)) (by with_unfolding_all decide)⟩


/-! ## The heuristic without targets -/

theorem popMin_congr (s : pathFinder) (f g : pathFinder → List Int → ℚ)
    (h : ∀ x, f s x = g s x) (l : List (List Int)) : popMin s l f = popMin s l g := by
  cases l with
  | nil => rfl
  | cons first rest => simp only [popMin, h]

theorem DijkstraBody_congr (f g : pathFinder → List Int → ℚ) (s : pathFinder)
    (h : ∀ x, f s x = g s x) : DijkstraBody f s = DijkstraBody g s := by
  unfold DijkstraBody
  rw [popMin_congr s f g h]

theorem DijkstraBody_next_sameConfig (func : pathFinder → List Int → ℚ) (s s1 : pathFinder)
    (hb : DijkstraBody func s = some (.next s1)) : SameConfig s1 s := by
  have hne : s.openList ≠ [] := by
    intro h0
    simp [DijkstraBody, popMin, h0] at hb
  obtain ⟨p, l1, l2, _, _, hcase⟩ := DijkstraBody_spec func s hne
  rcases hcase with ⟨_, he⟩ | ⟨_, _, he⟩ | ⟨_, _, he⟩
  · rw [he] at hb; cases hb
  · rw [he] at hb; cases hb
  · rw [he] at hb
    have hs1 : s1 = (adjacentList s p).foldl (visit p) (closePoint s p (l1 ++ l2)) := by
      injection hb with hb
      injection hb with hb
      exact hb.symm
    obtain ⟨_, _, _, h3, _⟩ := visit_fold_spec p (adjacentList s p) (closePoint s p (l1 ++ l2))
    rw [hs1]
    exact h3.trans (closePoint_sameConfig s p _)

theorem Dijkstra_congr (f g : pathFinder → List Int → ℚ) (s0 : pathFinder)
    (h : ∀ s, SameConfig s s0 → ∀ x, f s x = g s x) :
    ∀ (fuel : Nat) (s : pathFinder), SameConfig s s0 → Dijkstra f fuel s = Dijkstra g fuel s := by
  intro fuel
  induction fuel with
  | zero => intro s _; rfl
  | succ n ih =>
    intro s hs
    simp only [Dijkstra]
    rw [← DijkstraBody_congr f g s (h s hs)]
    by_cases hlen : s.openList.length ≠ 0
    · rw [if_pos hlen, if_pos hlen]
      cases hb : DijkstraBody f s with
      | none => rfl
      | some b =>
        cases b with
        | next s1 => exact ih s1 ((DijkstraBody_next_sameConfig f s s1 hb).trans hs)
        | found s1 => rfl
        | fatal s1 => rfl
    · rw [if_neg hlen, if_neg hlen]

theorem manhattonPotential_of_no_targets (s : pathFinder) (h : s.targetedPoints = [])
    (point : List Int) : manhattonPotential s point = 0 := by
  unfold manhattonPotential
  rw [h]
  rfl

/-- C10 (no targets): when no target is configured, `manhattonPotential` is zero at every
point, and `Dijkstra(manhattonPotential)` gives exactly the result of `Dijkstra()` with the
default heuristic: the same final state, hence the same closed list, the same parent mapping
and the same trajectory. -/
theorem Dijkstra_manhattonPotential_no_targets (s : pathFinder) (h : s.targetedPoints = [])
    (fuel : Nat) :
    (∀ point, manhattonPotential s point = 0) ∧
    Dijkstra manhattonPotential fuel s = Dijkstra defaultFunc fuel s ∧
    (∀ r1 r2, Dijkstra manhattonPotential fuel s = some r1 →
      Dijkstra defaultFunc fuel s = some r2 →
      r1.state.closeList = r2.state.closeList ∧ r1.state.fatherPoint = r2.state.fatherPoint ∧
        ∀ n, internalTrajectory r1.state n = internalTrajectory r2.state n) := by
  have heq : Dijkstra manhattonPotential fuel s = Dijkstra defaultFunc fuel s :=
    Dijkstra_congr manhattonPotential defaultFunc s
      (fun t ht x => by
        rw [manhattonPotential_of_no_targets t (ht.targetedPoints.trans h) x]
        rfl)
      fuel s (SameConfig.refl s)
  refine ⟨manhattonPotential_of_no_targets s h, heq, ?_⟩
  intro r1 r2 h1 h2
  rw [heq, h2] at h1
  have : r2 = r1 := Option.some.inj h1
  subst this
  exact ⟨rfl, rfl, fun _ => rfl⟩

theorem Dijkstra_manhattonPotential_no_targets_witness :
    detourEngine.targetedPoints = [] ∧
    (∀ point, manhattonPotential detourEngine point = 0) ∧
    Dijkstra manhattonPotential 10 detourEngine = Dijkstra defaultFunc 10 detourEngine ∧
    (∀ r1 r2, Dijkstra manhattonPotential 10 detourEngine = some r1 →
      Dijkstra defaultFunc 10 detourEngine = some r2 →
      r1.state.closeList = r2.state.closeList ∧ r1.state.fatherPoint = r2.state.fatherPoint ∧
        ∀ n, internalTrajectory r1.state n = internalTrajectory r2.state n) :=
  ⟨rfl, Dijkstra_manhattonPotential_no_targets detourEngine rfl 10⟩

/-! ## Minimax correctness of the unbiased search -/

theorem foldl_max_ge_init (m : pmf ℚ) (rest : List (List Int)) :
    ∀ e : ℚ, e ≤ rest.foldl (fun e y => max e (getInternal m y)) e := by
  induction rest with
  | nil => intro e; exact le_refl _
  | cons y rest ih =>
    intro e
    exact le_trans (le_max_left _ _) (ih _)

theorem foldl_max_ge_mem (m : pmf ℚ) (rest : List (List Int)) :
    ∀ (e : ℚ) (x : List Int), x ∈ rest →
      getInternal m x ≤ rest.foldl (fun e y => max e (getInternal m y)) e := by
  induction rest with
  | nil => intro e x hx; simp at hx
  | cons y rest ih =>
    intro e x hx
    rcases List.mem_cons.mp hx with hx | hx
    · rw [hx]
      exact le_trans (le_max_right _ _) (foldl_max_ge_init m rest _)
    · exact ih _ x hx

theorem foldl_max_attained (m : pmf ℚ) (rest : List (List Int)) :
    ∀ e : ℚ, rest.foldl (fun e y => max e (getInternal m y)) e = e ∨
      ∃ y ∈ rest, rest.foldl (fun e y => max e (getInternal m y)) e = getInternal m y := by
  induction rest with
  | nil => intro e; exact Or.inl rfl
  | cons y rest ih =>
    intro e
    rcases ih (max e (getInternal m y)) with h | ⟨z, hz, h⟩
    · rcases max_choice e (getInternal m y) with hm | hm
      · left
        rw [List.foldl_cons, h, hm]
      · right
        exact ⟨y, by simp, by rw [List.foldl_cons, h, hm]⟩
    · right
      exact ⟨z, List.mem_cons_of_mem _ hz, h⟩

theorem le_pathMaxEnergy (m : pmf ℚ) (path : List (List Int)) (x : List Int) (hx : x ∈ path) :
    getInternal m x ≤ pathMaxEnergy m path := by
  cases path with
  | nil => simp at hx
  | cons a rest =>
    rcases List.mem_cons.mp hx with hx | hx
    · rw [hx]
      exact foldl_max_ge_init m rest _
    · exact foldl_max_ge_mem m rest _ x hx

theorem pathMaxEnergy_attained (m : pmf ℚ) (path : List (List Int)) (hne : path ≠ []) :
    ∃ y ∈ path, pathMaxEnergy m path = getInternal m y := by
  cases path with
  | nil => exact absurd rfl hne
  | cons a rest =>
    rcases foldl_max_attained m rest (getInternal m a) with h | ⟨z, hz, h⟩
    · exact ⟨a, by simp, h⟩
    · exact ⟨z, List.mem_cons_of_mem _ hz, h⟩

/-- On a neighbour chain that starts at a seen point and ends at a point that is not closed,
some point is open, provided every neighbour of a closed point is seen. -/
theorem exists_open_on_chain (s0 s : pathFinder)
    (hexp : ∀ x ∈ s.closeList, ∀ q ∈ adjacentList s0 x, q ∈ s.openList ∨ q ∈ s.closeList) :
    ∀ (path : List (List Int)), List.Chain' (fun a b => b ∈ adjacentList s0 a) path →
      ∀ a, path.head? = some a → (a ∈ s.openList ∨ a ∈ s.closeList) →
      (∀ e, path.getLast? = some e → e ∉ s.closeList) → ∃ x ∈ path, x ∈ s.openList := by
  intro path
  induction path with
  | nil => intro _ a h; simp at h
  | cons c tl ih =>
    intro hchain a hhead hseen hlast
    have hca : c = a := by simpa using hhead
    subst hca
    cases tl with
    | nil =>
      rcases hseen with h | h
      · exact ⟨c, by simp, h⟩
      · exact absurd h (hlast c (by simp))
    | cons d tl =>
      rcases hseen with h | h
      · exact ⟨c, by simp, h⟩
      · have hcd := (List.chain'_cons.mp hchain)
        obtain ⟨x, hx, hxo⟩ := ih hcd.2 d (by simp) (hexp c h d hcd.1)
          (fun e he => hlast e (by rw [List.getLast?_cons_cons]; exact he))
        exact ⟨x, List.mem_cons_of_mem _ hx, hxo⟩

theorem chain_of_latticePath (s0 : pathFinder) (path : List (List Int))
    (h : IsLatticePath s0 path) : List.Chain' (fun a b => b ∈ adjacentList s0 a) path :=
  h.1.imp (fun _ _ hab => (isNeighbour_iff s0 _ _).mp hab)

theorem exists_open_on_path {s0 s : pathFinder} (hinv : SearchInv s0 s)
    (hexp : InvExpanded s0 s) (path : List (List Int)) (hpath : IsLatticePath s0 path) :
    ∃ x ∈ path, x ∈ s.openList :=
  exists_open_on_chain s0 s hexp.1 path (chain_of_latticePath s0 path hpath) _ hpath.2.1
    hinv.startSeen
    (fun e he => by
      rw [hpath.2.2] at he
      rw [← Option.some.inj he]
      exact hexp.2)

theorem InvExpanded_of_fresh (s0 : pathFinder) (hf : Fresh s0) : InvExpanded s0 s0 := by
  constructor
  · intro x hx
    rw [hf.2.1] at hx
    simp at hx
  · rw [hf.2.1]; simp

theorem InvExpanded_next (func : pathFinder → List Int → ℚ) {s0 s s1 : pathFinder}
    (h : SearchInv s0 s) (hexp : InvExpanded s0 s) (hne : s.openList ≠ [])
    (hb : DijkstraBody func s = some (.next s1)) : InvExpanded s0 s1 := by
  obtain ⟨p, _, hpend, _, hcl, _, hkeep, _, hadj⟩ := DijkstraBody_next_inv func h hne hb
  constructor
  · intro x hx q hq
    rw [hcl] at hx
    rcases List.mem_append.mp hx with hx | hx
    · rcases hexp.1 x hx q hq with hq' | hq'
      · rcases hkeep q hq' with hq' | hq'
        · right; rw [hcl, hq']; simp
        · exact Or.inl hq'
      · right; rw [hcl]; exact List.mem_append_left _ hq'
    · simp at hx
      rw [hx] at hq
      exact hadj q hq
  · rw [hcl]
    intro hm
    rcases List.mem_append.mp hm with hm | hm
    · exact hexp.2 hm
    · simp at hm
      exact hpend hm.symm

theorem eq_of_inRange_of_single (shape : List Int) (p q : List Int) (hp : inRange shape p)
    (hq : inRange shape q) (h1 : ∀ i, i < shape.length → shape.getD i 0 = 1) : p = q := by
  apply List.ext_getElem (hp.1.trans hq.1.symm)
  intro n h1' h2'
  have hn : n < shape.length := by rw [← hp.1]; exact h1'
  have a := hp.2 n hn
  have b := hq.2 n hn
  have c := h1 n hn
  rw [List.getD_eq_getElem _ _ h1'] at a
  rw [List.getD_eq_getElem _ _ h2'] at b
  omega

/-- The loop invariant of the unbiased search used for the minimax claim. -/
theorem minimax_invariant_next {s0 s s1 : pathFinder} (hc : Configured s0)
    (h : SearchInv s0 s ∧ InvRange s0 s ∧ InvExpanded s0 s ∧
      ∀ path, IsLatticePath s0 path → ∀ x ∈ s.closeList,
        ∃ y ∈ path, getInternal s0.pmfData x ≤ getInternal s0.pmfData y)
    (hne : s.openList ≠ []) (hb : DijkstraBody defaultFunc s = some (.next s1)) :
    SearchInv s0 s1 ∧ InvRange s0 s1 ∧ InvExpanded s0 s1 ∧
      ∀ path, IsLatticePath s0 path → ∀ x ∈ s1.closeList,
        ∃ y ∈ path, getInternal s0.pmfData x ≤ getInternal s0.pmfData y := by
  obtain ⟨hinv, hr, hexp, hJ⟩ := h
  obtain ⟨p, _, _, hmin, hcl, hinv1, _⟩ := DijkstraBody_next_inv defaultFunc hinv hne hb
  refine ⟨hinv1, InvRange_next defaultFunc hc hinv hr hne hb,
    InvExpanded_next defaultFunc hinv hexp hne hb, ?_⟩
  intro path hpath x hx
  rw [hcl] at hx
  rcases List.mem_append.mp hx with hx | hx
  · exact hJ path hpath x hx
  · simp at hx
    obtain ⟨z, hz, hzo⟩ := exists_open_on_path hinv hexp path hpath
    refine ⟨z, hz, ?_⟩
    have := hmin z hzo
    rw [hinv.config.pmfData] at this
    simpa [defaultFunc, hx] using this

/-- C1 (minimax correctness of the unbiased search): for in-range start and end points, any
grid and any periodicity vector, `Dijkstra()` with the default heuristic returns, and the
trajectory then built by `getResults` is a lattice path from start to end whose largest grid
energy is at most the largest grid energy of every lattice path (sequence of
`findAdjacentPoints` steps) from start to end. -/
theorem Dijkstra_minimax (pmfData : pmf ℚ) (a b : List ℚ) (pbc : List Bool)
    (hdim : pmfData.dimension = (pmfData.shape.length : Int))
    (hpbc : pbc.length = pmfData.shape.length)
    (hstart : inRange pmfData.shape (RCToInternal pmfData a))
    (hend : inRange pmfData.shape (RCToInternal pmfData b))
    (fuel : Nat) (hfuel : pmfData.shape.prod.toNat < fuel) :
    ∃ s traj, Dijkstra defaultFunc fuel (construct pmfData a b pbc) = some (.returned s) ∧
      (∀ n, s.closeList.length ≤ n → internalTrajectory s n = some traj) ∧
      ∀ path, IsLatticePath (construct pmfData a b pbc) path →
        IsLatticePath (construct pmfData a b pbc) traj ∧
          pathMaxEnergy pmfData traj ≤ pathMaxEnergy pmfData path := by
  have hc := construct_configured pmfData a b pbc hdim hpbc
  have hf := construct_fresh pmfData a b pbc
  have hprod := prod_toNat_of_inRange pmfData.shape _ hstart
  have hV : (pmfData.shape.map Int.toNat).prod = pmfData.shape.prod.toNat := by
    rw [← hprod, Int.toNat_ofNat]
  obtain ⟨r, hr, _⟩ := Dijkstra_terminates defaultFunc (construct pmfData a b pbc) hc fuel
    (construct pmfData a b pbc) (SearchInv_of_fresh _ hf) (InvRange_of_fresh _ hf hstart)
    (by
      show (pmfData.shape.map Int.toNat).prod < _ + fuel
      rw [hV]; omega)
  obtain ⟨t, ⟨hinv, hrange, hexp, hJ⟩, hcase⟩ := Dijkstra_loop defaultFunc
    (fun s => SearchInv (construct pmfData a b pbc) s ∧ InvRange (construct pmfData a b pbc) s ∧
      InvExpanded (construct pmfData a b pbc) s ∧
      ∀ path, IsLatticePath (construct pmfData a b pbc) path → ∀ x ∈ s.closeList,
        ∃ y ∈ path, getInternal pmfData x ≤ getInternal pmfData y)
    (fun s s1 hP hne hb => minimax_invariant_next hc hP hne hb)
    fuel (construct pmfData a b pbc) r
    ⟨SearchInv_of_fresh _ hf, InvRange_of_fresh _ hf hstart, InvExpanded_of_fresh _ hf,
      fun _ _ x hx => by
        have : x ∈ ([] : List (List Int)) := hx
        simp at this⟩
    hr
  rcases hcase with ⟨hopen, rfl⟩ | ⟨hne, t1, ⟨hb, rfl⟩ | ⟨hb, rfl⟩⟩
  · -- the open list ran empty: no lattice path from start to end exists
    refine ⟨t, [RCToInternal pmfData b], hr, ?_, ?_⟩
    · intro n hn
      have hclosed : 1 ≤ t.closeList.length := by
        rcases hinv.startSeen with h | h
        · rw [hopen] at h; simp at h
        · exact List.length_pos_of_mem h
      exact internalTrajectory_unreached hinv (by rw [hopen]; simp) hexp.2 n (by omega)
    · intro path hpath
      obtain ⟨x, _, hx⟩ := exists_open_on_path hinv hexp path hpath
      rw [hopen] at hx
      simp at hx
  · -- the end point was popped
    obtain ⟨_, _, hcl, hinv1, _⟩ := DijkstraBody_found_inv defaultFunc hinv hne hb
    have hendc : (construct pmfData a b pbc).endPoint ∈ t1.closeList := by
      rw [hcl]; simp
    obtain ⟨traj, hrun, hhead, hlast, hchain, hmem⟩ := internalTrajectory_spec hinv1 hendc
    refine ⟨t1, traj, hr, hrun, ?_⟩
    intro path hpath
    refine ⟨⟨hchain.imp (fun _ _ hab => (isNeighbour_iff _ _ _).mpr hab), hhead, hlast⟩, ?_⟩
    have hne' : traj ≠ [] := by
      intro h0; rw [h0] at hhead; simp at hhead
    obtain ⟨y, hy, hmax⟩ := pathMaxEnergy_attained pmfData traj hne'
    rw [hmax]
    have hyc := hmem y hy
    rw [hcl] at hyc
    rcases List.mem_append.mp hyc with hyc | hyc
    · obtain ⟨z, hz, hle⟩ := hJ path hpath y hyc
      exact le_trans hle (le_pathMaxEnergy pmfData path z hz)
    · simp at hyc
      rw [hyc]
      apply le_pathMaxEnergy
      exact List.mem_of_mem_getLast? hpath.2.2
  · -- the fatal exit is impossible: the popped point and the end point are distinct cells
    exfalso
    obtain ⟨p, hp, hpend, hnil, _, _⟩ := DijkstraBody_fatal_inv defaultFunc hinv hne hb
    have hpr := hrange p (Or.inl hp)
    have hall := (adjacentList_eq_nil_iff (construct pmfData a b pbc) hc p hpr).mp hnil
    exact hpend (eq_of_inRange_of_single pmfData.shape p _ hpr hend (fun i hi => (hall i hi).2))

theorem Dijkstra_minimax_witness :
    inRange detourGrid.shape (RCToInternal detourGrid [0, 0]) ∧
    inRange detourGrid.shape (RCToInternal detourGrid [0, 2]) ∧
    IsLatticePath detourEngine [[0, 0], [0, 1], [0, 2]] ∧
    pathMaxEnergy detourGrid [[0, 0], [0, 1], [0, 2]] = 10 ∧
    pathMaxEnergy detourGrid [[0, 0], [1, 0], [1, 1], [1, 2], [0, 2]] = 4 ∧
    (([[0, 0], [0, 1], [0, 2]] : List (List Int)).map (getInternal detourGrid)).sum = 10 ∧
    (([[0, 0], [1, 0], [1, 1], [1, 2], [0, 2]] : List (List Int)).map
      (getInternal detourGrid)).sum = 12 ∧
    (∀ n, 5 ≤ n → (Dijkstra defaultFunc 10 detourEngine).map
        (fun r => internalTrajectory r.state n)
      = some (some [[0, 0], [1, 0], [1, 1], [1, 2], [0, 2]])) ∧
    ∃ s traj, Dijkstra defaultFunc 10 (construct detourGrid [0, 0] [0, 2] [false, false])
        = some (.returned s) ∧
      (∀ n, s.closeList.length ≤ n → internalTrajectory s n = some traj) ∧
      ∀ path, IsLatticePath (construct detourGrid [0, 0] [0, 2] [false, false]) path →
        IsLatticePath (construct detourGrid [0, 0] [0, 2] [false, false]) traj ∧
          pathMaxEnergy detourGrid traj ≤ pathMaxEnergy detourGrid path := by
  have hmain := Dijkstra_minimax detourGrid [0, 0] [0, 2] [false, false] (by decide) (by decide)
    (by with_unfolding_all decide) (by with_unfolding_all decide) 10 (by decide)
  refine ⟨by with_unfolding_all decide, by with_unfolding_all decide, ?_,
    by with_unfolding_all decide, by with_unfolding_all decide, by with_unfolding_all decide,
    by with_unfolding_all decide, ?_, hmain⟩
  · refine ⟨?_, by with_unfolding_all decide, by with_unfolding_all decide⟩
    have h1 : IsNeighbour detourEngine [0, 0] [0, 1] :=
      (isNeighbour_iff _ _ _).mpr (by with_unfolding_all decide)
    have h2 : IsNeighbour detourEngine [0, 1] [0, 2] :=
      (isNeighbour_iff _ _ _).mpr (by with_unfolding_all decide)
    exact List.chain'_cons.mpr ⟨h1, List.chain'_cons.mpr ⟨h2, List.chain'_singleton _⟩⟩
  · obtain ⟨s, traj, hrun, htraj, _⟩ := hmain
    have hrun' : Dijkstra defaultFunc 10 detourEngine = some (.returned s) := hrun
    have h5 : s.closeList.length = 5 := by
      have : (Dijkstra defaultFunc 10 detourEngine).map (fun r => r.state.closeList.length)
          = some 5 := by with_unfolding_all decide
      rw [hrun'] at this
      exact Option.some.inj this
    have ht5 : (Dijkstra defaultFunc 10 detourEngine).map
        (fun r => internalTrajectory r.state 5)
          = some (some [[0, 0], [1, 0], [1, 1], [1, 2], [0, 2]]) := by
      with_unfolding_all decide
    intro n hn
    rw [hrun'] at ht5 ⊢
    have e5 : internalTrajectory s 5 = some [[0, 0], [1, 0], [1, 1], [1, 2], [0, 2]] :=
      Option.some.inj ht5
    have e5' := htraj 5 (by omega)
    have en := htraj n (by omega)
    show some (internalTrajectory s n) = _
    rw [en, ← e5', e5]

/-! ## The bias heuristic -/

theorem foldl_add_eq_sum_rat {α : Type} (f : α → ℚ) (l : List α) : ∀ a : ℚ,
    l.foldl (fun energy i => energy + f i) a = a + (l.map f).sum := by
  induction l with
  | nil => intro a; simp
  | cons x l ih =>
    intro a
    rw [List.foldl_cons, ih, List.map_cons, List.sum_cons]
    ring

theorem manhattonPotential_eq_sum (s : pathFinder) (point : List Int) :
    manhattonPotential s point
      = ((List.range s.targetedPoints.length).map fun i =>
          ((List.range (s.targetedPoints.getD i []).length).map fun j =>
            (axisDistance s point (s.targetedPoints.getD i []) j : ℚ)
              * (s.forceConstants.getD i []).getD j 0).sum).sum := by
  unfold manhattonPotential
  by_cases h : s.targetedPoints.length = 0
  · rw [if_pos h, h]
    rfl
  · rw [if_neg h]
    have hinner : (fun (energy : ℚ) (i : Nat) =>
        (List.range (s.targetedPoints.getD i []).length).foldl
          (fun energy j =>
            energy + (axisDistance s point (s.targetedPoints.getD i []) j : ℚ)
              * (s.forceConstants.getD i []).getD j 0)
          energy)
        = fun energy i => energy +
          ((List.range (s.targetedPoints.getD i []).length).map fun j =>
            (axisDistance s point (s.targetedPoints.getD i []) j : ℚ)
              * (s.forceConstants.getD i []).getD j 0).sum := by
      funext energy i
      rw [foldl_add_eq_sum_rat]
    rw [hinner, foldl_add_eq_sum_rat, zero_add]

theorem axisDistance_eq_spec (s : pathFinder) (point t : List Int) (j : Nat) :
    axisDistance s point t j
      = axisDistanceSpec (s.pbc.getD j false) (s.lowerboundary.getD j 0)
          (s.upperboundary.getD j 0) (point.getD j 0) (t.getD j 0) := by
  unfold axisDistance axisDistanceSpec
  cases hp : s.pbc.getD j false
  · simp
  · simp only [Bool.true_eq_false, if_false, if_true, min_def]
    generalize |point.getD j 0 - t.getD j 0| = d1
    generalize |point.getD j 0 - s.lowerboundary.getD j 0| + |t.getD j 0 - s.upperboundary.getD j 0|
      = d2
    generalize |point.getD j 0 - s.upperboundary.getD j 0| + |t.getD j 0 - s.lowerboundary.getD j 0|
      = d3
    split_ifs <;> omega

theorem targetStep_fold (s : pathFinder) (points forceConst : List (List ℚ)) :
    ∀ n : Nat,
      ((List.range n).foldl (targetStep points forceConst) s).targetedPoints
        = s.targetedPoints
          ++ (List.range n).map (fun i => RCToInternal s.pmfData (points.getD i [])) ∧
      ((List.range n).foldl (targetStep points forceConst) s).forceConstants
        = s.forceConstants ++ (List.range n).map (fun i => forceConst.getD i []) ∧
      SameConfigBounds ((List.range n).foldl (targetStep points forceConst) s) s := by
  intro n
  induction n with
  | zero => exact ⟨by simp, by simp, ⟨rfl, rfl, rfl, rfl⟩⟩
  | succ n ih =>
    obtain ⟨h1, h2, h3⟩ := ih
    rw [List.range_succ, List.foldl_append]
    simp only [List.foldl_cons, List.foldl_nil, List.map_append, List.map_cons, List.map_nil]
    refine ⟨?_, ?_, ?_⟩
    · show _ ++ [RCToInternal _ (points.getD n [])] = _
      rw [h1, h3.pmfData, List.append_assoc]
    · show _ ++ [forceConst.getD n []] = _
      rw [h2, List.append_assoc]
    · exact ⟨h3.pmfData, h3.lowerboundary, h3.upperboundary, h3.pbc⟩

theorem setTargetedPoints_spec (s : pathFinder) (points forceConst : List (List ℚ)) :
    (setTargetedPoints s points forceConst).targetedPoints
      = s.targetedPoints
        ++ (List.range points.length).map (fun i => RCToInternal s.pmfData (points.getD i [])) ∧
    (setTargetedPoints s points forceConst).forceConstants
      = s.forceConstants ++ (List.range points.length).map (fun i => forceConst.getD i []) ∧
    SameConfigBounds (setTargetedPoints s points forceConst) s :=
  targetStep_fold s points forceConst points.length

theorem getD_map_range_list {α : Type} (f : Nat → List α) (n i : Nat) (hi : i < n) :
    ((List.range n).map f).getD i [] = f i := by
  simp [List.getD_eq_getElem?_getD, List.getElem?_map, List.getElem?_range hi]

theorem length_RCToInternal {T : Type} (m : pmf T) (rc : List ℚ) :
    (RCToInternal m rc).length = m.dimension.toNat := by
  simp [RCToInternal]

/-- C11 (bias heuristic value): for the engine built on a grid with the targets `points` and
their per-axis force constants `forceConst` configured, and for every point,
`manhattonPotential(point)` is the sum over the targets `t` and the axes `j` of
`dist_j(point, t) * forceConstant[t][j]`, where `dist_j` is `|point[j] - t[j]|` on a
non-periodic axis and, on a periodic axis, the minimum of `|point[j] - t[j]|` and the two
wrap-around distances taken through the lower and through the upper boundary. -/
theorem manhattonPotential_eq_spec (pmfData : pmf ℚ) (a b : List ℚ) (pbc : List Bool)
    (hdim : pmfData.dimension = (pmfData.shape.length : Int))
    (points forceConst : List (List ℚ)) (_hsize : points.length = forceConst.length)
    (point : List Int) :
    manhattonPotential (setTargetedPoints (construct pmfData a b pbc) points forceConst) point
      = manhattonSpec pbc pmfData.shape (points.map (RCToInternal pmfData)) forceConst point := by
  obtain ⟨ht, hf, hb⟩ := setTargetedPoints_spec (construct pmfData a b pbc) points forceConst
  have ht' : (setTargetedPoints (construct pmfData a b pbc) points forceConst).targetedPoints
      = (List.range points.length).map (fun i => RCToInternal pmfData (points.getD i [])) := by
    rw [ht]; rfl
  have hf' : (setTargetedPoints (construct pmfData a b pbc) points forceConst).forceConstants
      = (List.range points.length).map (fun i => forceConst.getD i []) := by
    rw [hf]; rfl
  have hD : pmfData.dimension.toNat = pmfData.shape.length := by rw [hdim, Int.toNat_ofNat]
  rw [manhattonPotential_eq_sum]
  unfold manhattonSpec
  rw [ht', hf']
  simp only [List.length_map, List.length_range]
  apply congrArg
  apply List.map_congr_left
  intro i hi
  have hi' := List.mem_range.mp hi
  have hpt : (points.map (RCToInternal pmfData)).getD i [] = RCToInternal pmfData (points.getD i [])
      := by
    simp [List.getD_eq_getElem?_getD, List.getElem?_map, List.getElem?_eq_getElem hi']
  rw [getD_map_range_list _ _ _ hi', getD_map_range_list _ _ _ hi', hpt, length_RCToInternal, hD]
  apply congrArg
  apply List.map_congr_left
  intro j hj
  have hj' := List.mem_range.mp hj
  rw [axisDistance_eq_spec, hb.pbc, hb.lowerboundary, hb.upperboundary]
  have e1 : (construct pmfData a b pbc).lowerboundary.getD j 0 = 0 := by
    show (List.replicate (getDimension pmfData).toNat (0 : Int)).getD j 0 = 0
    exact getD_replicate_of_lt _ _ _ _ (by show j < pmfData.dimension.toNat; omega)
  have e2 : (construct pmfData a b pbc).upperboundary.getD j 0 = pmfData.shape.getD j 0 - 1 :=
    getD_map_sub_one _ _ hj'
  rw [e1, e2]
  rfl

theorem manhattonPotential_eq_spec_witness :
    detourGrid.dimension = (detourGrid.shape.length : Int) ∧
    ([[0, 2], [2, 1]] : List (List ℚ)).length = ([[1, 1], [1 / 2, 3]] : List (List ℚ)).length ∧
    manhattonPotential
        (setTargetedPoints (construct detourGrid [0, 0] [0, 2] [true, false])
          [[0, 2], [2, 1]] [[1, 1], [1 / 2, 3]]) [1, 0]
      = manhattonSpec [true, false] detourGrid.shape
          (([[0, 2], [2, 1]] : List (List ℚ)).map (RCToInternal detourGrid))
          [[1, 1], [1 / 2, 3]] [1, 0] ∧
    manhattonPotential
        (setTargetedPoints (construct detourGrid [0, 0] [0, 2] [true, false])
          [[0, 2], [2, 1]] [[1, 1], [1 / 2, 3]]) [1, 0] = 13 / 2 :=
  ⟨by decide, by decide,
    manhattonPotential_eq_spec detourGrid [0, 0] [0, 2] [true, false] (by decide)
      [[0, 2], [2, 1]] [[1, 1], [1 / 2, 3]] (by decide) [1, 0],
    by with_unfolding_all decide⟩

/-! ## One completed pass, in full -/

/-- What a pass of the loop does to the search state, however it ends: the popped point is the first one of minimal priority, the remaining open points keep
their order, the new points are appended, and only the new points get a parent. -/
theorem DijkstraBody_pass (func : pathFinder → List Int → ℚ) (s s1 : pathFinder)
    (hne : s.openList ≠ [])
    (hb : DijkstraBody func s = some (.next s1) ∨ DijkstraBody func s = some (.found s1) ∨
      DijkstraBody func s = some (.fatal s1)) :
    ∃ p l1 l2 new, s.openList = l1 ++ p :: l2 ∧
      (∀ q ∈ s.openList,
        getInternal s.pmfData p + func s p ≤ getInternal s.pmfData q + func s q) ∧
      (∀ q ∈ l1, getInternal s.pmfData p + func s p < getInternal s.pmfData q + func s q) ∧
      s1.closeList = s.closeList ++ [p] ∧
      s1.openList = l1 ++ l2 ++ new ∧
      (∀ q ∈ new, q ∉ s.openList ∧ q ∉ s.closeList) ∧
      (∀ k, s1.fatherPoint k = if k ∈ new then some p else s.fatherPoint k) := by
  obtain ⟨p, l1, l2, hpop, hsplit, hmin, hlt⟩ := popMin_spec s func s.openList hne
  have hadj : adjacentList (closePoint s p (l1 ++ l2)) p = adjacentList s p :=
    adjacentList_congr (closePoint_sameConfig s p (l1 ++ l2)) p
  by_cases hend : p = s.endPoint
  · have he : DijkstraBody func s = some (.found (closePoint s p (l1 ++ l2))) := by
      simp only [DijkstraBody, hpop]
      rw [if_pos hend]
      rfl
    rw [he] at hb
    rcases hb with hb | hb | hb
    · cases hb
    · have hs1 : s1 = closePoint s p (l1 ++ l2) := by
        injection hb with hb
        injection hb with hb
        exact hb.symm
      subst hs1
      refine ⟨p, l1, l2, [], hsplit, hmin, hlt, rfl, by simp [closePoint], by simp, ?_⟩
      intro k
      simp [closePoint]
    · cases hb
  · by_cases hempty : adjacentList s p = []
    · have he : DijkstraBody func s = some (.fatal (closePoint s p (l1 ++ l2))) := by
        simp only [DijkstraBody, hpop]
        rw [if_neg hend]
        have : findAdjacentPoints
            { s with openList := l1 ++ l2, closeList := s.closeList ++ [p] } p
            = .error .noAdjacentPoint := by
          unfold findAdjacentPoints
          have h' : adjacentList
              { s with openList := l1 ++ l2, closeList := s.closeList ++ [p] } p = [] :=
            hadj.trans hempty
          simp [h']
        rw [this]
        rfl
      rw [he] at hb
      rcases hb with hb | hb | hb
      · cases hb
      · cases hb
      · have hs1 : s1 = closePoint s p (l1 ++ l2) := by
          injection hb with hb
          injection hb with hb
          exact hb.symm
        subst hs1
        refine ⟨p, l1, l2, [], hsplit, hmin, hlt, rfl, by simp [closePoint], by simp, ?_⟩
        intro k
        simp [closePoint]
    · have he : DijkstraBody func s
          = some (.next ((adjacentList s p).foldl (visit p) (closePoint s p (l1 ++ l2)))) := by
        simp only [DijkstraBody, hpop]
        rw [if_neg hend]
        have h' : adjacentList
            { s with openList := l1 ++ l2, closeList := s.closeList ++ [p] } p
            = adjacentList s p := hadj
        have : findAdjacentPoints
            { s with openList := l1 ++ l2, closeList := s.closeList ++ [p] } p
            = .ok (adjacentList s p) := by
          unfold findAdjacentPoints
          rw [h']
          simp [hempty]
        rw [this]
        rfl
      rw [he] at hb
      rcases hb with hb | hb | hb
      · have hs1 : s1 = (adjacentList s p).foldl (visit p) (closePoint s p (l1 ++ l2)) := by
          injection hb with hb
          injection hb with hb
          exact hb.symm
        obtain ⟨new, h1, h2, _, _, h5, _, h7⟩ :=
          visit_fold_spec p (adjacentList s p) (closePoint s p (l1 ++ l2))
        rw [← hs1] at h1 h2 h7
        refine ⟨p, l1, l2, new, hsplit, hmin, hlt, h2, h1, ?_, h7⟩
        intro q hq
        obtain ⟨_, hqo, hqc⟩ := h5 q hq
        have hqo' : q ∉ l1 ++ l2 := hqo
        have hqc' : q ∉ s.closeList ++ [p] := hqc
        rw [hsplit]
        simp only [List.mem_append, List.mem_cons, List.mem_singleton, not_or] at hqo' hqc' ⊢
        exact ⟨⟨hqo'.1, hqc'.2.1, hqo'.2⟩, hqc'.1⟩
      · cases hb
      · cases hb

/-- The state before the last of `k + 1` completed passes. -/
theorem afterPasses_succ (func : pathFinder → List Int → ℚ) :
    ∀ (k : Nat) (s0 s1 : pathFinder), afterPasses func (k + 1) s0 = some s1 →
      ∃ s, afterPasses func k s0 = some s ∧ s.openList ≠ [] ∧
        (DijkstraBody func s = some (.next s1) ∨ DijkstraBody func s = some (.found s1)) := by
  intro k
  induction k with
  | zero =>
    intro s0 s1 h
    by_cases hne : s0.openList = []
    · simp [afterPasses, hne] at h
    · have hlen : s0.openList.length ≠ 0 := by
        intro h0; exact hne (List.length_eq_zero.mp h0)
      refine ⟨s0, rfl, hne, ?_⟩
      simp only [afterPasses, if_pos hlen] at h
      obtain ⟨b, hb⟩ := DijkstraBody_isSome func s0 hne
      rw [hb] at h
      cases b with
      | next t =>
        left
        simp only [Option.some.injEq] at h
        rw [hb, h]
      | found t =>
        right
        simp at h
        rw [hb, h]
      | fatal t => simp at h
  | succ n ih =>
    intro s0 s1 h
    by_cases hne : s0.openList = []
    · simp [afterPasses, hne] at h
    · have hlen : s0.openList.length ≠ 0 := by
        intro h0; exact hne (List.length_eq_zero.mp h0)
      rw [afterPasses, if_pos hlen] at h
      obtain ⟨b, hb⟩ := DijkstraBody_isSome func s0 hne
      rw [hb] at h
      cases b with
      | next t =>
        obtain ⟨s, hs, hsne, hcase⟩ := ih t s1 h
        refine ⟨s, ?_, hsne, hcase⟩
        rw [afterPasses, if_pos hlen, hb]
        exact hs
      | found t => simp at h
      | fatal t => simp at h

/-- A search that returns does so with the state `stateAfter` names. -/
theorem Dijkstra_of_hasReturned (func : pathFinder → List Int → ℚ) (fuel : Nat)
    (s : pathFinder) (h : hasReturned func fuel s = true) :
    Dijkstra func fuel s = some (.returned (stateAfter func fuel s)) := by
  unfold hasReturned at h
  unfold stateAfter
  cases hd : Dijkstra func fuel s with
  | none => rw [hd] at h; simp at h
  | some r =>
    cases r with
    | returned t => rfl
    | fatal t => rw [hd] at h; simp at h

/-! ## Several passes and whole runs -/

/-- A recorded parent is never overwritten by a pass. -/
theorem fatherPoint_pass (func : pathFinder → List Int → ℚ) {s0 s s1 : pathFinder}
    (h : SearchInv s0 s) (hne : s.openList ≠ [])
    (hb : DijkstraBody func s = some (.next s1) ∨ DijkstraBody func s = some (.found s1) ∨
      DijkstraBody func s = some (.fatal s1)) :
    ∀ q, s1.fatherPoint q = s.fatherPoint q ∨
      (s.fatherPoint q = none ∧ q ∉ s.openList ∧ q ∉ s.closeList ∧ q ∈ s1.openList ∧
        ∃ p, s1.fatherPoint q = some p) := by
  obtain ⟨p, l1, l2, new, _, _, _, _, hopen, hnew, hfa⟩ := DijkstraBody_pass func s s1 hne hb
  intro q
  by_cases hq : q ∈ new
  · right
    obtain ⟨hqo, hqc⟩ := hnew q hq
    refine ⟨?_, hqo, hqc, by rw [hopen]; simp [hq], p, by rw [hfa q, if_pos hq]⟩
    cases hf : s.fatherPoint q with
    | none => rfl
    | some f =>
      rcases (h.father q f hf).1 with h1 | h1
      · exact absurd h1 hqo
      · exact absurd h1 hqc
  · left
    rw [hfa q, if_neg hq]

/-- The closed list after `k` completed passes is the closed list before them followed by `k`
points. -/
theorem afterPasses_closeList (func : pathFinder → List Int → ℚ) :
    ∀ (k : Nat) (s t : pathFinder), afterPasses func k s = some t →
      ∃ extra, t.closeList = s.closeList ++ extra ∧ extra.length = k := by
  intro k
  induction k with
  | zero =>
    intro s t h
    simp [afterPasses] at h
    subst h
    exact ⟨[], by simp, rfl⟩
  | succ n ih =>
    intro s t h
    obtain ⟨u, hu, hne, hb⟩ := afterPasses_succ func n s t h
    obtain ⟨extra, he, hlen⟩ := ih s u hu
    obtain ⟨p, _, _, _, _, _, _, hcl, _⟩ := DijkstraBody_pass func u t hne
      (hb.elim Or.inl (fun h => Or.inr (Or.inl h)))
    refine ⟨extra ++ [p], ?_, by simp [hlen]⟩
    rw [hcl, he, List.append_assoc]

/-- A run only appends to the closed list. -/
theorem Dijkstra_closeList_prefix (func : pathFinder → List Int → ℚ) (fuel : Nat)
    (s : pathFinder) (r : SearchResult) (h : Dijkstra func fuel s = some r) :
    ∃ extra, r.state.closeList = s.closeList ++ extra := by
  obtain ⟨t, ⟨e, he⟩, hcase⟩ := Dijkstra_loop func
    (fun t => ∃ extra, t.closeList = s.closeList ++ extra)
    (fun t t1 hP hne hb => by
      obtain ⟨e, he⟩ := hP
      obtain ⟨p, _, _, _, _, _, _, hcl, _⟩ := DijkstraBody_pass func t t1 hne (Or.inl hb)
      exact ⟨e ++ [p], by rw [hcl, he, List.append_assoc]⟩)
    fuel s r ⟨[], by simp⟩ h
  rcases hcase with ⟨_, rfl⟩ | ⟨hne, t1, ⟨hb, rfl⟩ | ⟨hb, rfl⟩⟩
  · exact ⟨e, he⟩
  · obtain ⟨p, _, _, _, _, _, _, hcl, _⟩ :=
      DijkstraBody_pass func t t1 hne (Or.inr (Or.inl hb))
    exact ⟨e ++ [p], by show t1.closeList = _; rw [hcl, he, List.append_assoc]⟩
  · obtain ⟨p, _, _, _, _, _, _, hcl, _⟩ :=
      DijkstraBody_pass func t t1 hne (Or.inr (Or.inr hb))
    exact ⟨e ++ [p], by show t1.closeList = _; rw [hcl, he, List.append_assoc]⟩

/-- The closed list at the end of a run extends the closed list after any number of its
completed passes. -/
theorem Dijkstra_extends_afterPasses (func : pathFinder → List Int → ℚ) :
    ∀ (k : Nat) (s t : pathFinder) (fuel : Nat) (r : SearchResult),
      afterPasses func k s = some t → Dijkstra func fuel s = some r →
      ∃ extra, r.state.closeList = t.closeList ++ extra := by
  intro k
  induction k with
  | zero =>
    intro s t fuel r h hrun
    simp [afterPasses] at h
    subst h
    exact Dijkstra_closeList_prefix func fuel s r hrun
  | succ n ih =>
    intro s t fuel r h hrun
    cases fuel with
    | zero => simp [Dijkstra] at hrun
    | succ f =>
      by_cases hne : s.openList = []
      · simp [afterPasses, hne] at h
      · have hlen : s.openList.length ≠ 0 := by
          intro h0; exact hne (List.length_eq_zero.mp h0)
        rw [afterPasses, if_pos hlen] at h
        rw [Dijkstra, if_pos hlen] at hrun
        obtain ⟨b, hb⟩ := DijkstraBody_isSome func s hne
        rw [hb] at h hrun
        cases b with
        | next u => exact ih u t f r h hrun
        | found u =>
          simp only at h hrun
          by_cases hn : n = 0
          · rw [if_pos hn] at h
            have h1 : u = t := Option.some.inj h
            have h2 : SearchResult.returned u = r := Option.some.inj hrun
            subst h1 h2
            exact ⟨[], by simp [SearchResult.state]⟩
          · rw [if_neg hn] at h
            exact absurd h (by simp)
        | fatal u => simp at h

/-- Every prefix of the closed list a run returns with is the closed list after that many
completed passes. -/
theorem afterPasses_exists (func : pathFinder → List Int → ℚ) :
    ∀ (fuel : Nat) (s r : pathFinder), Dijkstra func fuel s = some (.returned r) →
      ∀ k, s.closeList.length + k ≤ r.closeList.length →
        ∃ t, afterPasses func k s = some t := by
  intro fuel
  induction fuel with
  | zero =>
    intro s r h
    simp [Dijkstra] at h
  | succ f ih =>
    intro s r h k hk
    cases k with
    | zero => exact ⟨s, rfl⟩
    | succ k =>
      by_cases hne : s.openList = []
      · simp [Dijkstra, hne] at h
        subst h
        omega
      · have hlen : s.openList.length ≠ 0 := by
          intro h0; exact hne (List.length_eq_zero.mp h0)
        rw [Dijkstra, if_pos hlen] at h
        obtain ⟨b, hb⟩ := DijkstraBody_isSome func s hne
        rw [hb] at h
        cases b with
        | next u =>
          obtain ⟨p, _, _, _, _, _, _, hcl, _⟩ := DijkstraBody_pass func s u hne (Or.inl hb)
          obtain ⟨t, ht⟩ := ih u r h k (by rw [hcl]; simp; omega)
          refine ⟨t, ?_⟩
          rw [afterPasses, if_pos hlen, hb]
          exact ht
        | found u =>
          obtain ⟨p, _, _, _, _, _, _, hcl, _⟩ :=
            DijkstraBody_pass func s u hne (Or.inr (Or.inl hb))
          simp only [Option.some.injEq, SearchResult.returned.injEq] at h
          subst h
          have hk0 : k = 0 := by
            rw [hcl] at hk; simp at hk; omega
          subst hk0
          refine ⟨u, ?_⟩
          rw [afterPasses, if_pos hlen, hb]
          simp
        | fatal u => simp at h

/-- A run started from a state of a search keeps the search invariant, only appends to the
closed list, and never overwrites a recorded parent. -/
theorem Dijkstra_run_inv (func : pathFinder → List Int → ℚ) {s0 s : pathFinder}
    (h : SearchInv s0 s) (fuel : Nat) (r : SearchResult)
    (hrun : Dijkstra func fuel s = some r) :
    SearchInv s0 r.state ∧
      ∀ q p, s.fatherPoint q = some p → r.state.fatherPoint q = some p := by
  have hmono : ∀ (t t1 : pathFinder), SearchInv s0 t →
      (∀ q p, s.fatherPoint q = some p → t.fatherPoint q = some p) → t.openList ≠ [] →
      (DijkstraBody func t = some (.next t1) ∨ DijkstraBody func t = some (.found t1) ∨
        DijkstraBody func t = some (.fatal t1)) →
      ∀ q p, s.fatherPoint q = some p → t1.fatherPoint q = some p := by
    intro t t1 hinv hP hne hb q p hq
    rcases fatherPoint_pass func hinv hne hb q with h1 | ⟨h1, _⟩
    · rw [h1]; exact hP q p hq
    · rw [hP q p hq] at h1; cases h1
  obtain ⟨t, ⟨hinv, hP⟩, hcase⟩ := Dijkstra_loop func
    (fun t => SearchInv s0 t ∧ ∀ q p, s.fatherPoint q = some p → t.fatherPoint q = some p)
    (fun t t1 hP hne hb =>
      ⟨(DijkstraBody_next_inv func hP.1 hne hb).choose_spec.2.2.2.2.1,
        hmono t t1 hP.1 hP.2 hne (Or.inl hb)⟩)
    fuel s r ⟨h, fun _ _ hq => hq⟩ hrun
  rcases hcase with ⟨_, rfl⟩ | ⟨hne, t1, ⟨hb, rfl⟩ | ⟨hb, rfl⟩⟩
  · exact ⟨hinv, hP⟩
  · exact ⟨(DijkstraBody_found_inv func hinv hne hb).2.2.2.1,
      hmono t t1 hinv hP hne (Or.inr (Or.inl hb))⟩
  · exact ⟨(DijkstraBody_fatal_inv func hinv hne hb).choose_spec.2.2.2.2,
      hmono t t1 hinv hP hne (Or.inr (Or.inr hb))⟩

/-! ## Results of a completed search -/

/-- After a search that returned, some point is closed, and either the end point is closed or
the open list is empty. -/
theorem returned_cases (func : pathFinder → List Int → ℚ) {s0 : pathFinder} (hf : Fresh s0)
    (fuel : Nat) (s : pathFinder) (h : Dijkstra func fuel s0 = some (.returned s)) :
    SearchInv s0 s ∧ s.closeList ≠ [] ∧
      (s0.endPoint ∈ s.closeList ∨ (s.openList = [] ∧ s0.endPoint ∉ s.closeList)) := by
  obtain ⟨t, hinv, hcase⟩ := Dijkstra_loop func (SearchInv s0)
    (fun _ _ hP hne hb => (DijkstraBody_next_inv func hP hne hb).choose_spec.2.2.2.2.1)
    fuel s0 (.returned s) (SearchInv_of_fresh s0 hf) h
  rcases hcase with ⟨hopen, he⟩ | ⟨hne, t1, ⟨hb, he⟩ | ⟨hb, he⟩⟩
  · have hst : s = t := by injection he
    subst hst
    refine ⟨hinv, ?_, ?_⟩
    · rcases hinv.startSeen with h1 | h1
      · rw [hopen] at h1; simp at h1
      · exact List.ne_nil_of_mem h1
    · by_cases hc : s0.endPoint ∈ s.closeList
      · exact Or.inl hc
      · exact Or.inr ⟨hopen, hc⟩
  · have hst : s = t1 := by injection he
    subst hst
    obtain ⟨_, _, hcl, hinv1, _⟩ := DijkstraBody_found_inv func hinv hne hb
    refine ⟨hinv1, by rw [hcl]; simp, Or.inl (by rw [hcl]; simp)⟩
  · cases he

/-- After a search that returned, the first closed point is the start point, and the end
point, when closed, is the last closed point. -/
theorem returned_ends (func : pathFinder → List Int → ℚ) {s0 : pathFinder} (hf : Fresh s0)
    (fuel : Nat) (s : pathFinder) (h : Dijkstra func fuel s0 = some (.returned s)) :
    s.closeList.head? = some s0.initialPoint ∧
      (s0.endPoint ∈ s.closeList → s.closeList.getLast? = some s0.endPoint) := by
  obtain ⟨t, ⟨hinv, hfirst, hnot⟩, hcase⟩ := Dijkstra_loop func
    (fun t => SearchInv s0 t ∧
      ((t.closeList = [] ∧ t.openList = [s0.initialPoint]) ∨
        t.closeList.head? = some s0.initialPoint) ∧
      s0.endPoint ∉ t.closeList)
    (fun t t1 hP hne hb => by
      obtain ⟨hinv, hfirst, hnot⟩ := hP
      obtain ⟨p, hp, hpend, _, hcl, hinv1, _⟩ := DijkstraBody_next_inv func hinv hne hb
      refine ⟨hinv1, Or.inr ?_, ?_⟩
      · rcases hfirst with ⟨hc, ho⟩ | hh
        · rw [ho] at hp
          simp at hp
          rw [hcl, hc, hp]
          rfl
        · rw [hcl]
          cases hcl' : t.closeList with
          | nil => rw [hcl'] at hh; simp at hh
          | cons x xs => rw [hcl'] at hh; simpa using hh
      · rw [hcl]
        simp only [List.mem_append, List.mem_singleton, not_or]
        exact ⟨hnot, fun h => hpend h.symm⟩)
    fuel s0 (.returned s)
    ⟨SearchInv_of_fresh s0 hf, Or.inl ⟨hf.2.1, hf.1⟩, by rw [hf.2.1]; simp⟩ h
  rcases hcase with ⟨hopen, he⟩ | ⟨hne, t1, ⟨hb, he⟩ | ⟨hb, he⟩⟩
  · have hst : s = t := by injection he
    subst hst
    refine ⟨?_, fun hc => absurd hc hnot⟩
    rcases hfirst with ⟨_, ho⟩ | hh
    · rw [ho] at hopen; simp at hopen
    · exact hh
  · have hst : s = t1 := by injection he
    subst hst
    obtain ⟨hendo, _, hcl, _, _⟩ := DijkstraBody_found_inv func hinv hne hb
    refine ⟨?_, fun _ => by rw [hcl]; simp⟩
    rcases hfirst with ⟨hc, ho⟩ | hh
    · rw [ho] at hendo
      simp at hendo
      rw [hcl, hc, hendo]
      rfl
    · rw [hcl]
      cases hcl' : t.closeList with
      | nil => rw [hcl'] at hh; simp at hh
      | cons x xs => rw [hcl'] at hh; simpa using hh
  · cases he

/-- C24 (explored points are the finalized points in finalization order): after a search that
returned, `getExploredPoints` returns `internalToRC` of every closed grid point, the `k`-th
entry belonging to the point closed by the `k`-th pass of the loop (the closed list after `k`
passes is the first `k` entries of the final one); its length is `getExploredPointNum()`; its
first entry is the start grid point and, when the end point was finalized, its last entry is
the end grid point. -/
theorem getExploredPoints_in_closing_order (pmfData : pmf ℚ) (a b : List ℚ) (pbc : List Bool)
    (func : pathFinder → List Int → ℚ) (fuel : Nat) (s : pathFinder)
    (hrun : Dijkstra func fuel (construct pmfData a b pbc) = some (.returned s)) :
    ∃ pts, getExploredPoints s = .ok pts ∧
      pts = s.closeList.map (internalToRC pmfData) ∧
      getExploredPointNum s = .ok (pts.length : Int) ∧
      (∀ k, k ≤ s.closeList.length →
        ∃ t, afterPasses func k (construct pmfData a b pbc) = some t ∧
          t.closeList = s.closeList.take k) ∧
      pts.head? = some (internalToRC pmfData (RCToInternal pmfData a)) ∧
      (RCToInternal pmfData b ∈ s.closeList →
        pts.getLast? = some (internalToRC pmfData (RCToInternal pmfData b))) := by
  have hf := construct_fresh pmfData a b pbc
  obtain ⟨hinv, hne, _⟩ := returned_cases func hf fuel s hrun
  obtain ⟨hhead, hlast⟩ := returned_ends func hf fuel s hrun
  have hpmf : s.pmfData = pmfData := hinv.config.pmfData
  have hlen : s.closeList.length ≠ 0 := fun h0 => hne (List.length_eq_zero.mp h0)
  refine ⟨s.closeList.map (internalToRC pmfData), ?_, rfl, ?_, ?_, ?_, ?_⟩
  · unfold getExploredPoints
    rw [if_neg hlen, hpmf]
  · unfold getExploredPointNum
    rw [if_neg hlen, List.length_map]
  · intro k hk
    obtain ⟨t, ht⟩ := afterPasses_exists func fuel _ s hrun k (by
      rw [hf.2.1]; simpa using hk)
    obtain ⟨extra, he, hel⟩ := afterPasses_closeList func k _ t ht
    obtain ⟨e2, he2⟩ := Dijkstra_extends_afterPasses func k _ t fuel _ ht hrun
    refine ⟨t, ht, ?_⟩
    have he2' : s.closeList = t.closeList ++ e2 := he2
    rw [hf.2.1, List.nil_append] at he
    rw [he2', he, List.take_left' hel]
  · rw [List.head?_map, hhead]
    rfl
  · intro hb
    rw [List.getLast?_map, hlast hb]
    rfl

theorem getExploredPoints_in_closing_order_witness :
    Dijkstra defaultFunc 10 (construct detourGrid [0, 0] [0, 2] [false, false])
      = some (.returned (stateAfter defaultFunc 10 detourEngine)) ∧
    (stateAfter defaultFunc 10 detourEngine).closeList
      = [[0, 0], [1, 0], [1, 1], [1, 2], [0, 2]] ∧
    ∃ pts, getExploredPoints (stateAfter defaultFunc 10 detourEngine) = .ok pts ∧
      pts = (stateAfter defaultFunc 10 detourEngine).closeList.map (internalToRC detourGrid) ∧
      getExploredPointNum (stateAfter defaultFunc 10 detourEngine) = .ok (pts.length : Int) ∧
      (∀ k, k ≤ (stateAfter defaultFunc 10 detourEngine).closeList.length →
        ∃ t, afterPasses defaultFunc k (construct detourGrid [0, 0] [0, 2] [false, false])
            = some t ∧
          t.closeList = (stateAfter defaultFunc 10 detourEngine).closeList.take k) ∧
      pts.head? = some (internalToRC detourGrid (RCToInternal detourGrid [0, 0])) ∧
      (RCToInternal detourGrid [0, 2] ∈ (stateAfter defaultFunc 10 detourEngine).closeList →
        pts.getLast? = some (internalToRC detourGrid (RCToInternal detourGrid [0, 2]))) :=
  ⟨Dijkstra_of_hasReturned defaultFunc 10 detourEngine (by with_unfolding_all decide),
    by with_unfolding_all decide,
    getExploredPoints_in_closing_order detourGrid [0, 0] [0, 2] [false, false] defaultFunc 10
      (stateAfter defaultFunc 10 detourEngine)
      (Dijkstra_of_hasReturned defaultFunc 10 detourEngine (by with_unfolding_all decide))⟩

/-! ## Determinism and the tie-break -/

/-- More fuel does not change the result of a search. -/
theorem Dijkstra_fuel_mono (func : pathFinder → List Int → ℚ) :
    ∀ (n : Nat) (s : pathFinder) (r : SearchResult), Dijkstra func n s = some r →
      ∀ m, n ≤ m → Dijkstra func m s = some r := by
  intro n
  induction n with
  | zero =>
    intro s r h
    simp [Dijkstra] at h
  | succ n ih =>
    intro s r h m hm
    obtain ⟨m', rfl⟩ : ∃ m', m = m' + 1 := ⟨m - 1, by omega⟩
    by_cases hne : s.openList = []
    · simp [Dijkstra, hne] at h ⊢
      exact h
    · have hlen : s.openList.length ≠ 0 := by
        intro h0; exact hne (List.length_eq_zero.mp h0)
      rw [Dijkstra, if_pos hlen] at h ⊢
      obtain ⟨b, hb⟩ := DijkstraBody_isSome func s hne
      rw [hb] at h ⊢
      cases b with
      | next u => exact ih u r h m' (by omega)
      | found u => exact h
      | fatal u => exact h

/-- C25 (deterministic tie-break): the result of a search is determined by the engine state it
starts from and the heuristic (two runs that end give the same result, whatever fuel each was
given, hence the same path and explored-point count); `popMin` returns the first point of the
list with minimal priority, every earlier point having a strictly larger priority; and a pass
keeps the remaining open points in their order and appends the new ones, so the list is in
insertion order. -/
theorem Dijkstra_deterministic_tie_break (func : pathFinder → List Int → ℚ) (s : pathFinder) :
    (∀ n1 n2 r1 r2, Dijkstra func n1 s = some r1 → Dijkstra func n2 s = some r2 → r1 = r2) ∧
    (∀ popList : List (List Int), popList ≠ [] →
      ∃ p l1 l2, popMin s popList func = some (p, l1 ++ l2) ∧ popList = l1 ++ p :: l2 ∧
        (∀ q ∈ popList,
          getInternal s.pmfData p + func s p ≤ getInternal s.pmfData q + func s q) ∧
        (∀ q ∈ l1, getInternal s.pmfData p + func s p < getInternal s.pmfData q + func s q)) ∧
    (∀ s1, s.openList ≠ [] → DijkstraBody func s = some (.next s1) →
      ∃ p l1 l2 new, s.openList = l1 ++ p :: l2 ∧
        (∀ q ∈ l1, getInternal s.pmfData p + func s p < getInternal s.pmfData q + func s q) ∧
        s1.closeList = s.closeList ++ [p] ∧ s1.openList = l1 ++ l2 ++ new ∧
        ∀ q ∈ new, q ∉ s.openList) := by
  refine ⟨?_, fun popList hne => popMin_spec s func popList hne, ?_⟩
  · intro n1 n2 r1 r2 h1 h2
    have h1' := Dijkstra_fuel_mono func n1 s r1 h1 (max n1 n2) (le_max_left _ _)
    have h2' := Dijkstra_fuel_mono func n2 s r2 h2 (max n1 n2) (le_max_right _ _)
    rw [h1'] at h2'
    exact Option.some.inj h2'
  · intro s1 hne hb
    obtain ⟨p, l1, l2, new, hsplit, _, hlt, hcl, hopen, hnew, _⟩ :=
      DijkstraBody_pass func s s1 hne (Or.inl hb)
    exact ⟨p, l1, l2, new, hsplit, hlt, hcl, hopen, fun q hq => (hnew q hq).1⟩

theorem Dijkstra_deterministic_tie_break_witness :
    popMin detourEngine [[0, 1], [2, 0], [2, 1], [2, 2]] defaultFunc
      = some ([2, 0], [[0, 1], [2, 1], [2, 2]]) ∧
    (∀ n1 n2 r1 r2, Dijkstra defaultFunc n1 detourEngine = some r1 →
      Dijkstra defaultFunc n2 detourEngine = some r2 → r1 = r2) ∧
    (∀ popList : List (List Int), popList ≠ [] →
      ∃ p l1 l2, popMin detourEngine popList defaultFunc = some (p, l1 ++ l2) ∧
        popList = l1 ++ p :: l2 ∧
        (∀ q ∈ popList,
          getInternal detourEngine.pmfData p + defaultFunc detourEngine p
            ≤ getInternal detourEngine.pmfData q + defaultFunc detourEngine q) ∧
        (∀ q ∈ l1, getInternal detourEngine.pmfData p + defaultFunc detourEngine p
            < getInternal detourEngine.pmfData q + defaultFunc detourEngine q)) ∧
    (∀ s1, detourEngine.openList ≠ [] → DijkstraBody defaultFunc detourEngine = some (.next s1) →
      ∃ p l1 l2 new, detourEngine.openList = l1 ++ p :: l2 ∧
        (∀ q ∈ l1, getInternal detourEngine.pmfData p + defaultFunc detourEngine p
            < getInternal detourEngine.pmfData q + defaultFunc detourEngine q) ∧
        s1.closeList = detourEngine.closeList ++ [p] ∧ s1.openList = l1 ++ l2 ++ new ∧
        ∀ q ∈ new, q ∉ detourEngine.openList) :=
  ⟨by with_unfolding_all decide, Dijkstra_deterministic_tie_break defaultFunc detourEngine⟩

/-! ## The parent mapping -/

/-- Following parents from a closed point reaches the start point. -/
theorem followParents_closed {s0 s : pathFinder} (h : SearchInv s0 s) :
    ∀ (n : Nat) (q : List Int) (j : Nat), s.closeList[j]? = some q → j ≤ n →
      followParents s n q = s0.initialPoint := by
  have hroot : ∀ q, q ∈ s.closeList → s.fatherPoint q = none → q = s0.initialPoint := by
    intro q hq hnone
    by_contra hne
    obtain ⟨p, hp⟩ := h.hasFather q (Or.inr hq) hne
    rw [hnone] at hp
    cases hp
  intro n
  induction n with
  | zero =>
    intro q j hj hle
    have hj0 : j = 0 := by omega
    subst hj0
    have hq : q ∈ s.closeList := List.getElem?_mem hj
    cases hfa : s.fatherPoint q with
    | none =>
      simp only [followParents]
      exact hroot q hq hfa
    | some p =>
      obtain ⟨_, _, i, _, hlt⟩ := h.father q p hfa
      have := hlt 0 hj
      omega
  | succ n ih =>
    intro q j hj hle
    have hq : q ∈ s.closeList := List.getElem?_mem hj
    cases hfa : s.fatherPoint q with
    | none =>
      simp only [followParents, hfa]
      exact hroot q hq hfa
    | some p =>
      obtain ⟨_, _, i, hi, hlt⟩ := h.father q p hfa
      have := hlt j hj
      simp only [followParents, hfa]
      exact ih p i hi (by omega)

/-- Following parents from any open or closed point reaches the start point. -/
theorem followParents_recorded {s0 s : pathFinder} (h : SearchInv s0 s) (q : List Int)
    (hq : q ∈ s.openList ∨ q ∈ s.closeList) :
    followParents s (s.closeList.length + 1) q = s0.initialPoint := by
  cases hfa : s.fatherPoint q with
  | none =>
    simp only [followParents, hfa]
    by_contra hne
    obtain ⟨p, hp⟩ := h.hasFather q hq hne
    rw [hfa] at hp
    cases hp
  | some p =>
    obtain ⟨_, _, i, hi, _⟩ := h.father q p hfa
    simp only [followParents, hfa]
    have hlt : i < s.closeList.length := by
      by_contra hge
      rw [List.getElem?_eq_none (by omega)] at hi
      cases hi
    exact followParents_closed h _ p i hi (by omega)

/-- A parent recorded after `k` passes is still recorded, unchanged, after `k + m` passes. -/
theorem fatherPoint_afterPasses (func : pathFinder → List Int → ℚ) {s0 : pathFinder}
    (hf : Fresh s0) :
    ∀ (m k : Nat) (s s1 : pathFinder), afterPasses func k s0 = some s →
      afterPasses func (k + m) s0 = some s1 →
      ∀ q p, s.fatherPoint q = some p → s1.fatherPoint q = some p := by
  intro m
  induction m with
  | zero =>
    intro k s s1 h1 h2 q p hq
    have h2' : afterPasses func k s0 = some s1 := h2
    rw [h1] at h2'
    rw [← Option.some.inj h2']
    exact hq
  | succ m ih =>
    intro k s s1 h1 h2 q p hq
    obtain ⟨u, hu, hne, hb⟩ := afterPasses_succ func (k + m) s0 s1 h2
    have hqu := ih k s u h1 hu q p hq
    have hinv := SearchInv_afterPasses func hf (k + m) u hu
    rcases fatherPoint_pass func hinv hne
      (hb.elim Or.inl (fun h => Or.inr (Or.inl h))) q with h3 | ⟨h3, _⟩
    · rw [h3]; exact hqu
    · rw [hqu] at h3; cases h3

/-- C30 (parent-mapping invariant): after construction and after every completed pass of the
loop, the points with a recorded parent are exactly the open and closed points other than the
start; the parent of `q` is a closed point `p` with `q` in `findAdjacentPoints(p)`, closed
before `q`; a recorded parent is the same after any number of further passes, and a pass
records a parent only for a point that was neither open nor closed and is open afterwards; the
start has no parent, and following parents from any open or closed point reaches the start
within `closeList.size() + 1` steps. -/
theorem fatherPoint_invariant (pmfData : pmf ℚ) (a b : List ℚ) (pbc : List Bool)
    (func : pathFinder → List Int → ℚ) (k : Nat) (s : pathFinder)
    (h : afterPasses func k (construct pmfData a b pbc) = some s) :
    (∀ q, (∃ p, s.fatherPoint q = some p) ↔
      ((q ∈ s.openList ∨ q ∈ s.closeList) ∧ q ≠ RCToInternal pmfData a)) ∧
    (∀ q p, s.fatherPoint q = some p →
      IsNeighbour s p q ∧
        ∃ i : Nat, s.closeList[i]? = some p ∧ ∀ j : Nat, s.closeList[j]? = some q → i < j) ∧
    (∀ m s1, afterPasses func (k + m) (construct pmfData a b pbc) = some s1 →
      ∀ q p, s.fatherPoint q = some p → s1.fatherPoint q = some p) ∧
    (∀ s1, afterPasses func (k + 1) (construct pmfData a b pbc) = some s1 →
      ∀ q, s1.fatherPoint q ≠ s.fatherPoint q →
        s.fatherPoint q = none ∧ q ∉ s.openList ∧ q ∉ s.closeList ∧ q ∈ s1.openList) ∧
    s.fatherPoint (RCToInternal pmfData a) = none ∧
    (∀ q, q ∈ s.openList ∨ q ∈ s.closeList →
      followParents s (s.closeList.length + 1) q = RCToInternal pmfData a) := by
  have hf := construct_fresh pmfData a b pbc
  have hinv := SearchInv_afterPasses func hf k s h
  refine ⟨?_, ?_, ?_, ?_, hinv.startRoot, fun q hq => followParents_recorded hinv q hq⟩
  · intro q
    constructor
    · rintro ⟨p, hp⟩
      refine ⟨(hinv.father q p hp).1, ?_⟩
      intro hq
      rw [hq] at hp
      have := hinv.startRoot
      change s.fatherPoint (RCToInternal pmfData a) = none at this
      rw [this] at hp
      cases hp
    · rintro ⟨hq, hne⟩
      exact hinv.hasFather q hq hne
  · intro q p hp
    obtain ⟨_, hadj, hidx⟩ := hinv.father q p hp
    refine ⟨(isNeighbour_iff s p q).mpr ?_, hidx⟩
    rw [adjacentList_congr hinv.config p]
    exact hadj
  · intro m s1 h1
    exact fatherPoint_afterPasses func hf m k s s1 h h1
  · intro s1 h1 q hq
    obtain ⟨u, hu, hne, hb⟩ := afterPasses_succ func k _ s1 h1
    rw [h] at hu
    have hus : s = u := Option.some.inj hu
    subst hus
    rcases fatherPoint_pass func hinv hne
      (hb.elim Or.inl (fun h => Or.inr (Or.inl h))) q with h3 | ⟨h3, h4, h5, h6, _⟩
    · exact absurd h3 hq
    · exact ⟨h3, h4, h5, h6⟩

theorem fatherPoint_invariant_witness :
    afterPasses defaultFunc 3 (construct detourGrid [0, 0] [0, 2] [false, false])
      = some ((afterPasses defaultFunc 3 detourEngine).getD detourEngine) ∧
    ((afterPasses defaultFunc 3 detourEngine).getD detourEngine).closeList
      = [[0, 0], [1, 0], [1, 1]] ∧
    ((afterPasses defaultFunc 3 detourEngine).getD detourEngine).fatherPoint [1, 2]
      = some [1, 1] ∧
    (∀ q p, ((afterPasses defaultFunc 3 detourEngine).getD detourEngine).fatherPoint q = some p →
      IsNeighbour ((afterPasses defaultFunc 3 detourEngine).getD detourEngine) p q ∧
        ∃ i : Nat,
          ((afterPasses defaultFunc 3 detourEngine).getD detourEngine).closeList[i]? = some p ∧
          ∀ j : Nat,
            ((afterPasses defaultFunc 3 detourEngine).getD detourEngine).closeList[j]? = some q →
              i < j) ∧
    (∀ q, q ∈ ((afterPasses defaultFunc 3 detourEngine).getD detourEngine).openList ∨
        q ∈ ((afterPasses defaultFunc 3 detourEngine).getD detourEngine).closeList →
      followParents ((afterPasses defaultFunc 3 detourEngine).getD detourEngine)
        (((afterPasses defaultFunc 3 detourEngine).getD detourEngine).closeList.length + 1) q
        = RCToInternal detourGrid [0, 0]) :=
  have hk := eq_some_getD (afterPasses defaultFunc 3 detourEngine) detourEngine
    (by with_unfolding_all decide)
  have hall := fatherPoint_invariant detourGrid [0, 0] [0, 2] [false, false] defaultFunc 3
    ((afterPasses defaultFunc 3 detourEngine).getD detourEngine) hk
  ⟨hk, by with_unfolding_all decide, by with_unfolding_all decide, hall.2.1, hall.2.2.2.2.2⟩

/-! ## A second invocation on the same engine -/

/-- Two states that record the same parents for the closed points of the first reconstruct the
same path from a closed point. -/
theorem constructResults_agree {s0 s t : pathFinder} (h : SearchInv s0 s)
    (hfa : ∀ q ∈ s.closeList, t.fatherPoint q = s.fatherPoint q) :
    ∀ (n : Nat) (q : List Int) (traj : List (List Int)), q ∈ s.closeList →
      constructResults t n q traj = constructResults s n q traj := by
  intro n
  induction n with
  | zero =>
    intro q traj _
    simp [constructResults]
  | succ n ih =>
    intro q traj hq
    simp only [constructResults]
    rw [hfa q hq]
    cases hf : s.fatherPoint q with
    | none => rfl
    | some f =>
      obtain ⟨_, _, i, hi, _⟩ := h.father q f hf
      simp only []
      rw [ih f traj (List.getElem?_mem hi)]

/-- C26, amended (the search state is created by the constructor, and `Dijkstra` continues
from the state it finds): the constructor leaves the start point alone open, nothing closed and
no parent recorded; a second invocation of `Dijkstra` on an engine whose first invocation
returned starts from the state the first one left, keeps every recorded parent, appends to the
closed list (so the explored points of the first invocation are a prefix of those after the
second, and the count can only grow), and leaves the trajectory and energies of `getResults`
unchanged. -/
theorem second_invocation_continues (pmfData : pmf ℚ) (a b : List ℚ) (pbc : List Bool)
    (f g : pathFinder → List Int → ℚ) (n1 n2 : Nat) (s1 : pathFinder) (r2 : SearchResult)
    (h1 : Dijkstra f n1 (construct pmfData a b pbc) = some (.returned s1))
    (h2 : Dijkstra g n2 s1 = some r2) :
    Fresh (construct pmfData a b pbc) ∧
    (∃ extra, r2.state.closeList = s1.closeList ++ extra) ∧
    (∀ q p, s1.fatherPoint q = some p → r2.state.fatherPoint q = some p) ∧
    (∀ n, internalTrajectory r2.state n = internalTrajectory s1 n) ∧
    (∀ n, getResults r2.state n = getResults s1 n) := by
  have hf := construct_fresh pmfData a b pbc
  obtain ⟨hinv, hne, hcase⟩ := returned_cases f hf n1 s1 h1
  obtain ⟨hinv2, hmono⟩ := Dijkstra_run_inv g hinv n2 r2 h2
  obtain ⟨extra, hextra⟩ := Dijkstra_closeList_prefix g n2 s1 r2 h2
  have htraj : ∀ n, internalTrajectory r2.state n = internalTrajectory s1 n := by
    rcases hcase with hc | ⟨ho, _⟩
    · have hfa : ∀ q ∈ s1.closeList, r2.state.fatherPoint q = s1.fatherPoint q := by
        intro q hq
        cases hfq : s1.fatherPoint q with
        | some p => exact hmono q p hfq
        | none =>
          have hq0 : q = (construct pmfData a b pbc).initialPoint := by
            by_contra hne'
            obtain ⟨p, hp⟩ := hinv.hasFather q (Or.inr hq) hne'
            rw [hfq] at hp
            cases hp
          rw [hq0]
          exact hinv2.startRoot
      intro n
      have hend : r2.state.endPoint = s1.endPoint :=
        hinv2.config.endPoint.trans hinv.config.endPoint.symm
      have hc' : s1.endPoint ∈ s1.closeList := by
        rw [hinv.config.endPoint]; exact hc
      unfold internalTrajectory
      rw [hend, constructResults_agree hinv hfa n s1.endPoint [] hc']
    · have hr : r2 = .returned s1 := by
        cases n2 with
        | zero => simp [Dijkstra] at h2
        | succ m =>
          simp [Dijkstra, ho] at h2
          exact h2.symm
      intro n
      rw [hr]
      rfl
  refine ⟨hf, ⟨extra, hextra⟩, hmono, htraj, ?_⟩
  intro n
  have hlen1 : s1.closeList.length ≠ 0 := fun h0 => hne (List.length_eq_zero.mp h0)
  have hlen2 : r2.state.closeList.length ≠ 0 := by
    rw [hextra, List.length_append]
    omega
  have hpmf : r2.state.pmfData = s1.pmfData :=
    hinv2.config.pmfData.trans hinv.config.pmfData.symm
  unfold getResults
  rw [if_neg hlen1, if_neg hlen2, htraj n, hpmf]

theorem second_invocation_continues_witness :
    Dijkstra defaultFunc 10 (construct detourGrid [0, 0] [0, 2] [false, false])
      = some (.returned (stateAfter defaultFunc 10 detourEngine)) ∧
    Dijkstra manhattonPotential 10 (stateAfter defaultFunc 10 detourEngine)
      = some (.returned
          (stateAfter manhattonPotential 10 (stateAfter defaultFunc 10 detourEngine))) ∧
    Fresh (construct detourGrid [0, 0] [0, 2] [false, false]) ∧
    (∃ extra,
      (SearchResult.returned
          (stateAfter manhattonPotential 10
            (stateAfter defaultFunc 10 detourEngine))).state.closeList
        = (stateAfter defaultFunc 10 detourEngine).closeList ++ extra) ∧
    (∀ q p, (stateAfter defaultFunc 10 detourEngine).fatherPoint q = some p →
      (SearchResult.returned
          (stateAfter manhattonPotential 10
            (stateAfter defaultFunc 10 detourEngine))).state.fatherPoint q = some p) ∧
    (∀ n, internalTrajectory
        (SearchResult.returned
          (stateAfter manhattonPotential 10 (stateAfter defaultFunc 10 detourEngine))).state n
        = internalTrajectory (stateAfter defaultFunc 10 detourEngine) n) ∧
    (∀ n, getResults
        (SearchResult.returned
          (stateAfter manhattonPotential 10 (stateAfter defaultFunc 10 detourEngine))).state n
        = getResults (stateAfter defaultFunc 10 detourEngine) n) :=
  ⟨Dijkstra_of_hasReturned defaultFunc 10 detourEngine (by with_unfolding_all decide),
    Dijkstra_of_hasReturned manhattonPotential 10 (stateAfter defaultFunc 10 detourEngine)
      (by with_unfolding_all decide),
    second_invocation_continues detourGrid [0, 0] [0, 2] [false, false] defaultFunc
      manhattonPotential 10 10 (stateAfter defaultFunc 10 detourEngine)
      (.returned (stateAfter manhattonPotential 10 (stateAfter defaultFunc 10 detourEngine)))
      (Dijkstra_of_hasReturned defaultFunc 10 detourEngine (by with_unfolding_all decide))
      (Dijkstra_of_hasReturned manhattonPotential 10 (stateAfter defaultFunc 10 detourEngine)
        (by with_unfolding_all decide))⟩

/-- C26, counterexample: on the 3x3 surface `detourGrid` the first invocation of `Dijkstra()`
returns with five closed points and four points still open; a second invocation on the same
engine starts from that state, not from the fresh one, and returns with all nine points
closed, so the explored points and their number differ from those of a single invocation. -/
theorem second_invocation_counterexample :
    Dijkstra defaultFunc 10 detourEngine
      = some (.returned (stateAfter defaultFunc 10 detourEngine)) ∧
    Dijkstra defaultFunc 10 (stateAfter defaultFunc 10 detourEngine)
      = some (.returned (stateAfter defaultFunc 10 (stateAfter defaultFunc 10 detourEngine))) ∧
    (stateAfter defaultFunc 10 detourEngine).openList = [[0, 1], [2, 0], [2, 1], [2, 2]] ∧
    (stateAfter defaultFunc 10 detourEngine).closeList
      = [[0, 0], [1, 0], [1, 1], [1, 2], [0, 2]] ∧
    (stateAfter defaultFunc 10 (stateAfter defaultFunc 10 detourEngine)).closeList
      = [[0, 0], [1, 0], [1, 1], [1, 2], [0, 2], [2, 0], [2, 1], [2, 2], [0, 1]] ∧
    getExploredPointNum (stateAfter defaultFunc 10 detourEngine) = .ok 5 ∧
    getExploredPointNum (stateAfter defaultFunc 10 (stateAfter defaultFunc 10 detourEngine))
      = .ok 9 ∧
    getExploredPoints (stateAfter defaultFunc 10 (stateAfter defaultFunc 10 detourEngine))
      ≠ getExploredPoints (stateAfter defaultFunc 10 detourEngine) :=
  ⟨Dijkstra_of_hasReturned defaultFunc 10 detourEngine (by with_unfolding_all decide),
    Dijkstra_of_hasReturned defaultFunc 10 (stateAfter defaultFunc 10 detourEngine)
      (by with_unfolding_all decide),
    by with_unfolding_all decide, by with_unfolding_all decide, by with_unfolding_all decide,
    by with_unfolding_all rfl, by with_unfolding_all rfl,
    by
      intro h
      have h2 := congrArg (fun e => (e.toOption.getD []).length) h
      revert h2
      with_unfolding_all decide⟩

/-! ## The axis distance on a periodic axis -/

/-- What the code computes on a periodic axis with `N` cells for in-range cells `a` and `b`:
`min(|a - b|, N - 1 - |a - b|)`. -/
theorem axisDistance_periodic (s : pathFinder) (hc : Configured s) (point t : List Int)
    (j : Nat) (hj : j < s.pmfData.shape.length) (hper : s.pbc.getD j false = true)
    (hp : 0 ≤ point.getD j 0 ∧ point.getD j 0 ≤ s.pmfData.shape.getD j 0 - 1)
    (ht : 0 ≤ t.getD j 0 ∧ t.getD j 0 ≤ s.pmfData.shape.getD j 0 - 1) :
    axisDistance s point t j
      = min |point.getD j 0 - t.getD j 0|
          (s.pmfData.shape.getD j 0 - 1 - |point.getD j 0 - t.getD j 0|) := by
  obtain ⟨_, hlb, hub, _, _⟩ := hc
  rw [axisDistance_eq_spec, hper, hlb, hub, getD_replicate_of_lt _ _ _ _ hj,
    getD_map_sub_one _ _ hj]
  unfold axisDistanceSpec
  generalize point.getD j 0 = x at hp ⊢
  generalize t.getD j 0 = y at ht ⊢
  generalize s.pmfData.shape.getD j 0 = N at hp ht ⊢
  simp only [if_true, min_def]
  rcases abs_cases (x - y) with ⟨h1, _⟩ | ⟨h1, _⟩ <;>
  rcases abs_cases (x - 0) with ⟨h2, _⟩ | ⟨h2, _⟩ <;>
  rcases abs_cases (y - (N - 1)) with ⟨h3, _⟩ | ⟨h3, _⟩ <;>
  rcases abs_cases (x - (N - 1)) with ⟨h4, _⟩ | ⟨h4, _⟩ <;>
  rcases abs_cases (y - 0) with ⟨h5, _⟩ | ⟨h5, _⟩ <;>
  rw [h1, h2, h3, h4, h5] <;>
  split_ifs <;> omega

/-- C28, failing input: on the periodic first axis of the 3x3 surface (`N = 3`) the axis
distance `manhattonPotential` uses between the cells 0 and 2 is 0, where the cyclic distance
`min(|a - b|, N - |a - b|)` is 1 and `findAdjacentPoints` makes the two cells one step apart;
the bias towards the target cell (2, 0) with force constant 1 on that axis is therefore 0 at
the distinct cell (0, 0), as it is at the target itself. -/
theorem axisDistance_periodic_off_by_one :
    periodicEngine.pbc.getD 0 false = true ∧
    periodicEngine.pmfData.shape.getD 0 0 = 3 ∧
    inRange periodicEngine.pmfData.shape [0, 0] ∧
    inRange periodicEngine.pmfData.shape [2, 0] ∧
    findAdjacentPoints periodicEngine [0, 0] = .ok [[2, 0], [1, 0], [0, 1]] ∧
    axisDistance periodicEngine [0, 0] [2, 0] 0 = 0 ∧
    cyclicDistance 3 0 2 = 1 ∧
    manhattonPotential (setTargetedPoints periodicEngine [[2, 0]] [[1, 0]]) [0, 0] = 0 ∧
    manhattonPotential (setTargetedPoints periodicEngine [[2, 0]] [[1, 0]]) [2, 0] = 0 ∧
    manhattonPotential (setTargetedPoints periodicEngine [[2, 0]] [[1, 0]]) [1, 0] = 1 := by
  refine ⟨by with_unfolding_all decide, by with_unfolding_all decide,
    by with_unfolding_all decide, by with_unfolding_all decide, by with_unfolding_all rfl,
    by with_unfolding_all decide, by with_unfolding_all decide, by with_unfolding_all decide,
    by with_unfolding_all decide, by with_unfolding_all decide⟩

/-! ## Completeness -/

theorem sum_set_int (l : List Int) : ∀ (i : Nat) (v : Int), i < l.length →
    (l.set i v).sum = l.sum - l.getD i 0 + v := by
  induction l with
  | nil => intro i v hi; simp at hi
  | cons x xs ih =>
    intro i v hi
    cases i with
    | zero =>
      simp only [List.set_cons_zero, List.sum_cons, List.getD_cons_zero]
      omega
    | succ i =>
      have := ih i v (by simpa using hi)
      simp only [List.set_cons_succ, List.sum_cons, this, List.getD_cons_succ]
      omega

theorem sum_nonneg_of_inRange (shape p : List Int) (hp : inRange shape p) : 0 ≤ p.sum := by
  apply List.sum_nonneg
  intro x hx
  obtain ⟨i, hi⟩ := List.mem_iff_getElem?.mp hx
  have hlt : i < p.length := by
    by_contra hge
    rw [List.getElem?_eq_none (by omega)] at hi
    cases hi
  have := (hp.2 i (by rw [← hp.1]; exact hlt)).1
  rw [List.getD_eq_getElem?_getD, hi] at this
  exact this

/-- One step down along axis `i` and the step back are both steps of the search graph. -/
theorem step_down_adjacent (s : pathFinder) (hc : Configured s) (p : List Int)
    (hp : inRange s.pmfData.shape p) (i : Nat) (hi : i < s.pmfData.shape.length)
    (h1 : 1 ≤ p.getD i 0) :
    inRange s.pmfData.shape (p.set i (p.getD i 0 - 1)) ∧
      p.set i (p.getD i 0 - 1) ∈ adjacentList s p ∧
      p ∈ adjacentList s (p.set i (p.getD i 0 - 1)) := by
  have hx := hp.2 i hi
  have hil : i < p.length := by rw [hp.1]; exact hi
  have hr : inRange s.pmfData.shape (p.set i (p.getD i 0 - 1)) :=
    inRange_set _ p i _ hp ⟨by omega, by omega⟩
  refine ⟨hr, ?_, ?_⟩
  · rw [mem_adjacentList s hc p hp.1]
    exact ⟨i, hi, (mem_axisNeighbours _ _ p i _).mpr (Or.inl ⟨h1, rfl⟩)⟩
  · rw [mem_adjacentList s hc _ hr.1]
    refine ⟨i, hi, (mem_axisNeighbours _ _ _ i _).mpr (Or.inr (Or.inr (Or.inl ⟨?_, ?_⟩)))⟩
    · rw [getD_set p i i _ hil, if_pos rfl]
      omega
    · rw [getD_set p i i _ hil, if_pos rfl, List.set_set]
      have : p.getD i 0 - 1 + 1 = p.getD i 0 := by omega
      rw [this, set_getD_self p i hil]

/-- Every in-range point is joined to the origin of the grid, in both directions, by steps of
the search graph. -/
theorem reach_origin (s : pathFinder) (hc : Configured s) :
    ∀ (n : Nat) (p : List Int), inRange s.pmfData.shape p → p.sum ≤ (n : Int) →
      Relation.ReflTransGen (fun x y => y ∈ adjacentList s x) p
          (List.replicate s.pmfData.shape.length 0) ∧
        Relation.ReflTransGen (fun x y => y ∈ adjacentList s x)
          (List.replicate s.pmfData.shape.length 0) p := by
  intro n
  induction n with
  | zero =>
    intro p hp hsum
    by_cases hex : ∃ i, i < s.pmfData.shape.length ∧ 1 ≤ p.getD i 0
    · obtain ⟨i, hi, h1⟩ := hex
      obtain ⟨hr, _, _⟩ := step_down_adjacent s hc p hp i hi h1
      have h0 := sum_nonneg_of_inRange _ _ hr
      rw [sum_set_int p i _ (by rw [hp.1]; exact hi)] at h0
      simp only [Nat.cast_zero] at hsum
      omega
    · have hz : p = List.replicate s.pmfData.shape.length 0 := by
        rw [List.eq_replicate_iff]
        refine ⟨hp.1, ?_⟩
        intro x hx
        obtain ⟨i, hi⟩ := List.mem_iff_getElem?.mp hx
        have hlt : i < p.length := by
          by_contra hge
          rw [List.getElem?_eq_none (by omega)] at hi
          cases hi
        have hil : i < s.pmfData.shape.length := by rw [← hp.1]; exact hlt
        have h0 := (hp.2 i hil).1
        have h1 : ¬ 1 ≤ p.getD i 0 := fun h => hex ⟨i, hil, h⟩
        rw [List.getD_eq_getElem?_getD, hi] at h0 h1
        simp only [Option.getD_some] at h0 h1
        omega
      rw [← hz]
      exact ⟨Relation.ReflTransGen.refl, Relation.ReflTransGen.refl⟩
  | succ n ih =>
    intro p hp hsum
    by_cases hex : ∃ i, i < s.pmfData.shape.length ∧ 1 ≤ p.getD i 0
    · obtain ⟨i, hi, h1⟩ := hex
      obtain ⟨hr, hdown, hup⟩ := step_down_adjacent s hc p hp i hi h1
      have hs := sum_set_int p i (p.getD i 0 - 1) (by rw [hp.1]; exact hi)
      obtain ⟨ha, hb⟩ := ih _ hr (by rw [hs]; push_cast at hsum; omega)
      exact ⟨Relation.ReflTransGen.head hdown ha, Relation.ReflTransGen.tail hb hup⟩
    · have hz : p = List.replicate s.pmfData.shape.length 0 := by
        rw [List.eq_replicate_iff]
        refine ⟨hp.1, ?_⟩
        intro x hx
        obtain ⟨i, hi⟩ := List.mem_iff_getElem?.mp hx
        have hlt : i < p.length := by
          by_contra hge
          rw [List.getElem?_eq_none (by omega)] at hi
          cases hi
        have hil : i < s.pmfData.shape.length := by rw [← hp.1]; exact hlt
        have h0 := (hp.2 i hil).1
        have h1 : ¬ 1 ≤ p.getD i 0 := fun h => hex ⟨i, hil, h⟩
        rw [List.getD_eq_getElem?_getD, hi] at h0 h1
        simp only [Option.getD_some] at h0 h1
        omega
      rw [← hz]
      exact ⟨Relation.ReflTransGen.refl, Relation.ReflTransGen.refl⟩

/-- Any two in-range points are joined by steps of the search graph. -/
theorem reach_of_inRange (s : pathFinder) (hc : Configured s) (p q : List Int)
    (hp : inRange s.pmfData.shape p) (hq : inRange s.pmfData.shape q) :
    Relation.ReflTransGen (fun x y => y ∈ adjacentList s x) p q :=
  ((reach_origin s hc p.sum.toNat p hp (by
      rw [Int.toNat_of_nonneg (sum_nonneg_of_inRange _ _ hp)])).1).trans
    (reach_origin s hc q.sum.toNat q hq (by
      rw [Int.toNat_of_nonneg (sum_nonneg_of_inRange _ _ hq)])).2

/-- With an empty open list the closed points are closed under steps of the search graph. -/
theorem closed_of_reach (s0 s : pathFinder) (hopen : s.openList = [])
    (hexp : ∀ x ∈ s.closeList, ∀ q ∈ adjacentList s0 x, q ∈ s.openList ∨ q ∈ s.closeList)
    (a b : List Int) (ha : a ∈ s.closeList)
    (h : Relation.ReflTransGen (fun x y => y ∈ adjacentList s0 x) a b) : b ∈ s.closeList := by
  induction h with
  | refl => exact ha
  | tail _ hbc ih =>
    rcases hexp _ ih _ hbc with h1 | h1
    · rw [hopen] at h1; simp at h1
    · exact h1

/-- C29 (completeness): for every grid, in-range start and end points, every periodicity vector
and every heuristic, `Dijkstra` returns (no fuel above the number of grid cells is needed), it
does not take the fatal "no adjacent point" exit, and the end point is the last entry of the
closed list. -/
theorem Dijkstra_complete (pmfData : pmf ℚ) (a b : List ℚ) (pbc : List Bool)
    (func : pathFinder → List Int → ℚ)
    (hdim : pmfData.dimension = (pmfData.shape.length : Int))
    (hpbc : pbc.length = pmfData.shape.length)
    (hstart : inRange pmfData.shape (RCToInternal pmfData a))
    (hend : inRange pmfData.shape (RCToInternal pmfData b))
    (fuel : Nat) (hfuel : pmfData.shape.prod.toNat < fuel) :
    ∃ s, Dijkstra func fuel (construct pmfData a b pbc) = some (.returned s) ∧
      s.closeList.getLast? = some (RCToInternal pmfData b) := by
  have hc := construct_configured pmfData a b pbc hdim hpbc
  have hf := construct_fresh pmfData a b pbc
  have hprod := prod_toNat_of_inRange pmfData.shape _ hstart
  have hV : (pmfData.shape.map Int.toNat).prod = pmfData.shape.prod.toNat := by
    rw [← hprod, Int.toNat_ofNat]
  obtain ⟨r, hr, _⟩ := Dijkstra_terminates func (construct pmfData a b pbc) hc fuel
    (construct pmfData a b pbc) (SearchInv_of_fresh _ hf) (InvRange_of_fresh _ hf hstart)
    (by
      show (pmfData.shape.map Int.toNat).prod < _ + fuel
      rw [hV]; omega)
  obtain ⟨t, ⟨hinv, hrange, hexp⟩, hcase⟩ := Dijkstra_loop func
    (fun s => SearchInv (construct pmfData a b pbc) s ∧ InvRange (construct pmfData a b pbc) s ∧
      InvExpanded (construct pmfData a b pbc) s)
    (fun s s1 hP hne hb =>
      ⟨(DijkstraBody_next_inv func hP.1 hne hb).choose_spec.2.2.2.2.1,
        InvRange_next func hc hP.1 hP.2.1 hne hb, InvExpanded_next func hP.1 hP.2.2 hne hb⟩)
    fuel (construct pmfData a b pbc) r
    ⟨SearchInv_of_fresh _ hf, InvRange_of_fresh _ hf hstart, InvExpanded_of_fresh _ hf⟩ hr
  rcases hcase with ⟨hopen, rfl⟩ | ⟨hne, t1, ⟨hb, rfl⟩ | ⟨hb, rfl⟩⟩
  · -- the open list cannot run empty before the end point is closed
    exfalso
    have hstartc : (construct pmfData a b pbc).initialPoint ∈ t.closeList := by
      rcases hinv.startSeen with h | h
      · rw [hopen] at h; simp at h
      · exact h
    exact hexp.2 (closed_of_reach _ t hopen hexp.1 _ _ hstartc
      (reach_of_inRange _ hc _ _ hstart hend))
  · obtain ⟨_, _, hcl, _, _⟩ := DijkstraBody_found_inv func hinv hne hb
    refine ⟨t1, hr, ?_⟩
    rw [hcl]
    simp
    rfl
  · exfalso
    obtain ⟨p, hp, hpend, hnil, _, _⟩ := DijkstraBody_fatal_inv func hinv hne hb
    have hpr := hrange p (Or.inl hp)
    have hall := (adjacentList_eq_nil_iff (construct pmfData a b pbc) hc p hpr).mp hnil
    exact hpend (eq_of_inRange_of_single pmfData.shape p _ hpr hend (fun i hi => (hall i hi).2))

theorem Dijkstra_complete_witness :
    detourGrid.dimension = (detourGrid.shape.length : Int) ∧
    ([true, false] : List Bool).length = detourGrid.shape.length ∧
    inRange detourGrid.shape (RCToInternal detourGrid [0, 0]) ∧
    inRange detourGrid.shape (RCToInternal detourGrid [0, 2]) ∧
    detourGrid.shape.prod.toNat < 10 ∧
    ∃ s, Dijkstra manhattonPotential 10 (construct detourGrid [0, 0] [0, 2] [true, false])
        = some (.returned s) ∧
      s.closeList.getLast? = some (RCToInternal detourGrid [0, 2]) :=
  ⟨by with_unfolding_all decide, by decide, by with_unfolding_all decide,
    by with_unfolding_all decide, by with_unfolding_all decide,
    Dijkstra_complete detourGrid [0, 0] [0, 2] [true, false] manhattonPotential
      (by with_unfolding_all decide) (by decide) (by with_unfolding_all decide)
      (by with_unfolding_all decide) 10 (by with_unfolding_all decide)⟩

/-! ## The reconstructed path inside the closed list -/

theorem take_succ_of_getElem? {α : Type} (l : List α) (j : Nat) (q : α)
    (h : l[j]? = some q) : l.take (j + 1) = l.take j ++ [q] := by
  rw [List.take_succ, h]
  rfl

/-- The path `constructResults` builds to a closed point follows the order of the closed
list: with the point itself it is a sublist of the closed list up to that point. -/
theorem constructResults_sublist {s0 s : pathFinder} (h : SearchInv s0 s) :
    ∀ (n : Nat) (q : List Int) (j : Nat), s.closeList[j]? = some q → j ≤ n →
      ∃ chain : List (List Int),
        (∀ fuel, n + 1 ≤ fuel → ∀ traj,
          constructResults s fuel q traj = some (q, traj ++ chain)) ∧
        (chain ++ [q]).Sublist (s.closeList.take (j + 1)) := by
  intro n
  induction n with
  | zero =>
    intro q j hj hjn
    cases hf : s.fatherPoint q with
    | none =>
      refine ⟨[], ?_, ?_⟩
      · intro fuel hfuel traj
        obtain ⟨f, rfl⟩ : ∃ f, fuel = f + 1 := ⟨fuel - 1, by omega⟩
        simp [constructResults, hf]
      · rw [take_succ_of_getElem? _ j q hj]
        exact List.sublist_append_right _ _
    | some p =>
      obtain ⟨_, _, i, _, hlt⟩ := h.father q p hf
      have := hlt j hj
      omega
  | succ m ih =>
    intro q j hj hjn
    cases hf : s.fatherPoint q with
    | none =>
      refine ⟨[], ?_, ?_⟩
      · intro fuel hfuel traj
        obtain ⟨f, rfl⟩ : ∃ f, fuel = f + 1 := ⟨fuel - 1, by omega⟩
        simp [constructResults, hf]
      · rw [take_succ_of_getElem? _ j q hj]
        exact List.sublist_append_right _ _
    | some p =>
      obtain ⟨_, _, i, hi, hlt⟩ := h.father q p hf
      have hij := hlt j hj
      obtain ⟨chain, hrun, hsub⟩ := ih p i hi (by omega)
      refine ⟨chain ++ [p], ?_, ?_⟩
      · intro fuel hfuel traj
        obtain ⟨f, rfl⟩ : ∃ f, fuel = f + 1 := ⟨fuel - 1, by omega⟩
        simp only [constructResults, hf]
        rw [hrun f (by omega) traj]
        simp
      · rw [take_succ_of_getElem? _ j q hj]
        refine List.Sublist.append ?_ (List.Sublist.refl _)
        exact hsub.trans (List.take_sublist_take_left s.closeList (by omega))

/-- C33 (the returned path is simple and lies inside the explored set): for every search in
which the end point was finalized, `getResults` builds its internal trajectory (any fuel from
the number of closed points on suffices), the trajectory contains no grid point twice, every
one of its points is in the closed list, and its points appear in the order in which they were
closed. -/
theorem trajectory_simple_in_closeList (pmfData : pmf ℚ) (a b : List ℚ) (pbc : List Bool)
    (func : pathFinder → List Int → ℚ) (fuel : Nat) (r : SearchResult)
    (hrun : Dijkstra func fuel (construct pmfData a b pbc) = some r)
    (hend : r.state.endPoint ∈ r.state.closeList) :
    ∃ traj : List (List Int),
      (∀ n, r.state.closeList.length ≤ n → internalTrajectory r.state n = some traj) ∧
      traj.Nodup ∧ (∀ x ∈ traj, x ∈ r.state.closeList) ∧
      traj.Sublist r.state.closeList := by
  have hf := construct_fresh pmfData a b pbc
  have hinv := SearchInv_result func hf fuel r hrun
  obtain ⟨j, hj⟩ := List.mem_iff_getElem?.mp hend
  have hjlt : j < r.state.closeList.length := by
    by_contra hge
    rw [List.getElem?_eq_none (by omega)] at hj
    cases hj
  obtain ⟨chain, hchain, hsub⟩ :=
    constructResults_sublist hinv (r.state.closeList.length - 1) r.state.endPoint j hj
      (by omega)
  have hsub2 : (chain ++ [r.state.endPoint]).Sublist r.state.closeList :=
    hsub.trans (List.take_sublist _ _)
  refine ⟨chain ++ [r.state.endPoint], ?_, hinv.closeNodup.sublist hsub2,
    fun x hx => hsub2.subset hx, hsub2⟩
  intro n hn
  unfold internalTrajectory
  rw [hchain n (by omega) []]
  rfl

theorem trajectory_simple_in_closeList_witness :
    Dijkstra defaultFunc 10 (construct detourGrid [0, 0] [0, 2] [false, false])
      = some (.returned (stateAfter defaultFunc 10 detourEngine)) ∧
    (SearchResult.returned (stateAfter defaultFunc 10 detourEngine)).state.endPoint
      ∈ (SearchResult.returned (stateAfter defaultFunc 10 detourEngine)).state.closeList ∧
    internalTrajectory (stateAfter defaultFunc 10 detourEngine) 5
      = some [[0, 0], [1, 0], [1, 1], [1, 2], [0, 2]] ∧
    ∃ traj : List (List Int),
      (∀ n, (SearchResult.returned
            (stateAfter defaultFunc 10 detourEngine)).state.closeList.length ≤ n →
        internalTrajectory (SearchResult.returned
            (stateAfter defaultFunc 10 detourEngine)).state n = some traj) ∧
      traj.Nodup ∧
      (∀ x ∈ traj,
        x ∈ (SearchResult.returned (stateAfter defaultFunc 10 detourEngine)).state.closeList) ∧
      traj.Sublist (SearchResult.returned (stateAfter defaultFunc 10 detourEngine)).state.closeList :=
  ⟨Dijkstra_of_hasReturned defaultFunc 10 detourEngine (by with_unfolding_all decide),
    by with_unfolding_all decide, by with_unfolding_all decide,
    trajectory_simple_in_closeList detourGrid [0, 0] [0, 2] [false, false] defaultFunc 10
      (.returned (stateAfter defaultFunc 10 detourEngine))
      (Dijkstra_of_hasReturned defaultFunc 10 detourEngine (by with_unfolding_all decide))
      (by with_unfolding_all decide)⟩


end pathFinder

namespace NdArray

/-! ## The dense grid -/

theorem wrapInt_of_fits (x : Int) (hlo : -2147483648 ≤ x) (hhi : x < 2147483648) :
    wrapInt x = x := by
  unfold wrapInt
  omega

theorem wrapInt_mul_wrapInt (a c : Int) : wrapInt (wrapInt a * c) = wrapInt (a * c) := by
  have h : wrapInt a = a + 4294967296 * (-((a + 2147483648) / 4294967296)) := by
    unfold wrapInt
    have := Int.emod_add_ediv (a + 2147483648) 4294967296
    omega
  have h2 : wrapInt a * c + 2147483648
      = (a * c + 2147483648) + 4294967296 * (-((a + 2147483648) / 4294967296) * c) := by
    rw [h]; ring
  show (wrapInt a * c + 2147483648) % 4294967296 - 2147483648
    = (a * c + 2147483648) % 4294967296 - 2147483648
  rw [h2, Int.add_mul_emod_self_left]

theorem foldl_wrapInt (shape : List Int) : ∀ acc : Int,
    shape.foldl (fun totalSize i => wrapInt (totalSize * i)) (wrapInt acc)
      = wrapInt (acc * shape.prod) := by
  induction shape with
  | nil => intro acc; simp
  | cons i rest ih =>
    intro acc
    rw [List.foldl_cons, wrapInt_mul_wrapInt, ih, List.prod_cons, mul_assoc]

/-- The size loop computes the product of the shape reduced to the range of `int`. -/
theorem sizeOfShape_eq (shape : List Int) : sizeOfShape shape = wrapInt shape.prod := by
  have h := foldl_wrapInt shape 1
  have h1 : wrapInt 1 = 1 := by decide
  rw [h1, one_mul] at h
  exact h

theorem sizeOfShape_of_fits (shape : List Int) (hlo : -2147483648 ≤ shape.prod)
    (hhi : shape.prod < 2147483648) : sizeOfShape shape = shape.prod := by
  rw [sizeOfShape_eq, wrapInt_of_fits _ hlo hhi]

theorem prod_pos_of_pos (shape : List Int) (hpos : ∀ d ∈ shape, 0 < d) : 0 < shape.prod :=
  List.prod_pos hpos

theorem construct_of_size_pos {T : Type} (shape : List Int) (v : T)
    (h : 0 < sizeOfShape shape) :
    construct shape v
      = .ok { data := List.replicate (sizeOfShape shape).toNat v
              totalSize := sizeOfShape shape
              shape := shape } := by
  unfold construct
  rw [if_neg (by omega), if_neg (by omega)]

theorem construct_of_size_zero {T : Type} (shape : List Int) (v : T)
    (h : sizeOfShape shape = 0) : construct shape v = .error .assertionFailed := by
  unfold construct
  rw [if_pos h]

/-- C16, amended: for every shape that is a sequence of positive integers whose product is
representable as `int` (below 2^31) and every default value `v`, the constructed grid has
`getShape() = shape`, `getTotalSize() = product(shape)`, and its storage consists of
`totalSize` cells, every one equal to `v`. -/
theorem construct_positive_shape {T : Type} (shape : List Int) (v : T)
    (hpos : ∀ d ∈ shape, 0 < d) (hfit : shape.prod < 2147483648) :
    ∃ g : NdArray T, construct shape v = .ok g ∧ getShape g = shape ∧
      getTotalSize g = shape.prod ∧ ((getCArray g).length : Int) = getTotalSize g ∧
      ∀ x ∈ getCArray g, x = v := by
  have hp := prod_pos_of_pos shape hpos
  have hs := sizeOfShape_of_fits shape (by omega) hfit
  refine ⟨_, construct_of_size_pos shape v (by omega), rfl, hs, ?_, ?_⟩
  · show ((List.replicate (sizeOfShape shape).toNat v).length : Int) = sizeOfShape shape
    rw [List.length_replicate, Int.toNat_of_nonneg (by omega)]
  · intro x hx
    exact List.eq_of_mem_replicate hx

theorem construct_positive_shape_witness :
    (∀ d ∈ ([2, 3] : List Int), 0 < d) ∧ ([2, 3] : List Int).prod < 2147483648 ∧
    ∃ g : NdArray ℚ, construct [2, 3] (7 : ℚ) = .ok g ∧ getShape g = [2, 3] ∧
      getTotalSize g = ([2, 3] : List Int).prod ∧
      ((getCArray g).length : Int) = getTotalSize g ∧ ∀ x ∈ getCArray g, x = 7 :=
  ⟨by decide, by decide, construct_positive_shape [2, 3] 7 (by decide) (by decide)⟩

/-- C16 as stated fails when the product of the shape is not representable as `int`: for the
shape 65536 x 65536 of positive integers the size loop yields 0, the `assert` fails, and no
grid with `getTotalSize() = product(shape)` is constructed. -/
theorem construct_positive_shape_counterexample :
    (∀ d ∈ ([65536, 65536] : List Int), 0 < d) ∧
    sizeOfShape [65536, 65536] = 0 ∧ ([65536, 65536] : List Int).prod = 4294967296 ∧
    construct [65536, 65536] (0 : ℚ) = .error .assertionFailed :=
  ⟨by decide, by decide, by decide, construct_of_size_zero _ _ (by decide)⟩

/-- C17 (construction fails on a zero dimension): for every shape of non-negative integers
whose product does not overflow `int`, the constructor ends in the failed assertion if and only
if some dimension is zero, and otherwise returns a grid. -/
theorem construct_fails_iff_zero_dimension {T : Type} (shape : List Int) (v : T)
    (hnn : ∀ d ∈ shape, 0 ≤ d) (hfit : shape.prod < 2147483648) :
    (construct shape v = .error .assertionFailed ↔ (0 : Int) ∈ shape) ∧
    ((0 : Int) ∉ shape → ∃ g : NdArray T, construct shape v = .ok g) := by
  have hok : (0 : Int) ∉ shape → 0 < sizeOfShape shape := by
    intro h0
    have hpos : ∀ d ∈ shape, 0 < d := by
      intro d hd
      have := hnn d hd
      have hne : d ≠ 0 := fun h => h0 (h ▸ hd)
      omega
    have hp := prod_pos_of_pos shape hpos
    rw [sizeOfShape_of_fits shape (by omega) hfit]
    exact hp
  constructor
  · constructor
    · intro hfail
      by_contra h0
      rw [construct_of_size_pos shape v (hok h0)] at hfail
      cases hfail
    · intro h0
      apply construct_of_size_zero
      rw [sizeOfShape_eq, List.prod_eq_zero h0]
      decide
  · intro h0
    exact ⟨_, construct_of_size_pos shape v (hok h0)⟩

theorem construct_fails_iff_zero_dimension_witness :
    (∀ d ∈ ([2, 0, 3] : List Int), 0 ≤ d) ∧ ([2, 0, 3] : List Int).prod < 2147483648 ∧
    (construct [2, 0, 3] (1 : ℚ) = .error .assertionFailed ↔ (0 : Int) ∈ ([2, 0, 3] : List Int)) ∧
    ((0 : Int) ∉ ([2, 0, 3] : List Int) → ∃ g : NdArray ℚ, construct [2, 0, 3] (1 : ℚ) = .ok g) :=
  ⟨by decide, by decide, construct_fails_iff_zero_dimension [2, 0, 3] 1 (by decide) (by decide)⟩

theorem foldl_add_eq_sum {α : Type} (f : α → Int) (l : List α) : ∀ a : Int,
    l.foldl (fun acc i => acc + f i) a = a + (l.map f).sum := by
  induction l with
  | nil => intro a; simp
  | cons x l ih =>
    intro a
    rw [List.foldl_cons, ih, List.map_cons, List.sum_cons]
    ring

theorem foldl_mul_eq_prod {α : Type} (g : α → Int) (l : List α) : ∀ a : Int,
    l.foldl (fun t j => t * g j) a = a * (l.map g).prod := by
  induction l with
  | nil => intro a; simp
  | cons x l ih =>
    intro a
    rw [List.foldl_cons, ih, List.map_cons, List.prod_cons]
    ring

theorem position_eq_linearOffset {T : Type} (arr : NdArray T) (p : List Int) :
    position arr p = linearOffset arr.shape p := by
  unfold position linearOffset
  rw [foldl_add_eq_sum, zero_add]
  congr 1
  apply List.map_congr_left
  intro i _
  rw [foldl_mul_eq_prod]

theorem getD_append_left_of_lt (q : List Int) (x : Int) (i : Nat) (hi : i < q.length) :
    (q ++ [x]).getD i 0 = q.getD i 0 := by
  simp [List.getD_eq_getElem?_getD, List.getElem?_append_left hi]

theorem linearOffset_append_succ (s q : List Int) (x : Int) :
    linearOffset s (q ++ [x + 1]) = linearOffset s (q ++ [x]) + 1 := by
  unfold linearOffset
  simp only [List.length_append, List.length_singleton, List.range_succ, List.map_append,
    List.sum_append, List.map_cons, List.map_nil, List.sum_cons, List.sum_nil]
  have hlast : ∀ y : Int, (q ++ [y]).getD q.length 0 = y := by
    intro y
    simp [List.getD_eq_getElem?_getD]
  have hfirst : (List.range q.length).map (fun i =>
        (q ++ [x + 1]).getD i 0 *
          ((List.range' (i + 1) (q.length + 1 - (i + 1))).map fun j => s.getD j 0).prod)
      = (List.range q.length).map (fun i =>
        (q ++ [x]).getD i 0 *
          ((List.range' (i + 1) (q.length + 1 - (i + 1))).map fun j => s.getD j 0).prod) := by
    apply List.map_congr_left
    intro i hi
    have hi' := List.mem_range.mp hi
    rw [getD_append_left_of_lt q _ i hi', getD_append_left_of_lt q _ i hi']
  rw [hfirst, hlast, hlast]
  simp
  ring

theorem position_set {T : Type} (arr : NdArray T) (p q : List Int) (v : T) :
    position (set arr p v) q = position arr q := by
  unfold set
  split <;> rfl

/-- C19 (reshape preserves linear storage): for every grid (its total size is a non-zero `int`,
as the constructor leaves it) and every `newShape` whose product equals the current total size,
`reshape(newShape)` succeeds; afterwards the backing sequence in linear order and the total size
are unchanged, `getShape() = newShape`, and the cell at index vector `p` is the stored element
at the row-major offset of `p` under `newShape`. -/
theorem reshape_preserves_storage {T : Type} [Inhabited T] (arr : NdArray T)
    (newShape : List Int) (hpos : 0 < arr.totalSize) (hfit : arr.totalSize < 2147483648)
    (hprod : newShape.prod = getTotalSize arr) :
    ∃ g : NdArray T, reshape arr newShape = .ok g ∧ getCArray g = getCArray arr ∧
      getTotalSize g = getTotalSize arr ∧ getShape g = newShape ∧
      ∀ p : List Int, get g p =
        if 0 ≤ linearOffset newShape p then
          (getCArray arr).getD (linearOffset newShape p).toNat default
        else default := by
  have hprod' : newShape.prod = arr.totalSize := hprod
  have hs : sizeOfShape newShape = arr.totalSize := by
    rw [sizeOfShape_of_fits newShape (by omega) (by omega), hprod']
  refine ⟨{ arr with totalSize := sizeOfShape newShape, shape := newShape }, ?_, rfl, hs, rfl, ?_⟩
  · unfold reshape
    rw [if_pos (by omega)]
  · intro p
    unfold get
    rw [position_eq_linearOffset]
    rfl

theorem reshape_preserves_storage_witness :
    0 < sampleGrid.totalSize ∧ sampleGrid.totalSize < 2147483648 ∧
    ([3, 2] : List Int).prod = getTotalSize sampleGrid ∧
    ∃ g : NdArray ℚ, reshape sampleGrid [3, 2] = .ok g ∧ getCArray g = getCArray sampleGrid ∧
      getTotalSize g = getTotalSize sampleGrid ∧ getShape g = [3, 2] ∧
      ∀ p : List Int, get g p =
        if 0 ≤ linearOffset [3, 2] p then
          (getCArray sampleGrid).getD (linearOffset [3, 2] p).toNat default
        else default :=
  ⟨by decide, by decide, by decide,
    reshape_preserves_storage sampleGrid [3, 2] (by decide) (by decide) (by decide)⟩

/-- C20 fails on the code: `reshape` of a grid of six cells to the shape 2x2, whose product 4
differs from the total size 6, does not fail; it returns normally with the shape changed to
2x2 and the total size changed to 4, over the unchanged six stored cells. -/
theorem reshape_accepts_size_change :
    ∃ g g2 : NdArray ℚ, construct [2, 3] (0 : ℚ) = .ok g ∧ getTotalSize g = 6 ∧
      ([2, 2] : List Int).prod ≠ getTotalSize g ∧
      reshape g [2, 2] = .ok g2 ∧ getShape g2 = [2, 2] ∧ getTotalSize g2 = 4 ∧
      (getCArray g2).length = 6 := by
  refine ⟨{ data := List.replicate (sizeOfShape [2, 3]).toNat 0
            totalSize := sizeOfShape [2, 3]
            shape := [2, 3] },
    { data := List.replicate (sizeOfShape [2, 3]).toNat 0
      totalSize := sizeOfShape [2, 2]
      shape := [2, 2] },
    construct_of_size_pos [2, 3] 0 (by decide), by decide, by decide, ?_, rfl, by decide,
    by decide⟩
  unfold reshape
  rw [if_pos (by decide)]

end NdArray

namespace pmfParser

open commonTools

/-! ## The coordinate mapping -/

theorem getD_map_range {α : Type} (f : Nat → α) (n i : Nat) (d : α) (hi : i < n) :
    ((List.range n).map f).getD i d = f i := by
  simp [List.getD_eq_getElem?_getD, List.getElem?_map, List.getElem?_range hi]

theorem RCToInternal_getD {T : Type} (m : pmf T) (rc : List ℚ) (i : Nat)
    (hi : i < m.dimension.toNat) :
    (RCToInternal m rc).getD i 0 = truncToInt (scaledCoordinate m rc i) := by
  unfold RCToInternal
  rw [getD_map_range _ _ _ _ hi]
  rfl

theorem internalToRC_getD {T : Type} (m : pmf T) (k : List Int) (i : Nat)
    (hi : i < m.dimension.toNat) :
    (internalToRC m k).getD i 0 = (k.getD i 0 : ℚ) * m.width.getD i 0 + m.lowerboundary.getD i 0 := by
  unfold internalToRC
  rw [getD_map_range _ _ _ _ hi]

theorem truncToInt_of_nonneg (x : ℚ) (h : 0 ≤ x) : truncToInt x = ⌊x⌋ := by
  unfold truncToInt
  rw [if_pos h]

theorem truncToInt_of_neg (x : ℚ) (h : x < 0) : truncToInt x = ⌈x⌉ := by
  unfold truncToInt
  rw [if_neg (not_le.mpr h)]

theorem scaledCoordinate_nonneg {T : Type} (m : pmf T) (rc : List ℚ) (i : Nat)
    (hw : 0 < m.width.getD i 0) (h : m.lowerboundary.getD i 0 - accuracy ≤ rc.getD i 0) :
    0 ≤ scaledCoordinate m rc i := by
  unfold scaledCoordinate
  apply div_nonneg _ (le_of_lt hw)
  linarith

theorem scaledCoordinate_neg {T : Type} (m : pmf T) (rc : List ℚ) (i : Nat)
    (hw : 0 < m.width.getD i 0) (h : rc.getD i 0 < m.lowerboundary.getD i 0 - accuracy) :
    scaledCoordinate m rc i < 0 := by
  unfold scaledCoordinate
  apply div_neg_of_neg_of_pos _ hw
  linarith

theorem intOfDouble_of_representable (x : ℚ) (h : -2147483649 < x ∧ x < 2147483648) :
    intOfDouble x = some (truncToInt x) ∧ NdArray.FitsInt (truncToInt x) := by
  refine ⟨by unfold intOfDouble; rw [if_pos h], ?_⟩
  unfold NdArray.FitsInt
  by_cases h0 : 0 ≤ x
  · rw [truncToInt_of_nonneg x h0]
    have h1 : (0 : Int) ≤ ⌊x⌋ := Int.floor_nonneg.mpr h0
    have h2 : ⌊x⌋ < (2147483648 : Int) := Int.floor_lt.mpr (by exact_mod_cast h.2)
    constructor <;> omega
  · have hneg : x < 0 := not_le.mp h0
    rw [truncToInt_of_neg x hneg]
    have h1 : ⌈x⌉ ≤ (0 : Int) := Int.ceil_le.mpr (by exact_mod_cast le_of_lt hneg)
    have h2 : (-2147483649 : Int) < ⌈x⌉ := Int.lt_ceil.mpr (by exact_mod_cast h.1)
    constructor <;> omega

/-- C12, amended: for every coordinate system with positive widths and every axis `i` on which
the shifted, scaled coordinate `(rc[i] - lowerBound[i] + eps) / width[i]` truncated toward zero
is representable as `int`, the conversion `int(...)` is defined and `RCToInternal(rc)[i]` is
that quotient truncated toward zero: it is the floor of the quotient when
`rc[i] >= lowerBound[i] - eps`, and its ceiling when `rc[i]` lies below
`lowerBound[i] - eps`. -/
theorem RCToInternal_truncates {T : Type} (m : pmf T) (rc : List ℚ) (i : Nat)
    (hi : i < m.dimension.toNat) (hw : 0 < m.width.getD i 0)
    (hrep : -2147483649 < scaledCoordinate m rc i ∧ scaledCoordinate m rc i < 2147483648) :
    intOfDouble (scaledCoordinate m rc i) = some ((RCToInternal m rc).getD i 0) ∧
    NdArray.FitsInt ((RCToInternal m rc).getD i 0) ∧
    (m.lowerboundary.getD i 0 - accuracy ≤ rc.getD i 0 →
      (RCToInternal m rc).getD i 0 = ⌊scaledCoordinate m rc i⌋) ∧
    (rc.getD i 0 < m.lowerboundary.getD i 0 - accuracy →
      (RCToInternal m rc).getD i 0 = ⌈scaledCoordinate m rc i⌉) := by
  rw [RCToInternal_getD m rc i hi]
  exact ⟨(intOfDouble_of_representable _ hrep).1, (intOfDouble_of_representable _ hrep).2,
    fun h => truncToInt_of_nonneg _ (scaledCoordinate_nonneg m rc i hw h),
    fun h => truncToInt_of_neg _ (scaledCoordinate_neg m rc i hw h)⟩

theorem RCToInternal_truncates_witness :
    0 < (pathFinder.unitGrid [3] [0, 0, 0]).dimension.toNat ∧
    0 < (pathFinder.unitGrid [3] [0, 0, 0]).width.getD 0 0 ∧
    (-2147483649 < scaledCoordinate (pathFinder.unitGrid [3] [0, 0, 0]) [-1 / 2] 0 ∧
      scaledCoordinate (pathFinder.unitGrid [3] [0, 0, 0]) [-1 / 2] 0 < 2147483648) ∧
    intOfDouble (scaledCoordinate (pathFinder.unitGrid [3] [0, 0, 0]) [-1 / 2] 0)
      = some ((RCToInternal (pathFinder.unitGrid [3] [0, 0, 0]) [-1 / 2]).getD 0 0) ∧
    NdArray.FitsInt ((RCToInternal (pathFinder.unitGrid [3] [0, 0, 0]) [-1 / 2]).getD 0 0) ∧
    ((pathFinder.unitGrid [3] [0, 0, 0]).lowerboundary.getD 0 0 - accuracy
        ≤ ([-1 / 2] : List ℚ).getD 0 0 →
      (RCToInternal (pathFinder.unitGrid [3] [0, 0, 0]) [-1 / 2]).getD 0 0
        = ⌊scaledCoordinate (pathFinder.unitGrid [3] [0, 0, 0]) [-1 / 2] 0⌋) ∧
    (([-1 / 2] : List ℚ).getD 0 0
        < (pathFinder.unitGrid [3] [0, 0, 0]).lowerboundary.getD 0 0 - accuracy →
      (RCToInternal (pathFinder.unitGrid [3] [0, 0, 0]) [-1 / 2]).getD 0 0
        = ⌈scaledCoordinate (pathFinder.unitGrid [3] [0, 0, 0]) [-1 / 2] 0⌉) :=
  ⟨by decide, by with_unfolding_all decide, by with_unfolding_all decide,
    RCToInternal_truncates (pathFinder.unitGrid [3] [0, 0, 0]) [-1 / 2] 0 (by decide)
      (by with_unfolding_all decide) (by with_unfolding_all decide)⟩

/-- C12 as stated fails below the lower bound: with lower bound 0 and width 1 the coordinate
-1/2 is mapped to index 0, while the floor of the shifted, scaled coordinate is -1. -/
theorem RCToInternal_floor_counterexample :
    0 < (pathFinder.unitGrid [3] [0, 0, 0]).width.getD 0 0 ∧
    (RCToInternal (pathFinder.unitGrid [3] [0, 0, 0]) [-1 / 2]).getD 0 0 = 0 ∧
    ⌊scaledCoordinate (pathFinder.unitGrid [3] [0, 0, 0]) [-1 / 2] 0⌋ = -1 ∧
    (RCToInternal (pathFinder.unitGrid [3] [0, 0, 0]) [-1 / 2]).getD 0 0
      ≠ ⌊scaledCoordinate (pathFinder.unitGrid [3] [0, 0, 0]) [-1 / 2] 0⌋ := by
  refine ⟨by with_unfolding_all decide, by with_unfolding_all decide,
    by with_unfolding_all decide, by with_unfolding_all decide⟩

theorem accuracy_is_pos : (0 : ℚ) < accuracy := by unfold accuracy; norm_num

/-- C14 (exact round trip at the grid points): for every coordinate system with
`width[i] > eps` on every axis and every index vector `k` of length `D` with non-negative
components, `internalToRC(k)[i] = k[i] * width[i] + lowerBound[i]` and
`RCToInternal(internalToRC(k)) = k`. -/
theorem RCToInternal_internalToRC {T : Type} (m : pmf T) (k : List Int)
    (hlen : k.length = m.dimension.toNat)
    (hk : ∀ i, i < m.dimension.toNat → 0 ≤ k.getD i 0)
    (hw : ∀ i, i < m.dimension.toNat → accuracy < m.width.getD i 0) :
    (∀ i, i < m.dimension.toNat →
      (internalToRC m k).getD i 0
        = (k.getD i 0 : ℚ) * m.width.getD i 0 + m.lowerboundary.getD i 0) ∧
    RCToInternal m (internalToRC m k) = k := by
  have hpos := accuracy_is_pos
  refine ⟨fun i hi => internalToRC_getD m k i hi, ?_⟩
  apply List.ext_getElem
  · simp [RCToInternal, hlen]
  · intro i h1 h2
    have hi : i < m.dimension.toNat := by rw [← hlen]; exact h2
    have e1 : (RCToInternal m (internalToRC m k))[i]
        = (RCToInternal m (internalToRC m k)).getD i 0 := by
      rw [List.getD_eq_getElem _ _ h1]
    have e2 : k[i] = k.getD i 0 := by rw [List.getD_eq_getElem _ _ h2]
    rw [e1, e2, RCToInternal_getD m _ i hi]
    have hwi := hw i hi
    have hwpos : 0 < m.width.getD i 0 := lt_trans hpos hwi
    have hq : scaledCoordinate m (internalToRC m k) i
        = (k.getD i 0 : ℚ) + accuracy / m.width.getD i 0 := by
      unfold scaledCoordinate
      rw [internalToRC_getD m k i hi]
      have hne : m.width.getD i 0 ≠ 0 := ne_of_gt hwpos
      rw [show (k.getD i 0 : ℚ) * m.width.getD i 0 + m.lowerboundary.getD i 0
          - m.lowerboundary.getD i 0 + accuracy
          = (k.getD i 0 : ℚ) * m.width.getD i 0 + accuracy by ring,
        add_div, mul_div_assoc, div_self hne, mul_one]
    have hfrac0 : 0 ≤ accuracy / m.width.getD i 0 := div_nonneg (le_of_lt hpos) (le_of_lt hwpos)
    have hfrac1 : accuracy / m.width.getD i 0 < 1 := (div_lt_one hwpos).mpr hwi
    have hk0 : (0 : ℚ) ≤ (k.getD i 0 : ℚ) := by exact_mod_cast hk i hi
    rw [truncToInt_of_nonneg _ (by rw [hq]; linarith), hq, Int.floor_eq_iff]
    constructor <;> linarith

theorem RCToInternal_internalToRC_witness :
    ([1, 2] : List Int).length = pathFinder.detourGrid.dimension.toNat ∧
    (∀ i, i < pathFinder.detourGrid.dimension.toNat → 0 ≤ ([1, 2] : List Int).getD i 0) ∧
    (∀ i, i < pathFinder.detourGrid.dimension.toNat →
      accuracy < pathFinder.detourGrid.width.getD i 0) ∧
    (∀ i, i < pathFinder.detourGrid.dimension.toNat →
      (internalToRC pathFinder.detourGrid [1, 2]).getD i 0
        = (([1, 2] : List Int).getD i 0 : ℚ) * pathFinder.detourGrid.width.getD i 0
          + pathFinder.detourGrid.lowerboundary.getD i 0) ∧
    RCToInternal pathFinder.detourGrid (internalToRC pathFinder.detourGrid [1, 2]) = [1, 2] :=
  ⟨by decide, by decide, by with_unfolding_all decide,
    RCToInternal_internalToRC pathFinder.detourGrid [1, 2] (by decide) (by decide)
      (by with_unfolding_all decide)⟩

end pmfParser
namespace NdArray

open pathFinder

/-! ## Elementwise arithmetic -/

theorem map_getD_range {T : Type} (l : List T) (d : T) :
    (List.range l.length).map (fun i => l.getD i d) = l := by
  apply List.ext_getElem?
  intro j
  by_cases hj : j < l.length
  · simp [List.getElem?_map, List.getElem?_range hj, List.getD_eq_getElem?_getD,
      List.getElem?_eq_getElem hj]
  · have h1 : l.length ≤ j := by omega
    rw [List.getElem?_eq_none h1, List.getElem?_eq_none (by simpa using h1)]

/-- The copy of a well-formed grid is the grid. -/
theorem copy_of_wellFormed {T : Type} [Inhabited T] (arr : NdArray T) (h : WellFormed arr) :
    copy arr = arr := by
  obtain ⟨_, _, hlen⟩ := h
  unfold copy
  rw [← hlen, map_getD_range]

theorem cellLoop_eq {T : Type} [Inhabited T] (op : T → T → T) (n : Int) (sumArr : NdArray T)
    (other : Nat → T) :
    cellLoop op n sumArr other
      = { sumArr with
          data := (List.range n.toNat).foldl
            (fun d i => d.set i (op (d.getD i default) (other i))) sumArr.data } := by
  unfold cellLoop
  generalize n.toNat = k
  induction k with
  | zero => simp
  | succ k ih => rw [List.range_succ, List.foldl_append, List.foldl_append, ih]; rfl

theorem foldl_set_length {T : Type} [Inhabited T] (op : T → T → T) (other : Nat → T)
    (d : List T) (k : Nat) :
    ((List.range k).foldl (fun d i => d.set i (op (d.getD i default) (other i))) d).length
      = d.length := by
  induction k with
  | zero => rfl
  | succ k ih =>
    rw [List.range_succ, List.foldl_append]
    simp only [List.foldl_cons, List.foldl_nil, List.length_set]
    exact ih

theorem foldl_set_getElem? {T : Type} [Inhabited T] (op : T → T → T) (other : Nat → T)
    (d : List T) : ∀ (k j : Nat), k ≤ d.length →
    ((List.range k).foldl (fun d i => d.set i (op (d.getD i default) (other i))) d)[j]?
      = if j < k then d[j]?.map (fun x => op x (other j)) else d[j]? := by
  intro k
  induction k with
  | zero => intro j _; rfl
  | succ k ih =>
    intro j hk
    rw [List.range_succ, List.foldl_append]
    simp only [List.foldl_cons, List.foldl_nil]
    rw [List.getElem?_set]
    by_cases hkj : k = j
    · subst hkj
      have hlen := foldl_set_length op other d k
      have hkk := ih k (by omega)
      rw [if_neg (by omega)] at hkk
      rw [if_pos rfl, if_pos (by rw [hlen]; omega), if_pos (by omega),
        List.getD_eq_getElem?_getD, hkk, List.getElem?_eq_getElem (by omega)]
      rfl
    · rw [if_neg hkj, ih j (by omega)]
      by_cases hj : j < k
      · rw [if_pos hj, if_pos (by omega)]
      · rw [if_neg hj, if_neg (by omega)]

/-- The data the loop leaves when it runs over the whole storage. -/
theorem cellLoop_data {T : Type} [Inhabited T] (op : T → T → T) (n : Int) (sumArr : NdArray T)
    (other : Nat → T) (hn : sumArr.data.length = n.toNat) :
    (cellLoop op n sumArr other).data
      = (List.range n.toNat).map (fun i => op (sumArr.data.getD i default) (other i)) := by
  rw [cellLoop_eq]
  apply List.ext_getElem?
  intro j
  show ((List.range n.toNat).foldl _ sumArr.data)[j]? = _
  rw [foldl_set_getElem? op other sumArr.data n.toNat j (by omega)]
  by_cases hj : j < n.toNat
  · rw [if_pos hj, List.getElem?_map, List.getElem?_range hj,
      List.getElem?_eq_getElem (by omega)]
    simp only [Option.map_some', List.getD_eq_getElem?_getD]
    rw [List.getElem?_eq_getElem (by omega)]
    rfl
  · rw [if_neg hj, List.getElem?_eq_none (by omega), List.getElem?_eq_none (by simp; omega)]

theorem cellLoop_shape {T : Type} [Inhabited T] (op : T → T → T) (n : Int) (sumArr : NdArray T)
    (other : Nat → T) :
    (cellLoop op n sumArr other).shape = sumArr.shape ∧
      (cellLoop op n sumArr other).totalSize = sumArr.totalSize := by
  rw [cellLoop_eq]
  exact ⟨rfl, rfl⟩

theorem map_range_eq_zipWith {T : Type} [Inhabited T] (op : T → T → T) (l1 l2 : List T)
    (h : l1.length = l2.length) :
    (List.range l1.length).map (fun i => op (l1.getD i default) (l2.getD i default))
      = List.zipWith op l1 l2 := by
  apply List.ext_getElem?
  intro j
  by_cases hj : j < l1.length
  · rw [List.getElem?_map, List.getElem?_range hj, List.getElem?_zipWith]
    simp only [Option.map_some', List.getD_eq_getElem?_getD]
    rw [List.getElem?_eq_getElem hj, List.getElem?_eq_getElem (show j < l2.length by omega)]
    rfl
  · rw [List.getElem?_eq_none (by simp; omega), List.getElem?_eq_none (by simp; omega)]

theorem map_range_eq_map {T : Type} [Inhabited T] (f : T → T) (l : List T) :
    (List.range l.length).map (fun i => f (l.getD i default)) = l.map f := by
  have := congrArg (List.map f) (map_getD_range l default)
  rw [List.map_map] at this
  exact this

/-- The operators that copy `*this`: cell `i` of the result is `op` of the cells `i`. -/
theorem cellwise_of_copy_self {T : Type} [Inhabited T] (op : T → T → T) (a b : NdArray T)
    (ha : WellFormed a) (hb : WellFormed b) (hshape : a.shape = b.shape) :
    Cellwise op a b (cellLoop op b.totalSize (copy a) fun i => b.data.getD i default) := by
  have hsize : a.totalSize = b.totalSize := by rw [ha.1, hb.1, hshape]
  rw [copy_of_wellFormed a ha]
  refine ⟨(cellLoop_shape _ _ _ _).1, (cellLoop_shape _ _ _ _).2, ?_⟩
  rw [cellLoop_data op _ a _ (by rw [ha.2.2, hsize]), ← hsize, ← ha.2.2]
  exact map_range_eq_zipWith op a.data b.data (by rw [ha.2.2, hb.2.2, hsize])

/-- The scalar operators: cell `i` of the result is `op` of cell `i` and the scalar. -/
theorem cellwiseScalar_of_copy_self {T : Type} [Inhabited T] (op : T → T → T) (a : NdArray T)
    (ha : WellFormed a) (c : T) :
    CellwiseScalar op a c (cellLoop op a.totalSize (copy a) fun _ => c) := by
  rw [copy_of_wellFormed a ha]
  refine ⟨(cellLoop_shape _ _ _ _).1, (cellLoop_shape _ _ _ _).2, ?_⟩
  rw [cellLoop_data op _ a _ ha.2.2, ← ha.2.2]
  exact map_range_eq_map (fun x => op x c) a.data

/-- C21 (elementwise arithmetic): for two well-formed grids `a` and `b` of identical shape, each
of `a + b`, `a - b`, `a * b`, `a / b`, `a % b` passes the shape assertion and is a grid with the
shape and size of `a` whose cell at every linear offset is the scalar operation applied to the
cells of `a` and `b` at that offset; for a scalar `c`, each of `a + c`, `a - c`, `a * c`,
`a / c`, `a % c` is a grid with the shape and size of `a` whose cell at every linear offset is
the operation applied to the cell of `a` and `c`. The operands are values of the embedding and
are not changed. The scalar operations are those of the cell type; `a + b` is computed as
`b[i] + a[i]`, which is `a[i] + b[i]` because addition of numbers commutes. -/
theorem elementwise_arithmetic {T : Type} [Inhabited T] [Add T] [Sub T] [Mul T] [Div T] [Mod T]
    (hcomm : ∀ x y : T, x + y = y + x) (a b : NdArray T) (ha : WellFormed a)
    (hb : WellFormed b) (hshape : a.shape = b.shape) (c : T) :
    (∃ r, operatorAdd a b = .ok r ∧ Cellwise (fun x y => x + y) a b r) ∧
    (∃ r, operatorSub a b = .ok r ∧ Cellwise (fun x y => x - y) a b r) ∧
    (∃ r, operatorMul a b = .ok r ∧ Cellwise (fun x y => x * y) a b r) ∧
    (∃ r, operatorDiv a b = .ok r ∧ Cellwise (fun x y => x / y) a b r) ∧
    (∃ r, operatorMod a b = .ok r ∧ Cellwise (fun x y => x % y) a b r) ∧
    CellwiseScalar (fun x y => x + y) a c (operatorAddScalar a c) ∧
    CellwiseScalar (fun x y => x - y) a c (operatorSubScalar a c) ∧
    CellwiseScalar (fun x y => x * y) a c (operatorMulScalar a c) ∧
    CellwiseScalar (fun x y => x / y) a c (operatorDivScalar a c) ∧
    CellwiseScalar (fun x y => x % y) a c (operatorModScalar a c) := by
  have hsize : a.totalSize = b.totalSize := by rw [ha.1, hb.1, hshape]
  refine ⟨?_, ?_, ?_, ?_, ?_, ?_, ?_, ?_, ?_, ?_⟩
  · refine ⟨_, by unfold operatorAdd; rw [if_pos hshape], ?_⟩
    obtain ⟨h1, h2, h3⟩ := cellwise_of_copy_self (fun x y : T => x + y) b a hb ha hshape.symm
    rw [hsize] at h1 h2 h3
    refine ⟨h1.trans hshape.symm, h2.trans hsize.symm, ?_⟩
    rw [h3]
    apply List.ext_getElem?
    intro j
    rw [List.getElem?_zipWith, List.getElem?_zipWith]
    cases a.data[j]? <;> cases b.data[j]? <;> simp [hcomm]
  · exact ⟨_, by unfold operatorSub; rw [if_pos hshape], cellwise_of_copy_self _ a b ha hb hshape⟩
  · exact ⟨_, by unfold operatorMul; rw [if_pos hshape], cellwise_of_copy_self _ a b ha hb hshape⟩
  · exact ⟨_, by unfold operatorDiv; rw [if_pos hshape], cellwise_of_copy_self _ a b ha hb hshape⟩
  · exact ⟨_, by unfold operatorMod; rw [if_pos hshape], cellwise_of_copy_self _ a b ha hb hshape⟩
  · exact cellwiseScalar_of_copy_self _ a ha c
  · exact cellwiseScalar_of_copy_self _ a ha c
  · exact cellwiseScalar_of_copy_self _ a ha c
  · exact cellwiseScalar_of_copy_self _ a ha c
  · exact cellwiseScalar_of_copy_self _ a ha c

theorem elementwise_arithmetic_witness :
    WellFormed sampleIntGrid ∧ WellFormed sampleDivisors ∧
    sampleIntGrid.shape = sampleDivisors.shape ∧
    (operatorSub sampleIntGrid sampleDivisors).toOption.map getCArray
      = some [5, -6, 5, 5, -5, 3] ∧
    (∃ r, operatorAdd sampleIntGrid sampleDivisors = .ok r ∧
      Cellwise (fun x y => x + y) sampleIntGrid sampleDivisors r) ∧
    (∃ r, operatorSub sampleIntGrid sampleDivisors = .ok r ∧
      Cellwise (fun x y => x - y) sampleIntGrid sampleDivisors r) ∧
    (∃ r, operatorMul sampleIntGrid sampleDivisors = .ok r ∧
      Cellwise (fun x y => x * y) sampleIntGrid sampleDivisors r) ∧
    (∃ r, operatorDiv sampleIntGrid sampleDivisors = .ok r ∧
      Cellwise (fun x y => x / y) sampleIntGrid sampleDivisors r) ∧
    (∃ r, operatorMod sampleIntGrid sampleDivisors = .ok r ∧
      Cellwise (fun x y => x % y) sampleIntGrid sampleDivisors r) ∧
    CellwiseScalar (fun x y => x + y) sampleIntGrid 2 (operatorAddScalar sampleIntGrid 2) ∧
    CellwiseScalar (fun x y => x - y) sampleIntGrid 2 (operatorSubScalar sampleIntGrid 2) ∧
    CellwiseScalar (fun x y => x * y) sampleIntGrid 2 (operatorMulScalar sampleIntGrid 2) ∧
    CellwiseScalar (fun x y => x / y) sampleIntGrid 2 (operatorDivScalar sampleIntGrid 2) ∧
    CellwiseScalar (fun x y => x % y) sampleIntGrid 2 (operatorModScalar sampleIntGrid 2) :=
  ⟨by unfold WellFormed; decide, by unfold WellFormed; decide, rfl, by decide,
    elementwise_arithmetic Int.add_comm sampleIntGrid sampleDivisors
      (by unfold WellFormed; decide) (by unfold WellFormed; decide) rfl 2⟩

/-! ## Reductions -/

theorem foldl_max_spec {T : Type} [LinearOrder T] (f : Nat → T) : ∀ (k : Nat) (init : T),
    let r := (List.range k).foldl (fun maxN i => if f i > maxN then f i else maxN) init
    (r = init ∨ ∃ i, i < k ∧ r = f i) ∧ init ≤ r ∧ ∀ i, i < k → f i ≤ r := by
  intro k
  induction k with
  | zero =>
    intro init
    simp
  | succ k ih =>
    intro init
    obtain ⟨h1, h2, h3⟩ := ih init
    simp only [List.range_succ, List.foldl_append, List.foldl_cons, List.foldl_nil]
    by_cases hgt : f k > (List.range k).foldl (fun maxN i => if f i > maxN then f i else maxN) init
    · rw [if_pos hgt]
      refine ⟨Or.inr ⟨k, by omega, rfl⟩, le_trans h2 (le_of_lt hgt), ?_⟩
      intro i hi
      by_cases hik : i = k
      · rw [hik]
      · exact le_trans (h3 i (by omega)) (le_of_lt hgt)
    · rw [if_neg hgt]
      refine ⟨?_, h2, ?_⟩
      · rcases h1 with h1 | ⟨i, hi, h1⟩
        · exact Or.inl h1
        · exact Or.inr ⟨i, by omega, h1⟩
      · intro i hi
        by_cases hik : i = k
        · rw [hik]; exact not_lt.mp hgt
        · exact h3 i (by omega)

theorem foldl_min_spec {T : Type} [LinearOrder T] (f : Nat → T) : ∀ (k : Nat) (init : T),
    let r := (List.range k).foldl (fun minN i => if f i < minN then f i else minN) init
    (r = init ∨ ∃ i, i < k ∧ r = f i) ∧ r ≤ init ∧ ∀ i, i < k → r ≤ f i := by
  intro k
  induction k with
  | zero =>
    intro init
    simp
  | succ k ih =>
    intro init
    obtain ⟨h1, h2, h3⟩ := ih init
    simp only [List.range_succ, List.foldl_append, List.foldl_cons, List.foldl_nil]
    by_cases hlt : f k < (List.range k).foldl (fun minN i => if f i < minN then f i else minN) init
    · rw [if_pos hlt]
      refine ⟨Or.inr ⟨k, by omega, rfl⟩, le_trans (le_of_lt hlt) h2, ?_⟩
      intro i hi
      by_cases hik : i = k
      · rw [hik]
      · exact le_trans (le_of_lt hlt) (h3 i (by omega))
    · rw [if_neg hlt]
      refine ⟨?_, h2, ?_⟩
      · rcases h1 with h1 | ⟨i, hi, h1⟩
        · exact Or.inl h1
        · exact Or.inr ⟨i, by omega, h1⟩
      · intro i hi
        by_cases hik : i = k
        · rw [hik]; exact not_lt.mp hlt
        · exact h3 i (by omega)

theorem getD_mem_of_lt {T : Type} (l : List T) (d : T) (i : Nat) (hi : i < l.length) :
    l.getD i d ∈ l := by
  rw [List.getD_eq_getElem?_getD, List.getElem?_eq_getElem hi]
  exact List.getElem_mem hi

theorem exists_getD_of_mem {T : Type} (l : List T) (d : T) (x : T) (hx : x ∈ l) :
    ∃ i, i < l.length ∧ l.getD i d = x := by
  obtain ⟨i, hi, rfl⟩ := List.getElem_of_mem hx
  exact ⟨i, hi, by rw [List.getD_eq_getElem?_getD, List.getElem?_eq_getElem hi]; rfl⟩

/-- C22 (reductions): on a well-formed grid `maxValue()` returns a value that occurs in the grid
and is greater than or equal to every cell, and `minValue()` returns a value that occurs in the
grid and is less than or equal to every cell (cells compared in a total order). -/
theorem maxValue_minValue_spec {T : Type} [Inhabited T] [LinearOrder T] (arr : NdArray T)
    (h : WellFormed arr) :
    maxValue arr ∈ getCArray arr ∧ (∀ x ∈ getCArray arr, x ≤ maxValue arr) ∧
    minValue arr ∈ getCArray arr ∧ (∀ x ∈ getCArray arr, minValue arr ≤ x) := by
  obtain ⟨_, hpos, hlen⟩ := h
  have h0 : 0 < arr.data.length := by rw [hlen]; omega
  obtain ⟨a1, _, a3⟩ := foldl_max_spec (fun i => arr.data.getD i default) arr.totalSize.toNat
    (arr.data.getD 0 default)
  obtain ⟨b1, _, b3⟩ := foldl_min_spec (fun i => arr.data.getD i default) arr.totalSize.toNat
    (arr.data.getD 0 default)
  refine ⟨?_, ?_, ?_, ?_⟩
  · show maxValue arr ∈ arr.data
    rcases a1 with a1 | ⟨i, hi, a1⟩
    · unfold maxValue; rw [a1]; exact getD_mem_of_lt _ _ 0 h0
    · unfold maxValue; rw [a1]; exact getD_mem_of_lt _ _ i (by omega)
  · intro x hx
    obtain ⟨i, hi, rfl⟩ := exists_getD_of_mem arr.data default x hx
    exact a3 i (by omega)
  · show minValue arr ∈ arr.data
    rcases b1 with b1 | ⟨i, hi, b1⟩
    · unfold minValue; rw [b1]; exact getD_mem_of_lt _ _ 0 h0
    · unfold minValue; rw [b1]; exact getD_mem_of_lt _ _ i (by omega)
  · intro x hx
    obtain ⟨i, hi, rfl⟩ := exists_getD_of_mem arr.data default x hx
    exact b3 i (by omega)

theorem maxValue_minValue_spec_witness :
    WellFormed sampleIntGrid ∧ maxValue sampleIntGrid = 9 ∧ minValue sampleIntGrid = -3 ∧
    maxValue sampleIntGrid ∈ getCArray sampleIntGrid ∧
    (∀ x ∈ getCArray sampleIntGrid, x ≤ maxValue sampleIntGrid) ∧
    minValue sampleIntGrid ∈ getCArray sampleIntGrid ∧
    (∀ x ∈ getCArray sampleIntGrid, minValue sampleIntGrid ≤ x) :=
  ⟨by unfold WellFormed; decide, by decide, by decide,
    maxValue_minValue_spec sampleIntGrid (by unfold WellFormed; decide)⟩

/-! ## The "nD for loop" of `operator<<` and `writePmfFile` -/

theorem rangeFrom_shift (n : Nat) : ∀ s : Nat,
    List.range' (s + 1) n = (List.range' s n).map (fun j => j + 1) := by
  induction n with
  | zero => intro s; rfl
  | succ n ih =>
    intro s
    rw [List.range'_succ, List.range'_succ, List.map_cons, ih (s + 1)]

/-- Horner step of the row-major offset: the offset of `x :: xs` in a grid of shape `n :: ns`
is `x` times the size of `ns` plus the offset of `xs` in `ns`. -/
theorem linearOffset_cons (n : Int) (ns : List Int) (x : Int) (xs : List Int)
    (h : xs.length = ns.length) :
    linearOffset (n :: ns) (x :: xs) = x * ns.prod + linearOffset ns xs := by
  unfold linearOffset
  simp only [List.length_cons, List.range_succ_eq_map, List.map_cons, List.sum_cons,
    List.map_map]
  have h0 : ((List.range' (0 + 1) (xs.length + 1 - (0 + 1))).map fun j => (n :: ns).getD j 0)
      = ns := by
    have : List.range' (0 + 1) (xs.length + 1 - (0 + 1))
        = (List.range xs.length).map (fun j => j + 1) := by
      rw [List.range_eq_range', ← rangeFrom_shift]
      simp
    rw [this, List.map_map, h]
    exact map_getD_range ns 0
  rw [h0]
  congr 1
  congr 1
  apply List.map_congr_left
  intro i _
  simp only [Function.comp, List.getD_cons_succ, Nat.succ_eq_add_one]
  congr 1
  have : List.range' (i + 1 + 1) (xs.length + 1 - (i + 1 + 1))
      = (List.range' (i + 1) (xs.length - (i + 1))).map (fun j => j + 1) := by
    rw [← rangeFrom_shift]
    congr 1
    omega
  rw [this, List.map_map]
  rfl

/-- The inner loop on a grid of shape `n :: ns` in terms of the inner loop on `ns`: the first
index is touched only when the loop ran through all the others. -/
theorem carry_cons (n : Int) (ns : List Int) (x : Int) : ∀ (m : Nat) (t : List Int),
    carry (n :: ns) (m + 1) (x :: t)
      = if (carry ns m t).2 ≥ 0 then (x :: (carry ns m t).1, (carry ns m t).2 + 1)
        else if x + 1 > n - 1 then (0 :: (carry ns m t).1, -1)
        else ((x + 1) :: (carry ns m t).1, 0) := by
  intro m
  induction m with
  | zero =>
    intro t
    simp only [carry, List.set_cons_zero, List.getD_cons_zero]
    simp
  | succ m ih =>
    intro t
    rw [carry]
    simp only [List.getD_cons_succ, List.set_cons_succ]
    by_cases hov : (t.set m (t.getD m 0 + 1)).getD m 0 > ns.getD m 0 - 1
    · rw [if_pos hov, ih]
      conv_rhs => rw [carry, if_pos hov]
    · rw [if_neg hov]
      conv_rhs => rw [carry, if_neg hov]
      simp only [ge_iff_le, Nat.cast_nonneg, if_true]
      push_cast
      rfl

theorem inRange_cons_mk (n : Int) (ns : List Int) (x : Int) (xs : List Int)
    (h0 : 0 ≤ x) (h1 : x ≤ n - 1) (h : inRange ns xs) : inRange (n :: ns) (x :: xs) := by
  refine ⟨by simp [h.1], ?_⟩
  intro i hi
  cases i with
  | zero => simpa using ⟨h0, h1⟩
  | succ i =>
    have := h.2 i (by simpa using hi)
    simpa using this

theorem inRange_zeros (shape : List Int) (hpos : ∀ d ∈ shape, 0 < d) :
    inRange shape (List.replicate shape.length 0) := by
  induction shape with
  | nil => exact ⟨rfl, fun i hi => by simp at hi⟩
  | cons n ns ih =>
    have hn := hpos n (by simp)
    exact inRange_cons_mk n ns 0 _ le_rfl (by omega)
      (ih (fun d hd => hpos d (by simp [hd])))

theorem linearOffset_zeros (shape : List Int) :
    linearOffset shape (List.replicate shape.length 0) = 0 := by
  induction shape with
  | nil => rfl
  | cons n ns ih =>
    show linearOffset (n :: ns) (0 :: List.replicate ns.length 0) = 0
    rw [linearOffset_cons n ns 0 _ (by simp), ih]
    simp

/-- The offset of an in-range index vector lies in `[0, size - 1]`. -/
theorem linearOffset_bounds (shape : List Int) : ∀ p, inRange shape p →
    0 ≤ linearOffset shape p ∧ linearOffset shape p + 1 ≤ shape.prod := by
  induction shape with
  | nil =>
    intro p hp
    have : p = [] := List.length_eq_zero.mp hp.1
    subst this
    exact ⟨by decide, by decide⟩
  | cons n ns ih =>
    intro p hp
    obtain ⟨x, xs, rfl, h0, h1, hxs⟩ := inRange_cons n ns p hp
    obtain ⟨hlo, hhi⟩ := ih xs hxs
    rw [linearOffset_cons n ns x xs hxs.1, List.prod_cons]
    have hP : 0 ≤ ns.prod := by omega
    have hmul : x * ns.prod ≤ (n - 1) * ns.prod := mul_le_mul_of_nonneg_right h1 hP
    have hmul0 : 0 ≤ x * ns.prod := mul_nonneg h0 hP
    have : (n - 1) * ns.prod = n * ns.prod - ns.prod := by ring
    constructor
    · omega
    · omega

/-- One run of the inner loop from `n = D - 1` on an in-range index vector: either it stops at
some `n >= 0` with the next index vector in row-major order, or it runs through with all
indices reset, and the index vector was the last one. -/
theorem carry_spec (shape : List Int) : ∀ p, inRange shape p →
    ((carry shape shape.length p).2 ≥ 0 →
      inRange shape (carry shape shape.length p).1 ∧
        linearOffset shape (carry shape shape.length p).1 = linearOffset shape p + 1) ∧
    (¬ (carry shape shape.length p).2 ≥ 0 →
      (carry shape shape.length p).1 = List.replicate shape.length 0 ∧
        linearOffset shape p + 1 = shape.prod) := by
  induction shape with
  | nil =>
    intro p hp
    have : p = [] := List.length_eq_zero.mp hp.1
    subst this
    refine ⟨fun h => ?_, fun _ => ⟨rfl, by decide⟩⟩
    simp [carry] at h
  | cons n ns ih =>
    intro p hp
    obtain ⟨x, xs, rfl, h0, h1, hxs⟩ := inRange_cons n ns p hp
    obtain ⟨ih1, ih2⟩ := ih xs hxs
    have hpos : ∀ d ∈ ns, 0 < d := by
      intro d hd
      obtain ⟨i, hi, rfl⟩ := List.getElem_of_mem hd
      have := hxs.2 i hi
      rw [List.getD_eq_getElem?_getD, List.getD_eq_getElem?_getD,
        List.getElem?_eq_getElem hi] at this
      simp only [Option.getD_some] at this
      omega
    rw [List.length_cons, carry_cons]
    by_cases hk : (carry ns ns.length xs).2 ≥ 0
    · rw [if_pos hk]
      obtain ⟨hr, hoff⟩ := ih1 hk
      refine ⟨fun _ => ⟨inRange_cons_mk n ns x _ h0 h1 hr, ?_⟩, fun h => ?_⟩
      · rw [linearOffset_cons n ns x _ hr.1, linearOffset_cons n ns x xs hxs.1, hoff]
        ring
      · exact absurd (by show (0 : Int) ≤ (carry ns ns.length xs).2 + 1; omega) h
    · rw [if_neg hk]
      obtain ⟨hz, hoff⟩ := ih2 hk
      by_cases hx : x + 1 > n - 1
      · rw [if_pos hx]
        refine ⟨fun h => absurd h (show ¬ ((-1 : Int) ≥ 0) by decide), fun _ => ⟨?_, ?_⟩⟩
        · show (0 : Int) :: (carry ns ns.length xs).1 = _
          rw [hz]
          rfl
        · rw [linearOffset_cons n ns x xs hxs.1, List.prod_cons]
          have hxn : x = n - 1 := by omega
          rw [hxn]
          have : (n - 1) * ns.prod = n * ns.prod - ns.prod := by ring
          omega
      · rw [if_neg hx]
        refine ⟨fun _ => ⟨?_, ?_⟩, fun h => absurd (show (0 : Int) ≥ 0 by decide) h⟩
        · show inRange (n :: ns) ((x + 1) :: (carry ns ns.length xs).1)
          rw [hz]
          exact inRange_cons_mk n ns (x + 1) _ (by omega) (by omega) (inRange_zeros ns hpos)
        · show linearOffset (n :: ns) ((x + 1) :: (carry ns ns.length xs).1) = _
          rw [hz, linearOffset_cons n ns (x + 1) _ (by simp), linearOffset_zeros,
            linearOffset_cons n ns x xs hxs.1]
          have : (x + 1) * ns.prod = x * ns.prod + ns.prod := by ring
          omega

/-- The outer loop started at an in-range index vector `p` that has `d` index vectors after it:
it ends within `d + 1` passes and visits `p` and the index vectors after it, in row-major
order. -/
theorem odometer_run (shape : List Int) : ∀ (d : Nat) (p : List Int), inRange shape p →
    linearOffset shape p + (d : Int) + 1 = shape.prod →
    ∀ (fuel : Nat), d < fuel → ∀ visited : List (List Int),
      ∃ L, odometer shape shape.length fuel p visited = some (visited ++ L) ∧
        (∀ q ∈ L, inRange shape q) ∧
        L.map (linearOffset shape)
          = (List.range (d + 1)).map (fun i : Nat => linearOffset shape p + (i : Int)) := by
  intro d
  induction d with
  | zero =>
    intro p hp hoff fuel hfuel visited
    obtain ⟨f, rfl⟩ : ∃ f, fuel = f + 1 := ⟨fuel - 1, by omega⟩
    obtain ⟨c1, _⟩ := carry_spec shape p hp
    have hk : ¬ (carry shape shape.length p).2 ≥ 0 := by
      intro hk
      obtain ⟨hr, ho⟩ := c1 hk
      have := (linearOffset_bounds shape _ hr).2
      simp only [Nat.cast_zero] at hoff
      omega
    refine ⟨[p], ?_, ?_, ?_⟩
    · rw [odometer, if_neg hk]
    · intro q hq
      simp only [List.mem_singleton] at hq
      rw [hq]; exact hp
    · simp [List.range_succ]
  | succ d ih =>
    intro p hp hoff fuel hfuel visited
    obtain ⟨f, rfl⟩ : ∃ f, fuel = f + 1 := ⟨fuel - 1, by omega⟩
    obtain ⟨c1, c2⟩ := carry_spec shape p hp
    have hk : (carry shape shape.length p).2 ≥ 0 := by
      by_contra hk
      obtain ⟨_, ho⟩ := c2 hk
      push_cast at hoff
      omega
    obtain ⟨hr, ho⟩ := c1 hk
    obtain ⟨L, hL, hLr, hLo⟩ := ih _ hr (by rw [ho]; push_cast at hoff; omega) f (by omega)
      (visited ++ [p])
    refine ⟨p :: L, ?_, ?_, ?_⟩
    · rw [odometer, if_pos hk, hL]
      simp
    · intro q hq
      rcases List.mem_cons.mp hq with h | h
      · rw [h]; exact hp
      · exact hLr q h
    · rw [List.map_cons, hLo, ho]
      conv_rhs => rw [List.range_succ_eq_map, List.map_cons, List.map_map]
      simp only [Nat.cast_zero, add_zero, List.cons.injEq, true_and]
      apply List.map_congr_left
      intro i _
      simp only [Function.comp, Nat.succ_eq_add_one]
      push_cast
      ring

/-- Two in-range index vectors with the same row-major offset are equal. -/
theorem linearOffset_injective (shape : List Int) : ∀ p q, inRange shape p → inRange shape q →
    linearOffset shape p = linearOffset shape q → p = q := by
  induction shape with
  | nil =>
    intro p q hp hq _
    rw [List.length_eq_zero.mp hp.1, List.length_eq_zero.mp hq.1]
  | cons n ns ih =>
    intro p q hp hq heq
    obtain ⟨x, xs, rfl, _, _, hxs⟩ := inRange_cons n ns p hp
    obtain ⟨y, ys, rfl, _, _, hys⟩ := inRange_cons n ns q hq
    rw [linearOffset_cons n ns x xs hxs.1, linearOffset_cons n ns y ys hys.1] at heq
    obtain ⟨hx0, hx1⟩ := linearOffset_bounds ns xs hxs
    obtain ⟨hy0, hy1⟩ := linearOffset_bounds ns ys hys
    have hmod : ∀ (z o : Int), 0 ≤ o → o + 1 ≤ ns.prod → (z * ns.prod + o) % ns.prod = o := by
      intro z o h0 h1
      rw [Int.add_comm, Int.add_mul_emod_self, Int.emod_eq_of_lt h0 (by omega)]
    have ho : linearOffset ns xs = linearOffset ns ys := by
      rw [← hmod x _ hx0 hx1, ← hmod y _ hy0 hy1, heq]
    have hP : ns.prod ≠ 0 := by omega
    have hxy : x = y := by
      rw [ho] at heq
      exact Int.eq_of_mul_eq_mul_right hP (by omega)
    rw [hxy, ih xs ys hxs hys ho]

/-- Every offset below the size of a positive shape is the offset of an in-range index
vector. -/
theorem linearOffset_surjective (shape : List Int) (hpos : ∀ d ∈ shape, 0 < d) (k : Nat)
    (hk : (k : Int) < shape.prod) : ∃ p, inRange shape p ∧ linearOffset shape p = k := by
  have hV := prod_pos_of_pos shape hpos
  obtain ⟨L, _, hLr, hLo⟩ := odometer_run shape (shape.prod.toNat - 1)
    (List.replicate shape.length 0) (inRange_zeros shape hpos)
    (by rw [linearOffset_zeros]; omega) shape.prod.toNat (by omega) []
  have hsucc : shape.prod.toNat - 1 + 1 = shape.prod.toNat := by omega
  rw [hsucc, linearOffset_zeros] at hLo
  have hlen : L.length = shape.prod.toNat := by
    have := congrArg List.length hLo
    simpa using this
  have hkL : k < L.length := by omega
  refine ⟨L[k], hLr _ (List.getElem_mem hkL), ?_⟩
  have h1 : (L.map (linearOffset shape))[k]? = some (linearOffset shape L[k]) := by
    rw [List.getElem?_map, List.getElem?_eq_getElem hkL]
    rfl
  rw [hLo, List.getElem?_map, List.getElem?_range (by omega)] at h1
  simp only [Option.map_some', Option.some.injEq] at h1
  rw [← h1]
  simp

/-- C32, amended (row-major linearization is a bijection onto the storage): for every shape of
positive integers whose product is representable as `int` (below 2^31) the grid is
constructed, and for every in-range index vector `p` of matching length
`0 <= position(p) < totalSize`, the offset lies inside the storage, two in-range index vectors
with the same offset are equal, and every offset below `totalSize` is the offset of an in-range
index vector. -/
theorem position_bijection {T : Type} (shape : List Int) (v : T) (hpos : ∀ d ∈ shape, 0 < d)
    (hfit : shape.prod < 2147483648) :
    ∃ g : NdArray T, construct shape v = .ok g ∧
      (∀ p, inRange shape p →
        0 ≤ position g p ∧ position g p < getTotalSize g ∧
          (position g p).toNat < (getCArray g).length) ∧
      (∀ p q, inRange shape p → inRange shape q → position g p = position g q → p = q) ∧
      (∀ k : Nat, (k : Int) < getTotalSize g → ∃ p, inRange shape p ∧ position g p = k) := by
  have hV := prod_pos_of_pos shape hpos
  have hsize : sizeOfShape shape = shape.prod := sizeOfShape_of_fits shape (by omega) hfit
  have hok := construct_of_size_pos shape v (by rw [hsize]; exact hV)
  refine ⟨_, hok, ?_, ?_, ?_⟩
  · intro p hp
    obtain ⟨h0, h1⟩ := linearOffset_bounds shape p hp
    rw [position_eq_linearOffset]
    refine ⟨h0, ?_, ?_⟩
    · show linearOffset shape p < sizeOfShape shape
      rw [hsize]; omega
    · show (linearOffset shape p).toNat < (List.replicate (sizeOfShape shape).toNat v).length
      rw [List.length_replicate, hsize]
      omega
  · intro p q hp hq heq
    rw [position_eq_linearOffset, position_eq_linearOffset] at heq
    exact linearOffset_injective shape p q hp hq heq
  · intro k hk
    have hk' : (k : Int) < shape.prod := by
      rw [← hsize]; exact hk
    obtain ⟨p, hp, ho⟩ := linearOffset_surjective shape hpos k hk'
    exact ⟨p, hp, by rw [position_eq_linearOffset]; exact ho⟩

theorem position_bijection_witness :
    (∀ d ∈ ([2, 3] : List Int), 0 < d) ∧ ([2, 3] : List Int).prod < 2147483648 ∧
    ∃ g : NdArray ℚ, construct [2, 3] (0 : ℚ) = .ok g ∧
      (∀ p, inRange [2, 3] p →
        0 ≤ position g p ∧ position g p < getTotalSize g ∧
          (position g p).toNat < (getCArray g).length) ∧
      (∀ p q, inRange [2, 3] p → inRange [2, 3] q → position g p = position g q → p = q) ∧
      (∀ k : Nat, (k : Int) < getTotalSize g → ∃ p, inRange [2, 3] p ∧ position g p = k) :=
  ⟨by decide, by decide, position_bijection [2, 3] (0 : ℚ) (by decide) (by decide)⟩

/-- C32, counterexample: the shape 65536 x 65537 consists of positive integers, but its product
2^32 + 2^16 is not an `int` value; with 32-bit wrap-around the constructor computes
`totalSize = 65536`, passes its assertion and allocates 65536 cells, and the in-range index
vector (1, 0) has `position = 65537`, which is not below `totalSize`. -/
theorem position_bijection_counterexample :
    (∀ d ∈ ([65536, 65537] : List Int), 0 < d) ∧ inRange [65536, 65537] [1, 0] ∧
    ∃ g : NdArray ℚ, construct [65536, 65537] (0 : ℚ) = .ok g ∧ getTotalSize g = 65536 ∧
      (getCArray g).length = 65536 ∧ position g [1, 0] = 65537 ∧
      ¬ position g [1, 0] < getTotalSize g := by
  have hsize : sizeOfShape [65536, 65537] = 65536 := by decide
  have hok := construct_of_size_pos [65536, 65537] (0 : ℚ) (by rw [hsize]; decide)
  refine ⟨by decide, by decide, _, hok, hsize, ?_, ?_, ?_⟩
  · show (List.replicate (sizeOfShape [65536, 65537]).toNat (0 : ℚ)).length = 65536
    rw [List.length_replicate, hsize]
    rfl
  · rw [position_eq_linearOffset]
    show linearOffset [65536, 65537] [1, 0] = 65537
    decide
  · rw [position_eq_linearOffset]
    show ¬ linearOffset [65536, 65537] [1, 0] < sizeOfShape [65536, 65537]
    rw [hsize]
    decide

/-! ## Offsets on 32-bit `int` -/

theorem wrapInt_add_left (a b : Int) : wrapInt (wrapInt a + b) = wrapInt (a + b) := by
  unfold wrapInt
  omega

theorem wrapInt_add_right (a b : Int) : wrapInt (a + wrapInt b) = wrapInt (a + b) := by
  unfold wrapInt
  omega

theorem wrapInt_foldl_mul {α : Type} (g : α → Int) (l : List α) : ∀ a : Int,
    wrapInt (l.foldl (fun t j => wrapInt (t * g j)) a) = wrapInt (a * (l.map g).prod) := by
  induction l with
  | nil => intro a; simp
  | cons x l ih =>
    intro a
    rw [List.foldl_cons, ih, wrapInt_mul_wrapInt, List.map_cons, List.prod_cons, mul_assoc]

theorem foldl_wrapInt_add {α : Type} (h t : α → Int) (l : List α)
    (hh : ∀ i, wrapInt (h i) = wrapInt (t i)) : ∀ s : Int,
    l.foldl (fun r i => wrapInt (r + h i)) (wrapInt s) = wrapInt (s + (l.map t).sum) := by
  induction l with
  | nil => intro s; simp
  | cons x l ih =>
    intro s
    rw [List.foldl_cons, wrapInt_add_left, ← wrapInt_add_right, hh, wrapInt_add_right, ih,
      List.map_cons, List.sum_cons, add_assoc]

theorem positionInt_eq_wrapInt {T : Type} (arr : NdArray T) (p : List Int) :
    positionInt arr p = wrapInt (linearOffset arr.shape p) := by
  have h0 : (0 : Int) = wrapInt 0 := by decide
  unfold positionInt linearOffset
  rw [h0]
  have h := foldl_wrapInt_add
    (fun i => (List.range' (i + 1) (p.length - (i + 1))).foldl
      (fun tempSum j => wrapInt (tempSum * arr.shape.getD j 0)) (p.getD i 0))
    (fun i => p.getD i 0 *
      ((List.range' (i + 1) (p.length - (i + 1))).map fun j => arr.shape.getD j 0).prod)
    (List.range p.length) (fun i => wrapInt_foldl_mul _ _ _) 0
  rw [zero_add] at h
  rw [← h0]
  rw [← h0] at h
  exact h

theorem positionInt_of_fits {T : Type} (arr : NdArray T) (p : List Int)
    (hfit : FitsInt (linearOffset arr.shape p)) :
    positionInt arr p = linearOffset arr.shape p := by
  rw [positionInt_eq_wrapInt, wrapInt_of_fits _ hfit.1 hfit.2]

theorem fitsInt_of_inRange (shape : List Int) (p : List Int)
    (hprod : shape.prod < 2147483648) (hp : inRange shape p) :
    FitsInt (linearOffset shape p) := by
  have h := linearOffset_bounds shape p hp
  unfold FitsInt
  constructor <;> omega

theorem readCell_of_offset {T : Type} [Inhabited T] (arr : NdArray T) (p : List Int) (k : Nat)
    (hlen : p.length = arr.shape.length) (hpos : positionInt arr p = (k : Int))
    (hk : k < arr.data.length) : readCell arr p = some (arr.data.getD k default) := by
  unfold readCell
  rw [hpos, Int.toNat_ofNat, if_pos ⟨hlen, Int.ofNat_nonneg k, hk⟩]
  simp [List.getD_eq_getElem?_getD, hk]

theorem writeCell_of_offset {T : Type} (arr : NdArray T) (p : List Int) (k : Nat) (v : T)
    (hlen : p.length = arr.shape.length) (hpos : positionInt arr p = (k : Int))
    (hk : k < arr.data.length) :
    writeCell arr p v = some { arr with data := arr.data.set k v } := by
  unfold writeCell
  rw [hpos, Int.toNat_ofNat, if_pos ⟨hlen, Int.ofNat_nonneg k, hk⟩]

theorem positionInt_set {T : Type} (arr : NdArray T) (p q : List Int) (v : T) :
    positionInt (set arr p v) q = positionInt arr q := by
  unfold set
  split <;> rfl

/-- C18, amended: for every shape `s` of length `D` and every index vector `p` of length `D`
(the `assert` of `position`), `position(p)` is the sum over `i` of `p[i]` times the product of
`s[j]` over `j > i`, reduced to the range of `int`; it is that sum itself whenever the sum is
representable as `int`, which it is for every `p` inside the grid of a shape of positive
integers whose product is below 2^31 (the offset then lies in `0 .. product - 1`). Under that
proviso the last dimension is contiguous (one step in the last index moves the offset by one),
and when the offset lies inside the storage `operator[](p)` reads and writes the cell of the
storage at that offset. -/
theorem position_row_major {T : Type} [Inhabited T] (arr : NdArray T) (p : List Int)
    (hlen : p.length = arr.shape.length) :
    positionInt arr p = wrapInt (linearOffset arr.shape p) ∧
    (FitsInt (linearOffset arr.shape p) →
      positionInt arr p = linearOffset arr.shape p ∧ position arr p = positionInt arr p) ∧
    ((∀ d ∈ arr.shape, 0 < d) → arr.shape.prod < 2147483648 → inRange arr.shape p →
      positionInt arr p = linearOffset arr.shape p ∧
      0 ≤ positionInt arr p ∧ positionInt arr p < arr.shape.prod) ∧
    (∀ (q : List Int) (x : Int), q.length + 1 = arr.shape.length →
      FitsInt (linearOffset arr.shape (q ++ [x])) →
      FitsInt (linearOffset arr.shape (q ++ [x + 1])) →
      positionInt arr (q ++ [x + 1]) = positionInt arr (q ++ [x]) + 1) ∧
    (∀ k : Nat, linearOffset arr.shape p = (k : Int) → (k : Int) < 2147483648 →
      k < arr.data.length →
      positionInt arr p = (k : Int) ∧
      readCell arr p = some (arr.data.getD k default) ∧
      get arr p = arr.data.getD k default ∧
      ∀ v : T, writeCell arr p v = some (set arr p v) ∧
        getCArray (set arr p v) = (getCArray arr).set k v ∧
        getShape (set arr p v) = getShape arr ∧
        readCell (set arr p v) p = some v) := by
  refine ⟨positionInt_eq_wrapInt arr p, ?_, ?_, ?_, ?_⟩
  · intro hfit
    rw [positionInt_of_fits arr p hfit]
    exact ⟨rfl, position_eq_linearOffset arr p⟩
  · intro _ hprod hp
    have hb := linearOffset_bounds arr.shape p hp
    rw [positionInt_of_fits arr p (fitsInt_of_inRange arr.shape p hprod hp)]
    exact ⟨rfl, hb.1, by omega⟩
  · intro q x _ h1 h2
    rw [positionInt_of_fits arr _ h1, positionInt_of_fits arr _ h2, linearOffset_append_succ]
  · intro k hk hk31 hkl
    have h0 : (0 : Int) ≤ (k : Int) := Int.ofNat_nonneg k
    have hfit : FitsInt (linearOffset arr.shape p) := by
      rw [hk]; unfold FitsInt; constructor <;> omega
    have hposInt : positionInt arr p = (k : Int) := by
      rw [positionInt_of_fits arr p hfit]; exact hk
    have hpos : position arr p = (k : Int) := by rw [position_eq_linearOffset]; exact hk
    have hset : ∀ v : T, set arr p v = { arr with data := arr.data.set k v } := by
      intro v
      unfold set
      rw [hpos, if_pos h0, Int.toNat_ofNat]
    refine ⟨hposInt, readCell_of_offset arr p k hlen hposInt hkl, ?_, ?_⟩
    · unfold get
      rw [hpos, if_pos h0, Int.toNat_ofNat]
    · intro v
      refine ⟨by rw [hset]; exact writeCell_of_offset arr p k v hlen hposInt hkl,
        by rw [hset]; rfl, by rw [hset]; rfl, ?_⟩
      have hlen2 : p.length = (set arr p v).shape.length := by rw [hset]; exact hlen
      have hpos2 : positionInt (set arr p v) p = (k : Int) := by
        rw [positionInt_set]; exact hposInt
      have hkl2 : k < (set arr p v).data.length := by
        rw [hset]; simp [hkl]
      rw [readCell_of_offset (set arr p v) p k hlen2 hpos2 hkl2, hset]
      simp [List.getD_eq_getElem?_getD, hkl]

theorem position_row_major_witness :
    ([1, 2] : List Int).length = sampleGrid.shape.length ∧
    positionInt sampleGrid [1, 2] = wrapInt (linearOffset sampleGrid.shape [1, 2]) ∧
    (FitsInt (linearOffset sampleGrid.shape [1, 2]) →
      positionInt sampleGrid [1, 2] = linearOffset sampleGrid.shape [1, 2] ∧
      position sampleGrid [1, 2] = positionInt sampleGrid [1, 2]) ∧
    ((∀ d ∈ sampleGrid.shape, 0 < d) → sampleGrid.shape.prod < 2147483648 →
      inRange sampleGrid.shape [1, 2] →
      positionInt sampleGrid [1, 2] = linearOffset sampleGrid.shape [1, 2] ∧
      0 ≤ positionInt sampleGrid [1, 2] ∧ positionInt sampleGrid [1, 2] < sampleGrid.shape.prod) ∧
    (∀ (q : List Int) (x : Int), q.length + 1 = sampleGrid.shape.length →
      FitsInt (linearOffset sampleGrid.shape (q ++ [x])) →
      FitsInt (linearOffset sampleGrid.shape (q ++ [x + 1])) →
      positionInt sampleGrid (q ++ [x + 1]) = positionInt sampleGrid (q ++ [x]) + 1) ∧
    (∀ k : Nat, linearOffset sampleGrid.shape [1, 2] = (k : Int) → (k : Int) < 2147483648 →
      k < sampleGrid.data.length →
      positionInt sampleGrid [1, 2] = (k : Int) ∧
      readCell sampleGrid [1, 2] = some (sampleGrid.data.getD k default) ∧
      get sampleGrid [1, 2] = sampleGrid.data.getD k default ∧
      ∀ v : ℚ, writeCell sampleGrid [1, 2] v = some (set sampleGrid [1, 2] v) ∧
        getCArray (set sampleGrid [1, 2] v) = (getCArray sampleGrid).set k v ∧
        getShape (set sampleGrid [1, 2] v) = getShape sampleGrid ∧
        readCell (set sampleGrid [1, 2] v) [1, 2] = some v) ∧
    FitsInt (linearOffset sampleGrid.shape [1, 2]) ∧ inRange sampleGrid.shape [1, 2] ∧
    linearOffset sampleGrid.shape [1, 2] = 5 ∧ positionInt sampleGrid [1, 2] = 5 ∧
    readCell sampleGrid [1, 2] = some 5 :=
  ⟨by decide, (position_row_major sampleGrid [1, 2] (by decide)).1,
    (position_row_major sampleGrid [1, 2] (by decide)).2.1,
    (position_row_major sampleGrid [1, 2] (by decide)).2.2.1,
    (position_row_major sampleGrid [1, 2] (by decide)).2.2.2.1,
    (position_row_major sampleGrid [1, 2] (by decide)).2.2.2.2,
    by decide, by decide, by decide, by decide, by with_unfolding_all decide⟩

/-- C18 as stated fails on 32-bit `int`: the shape 65536 x 65537 consists of positive integers
and the constructor accepts it (its size loop leaves `totalSize = 65536`); for the index vector
(65535, 65536), which lies inside the shape, `tempSum = 65535 * 65537 = 2^32 - 1` does not fit
an `int` and is reduced to -1, so `position` returns `-1 + 65536 = 65535`, while the sum of the
claim is 4295032831. -/
theorem position_row_major_counterexample :
    (∀ d ∈ ([65536, 65537] : List Int), 0 < d) ∧
    inRange [65536, 65537] [65535, 65536] ∧
    ∃ g : NdArray ℚ, construct [65536, 65537] (0 : ℚ) = .ok g ∧
      ([65535, 65536] : List Int).length = g.shape.length ∧
      g.totalSize = 65536 ∧
      positionInt g [65535, 65536] = 65535 ∧
      linearOffset g.shape [65535, 65536] = 4295032831 ∧
      positionInt g [65535, 65536] ≠ linearOffset g.shape [65535, 65536] :=
  ⟨by decide, by decide,
    ⟨{ data := List.replicate (sizeOfShape [65536, 65537]).toNat 0
       totalSize := sizeOfShape [65536, 65537]
       shape := [65536, 65537] },
      construct_of_size_pos [65536, 65537] 0 (by decide), by decide, by decide, by decide,
      by decide, by decide⟩⟩

theorem get_of_readCell {T : Type} [Inhabited T] (arr : NdArray T) (p : List Int) (e : T)
    (h : readCell arr p = some e) (hfit : FitsInt (linearOffset arr.shape p)) :
    get arr p = e := by
  unfold readCell at h
  split at h
  · rename_i hc
    have hpos : position arr p = positionInt arr p := by
      rw [position_eq_linearOffset, positionInt_of_fits arr p hfit]
    unfold get
    rw [hpos, if_pos hc.2.1, List.getD_eq_getElem?_getD, h]
    rfl
  · cases h

end NdArray

namespace pathFinder

open commonTools pmfParser

/-! ## Grid accesses of the search -/

/-- C31 (in-range search state): if the start grid point is in range, then after any number of
completed passes of the loop every open and every closed point has one index per axis, each in
`[0, shape[d] - 1]`; so, for a grid whose storage holds one cell per index vector of the shape,
every energy that `popMin` reads for a point of the open list is read at an index vector of
the right length and at an offset inside the storage. -/
theorem search_state_in_range (pmfData : pmf ℚ) (a b : List ℚ) (pbc : List Bool)
    (func : pathFinder → List Int → ℚ)
    (hdim : pmfData.dimension = (pmfData.shape.length : Int))
    (hpbc : pbc.length = pmfData.shape.length)
    (hstart : inRange pmfData.shape (RCToInternal pmfData a))
    (k : Nat) (s : pathFinder)
    (h : afterPasses func k (construct pmfData a b pbc) = some s) :
    (∀ q, q ∈ s.openList ∨ q ∈ s.closeList → inRange pmfData.shape q) ∧
    (pmfData.data.shape = pmfData.shape →
      (pmfData.data.data.length : Int) = pmfData.shape.prod →
      ∀ q ∈ s.openList,
        q.length = pmfData.data.shape.length ∧
        0 ≤ NdArray.position pmfData.data q ∧
        (NdArray.position pmfData.data q).toNat < pmfData.data.data.length ∧
        getInternal s.pmfData q
          = pmfData.data.data.getD (NdArray.position pmfData.data q).toNat default) := by
  have hc := construct_configured pmfData a b pbc hdim hpbc
  have hf := construct_fresh pmfData a b pbc
  obtain ⟨hinv, hrange⟩ := afterPasses_rule func
    (fun t => SearchInv (construct pmfData a b pbc) t ∧ InvRange (construct pmfData a b pbc) t)
    (fun t t1 hP hne hb =>
      ⟨(DijkstraBody_next_inv func hP.1 hne hb).choose_spec.2.2.2.2.1,
        InvRange_next func hc hP.1 hP.2 hne hb⟩)
    (fun t t1 hP hne hb =>
      ⟨(DijkstraBody_found_inv func hP.1 hne hb).2.2.2.1,
        InvRange_found func hP.1 hP.2 hne hb⟩)
    k _ s ⟨SearchInv_of_fresh _ hf, InvRange_of_fresh _ hf hstart⟩ h
  refine ⟨hrange, ?_⟩
  intro hshape hlen q hq
  have hqr : inRange pmfData.shape q := hrange q (Or.inl hq)
  have hb := NdArray.linearOffset_bounds pmfData.shape q hqr
  have hpos : NdArray.position pmfData.data q = NdArray.linearOffset pmfData.shape q := by
    rw [NdArray.position_eq_linearOffset, hshape]
  have hpmf : s.pmfData = pmfData := hinv.config.pmfData
  refine ⟨by rw [hshape]; exact hqr.1, by rw [hpos]; exact hb.1, ?_, ?_⟩
  · rw [hpos]
    omega
  · rw [hpmf]
    unfold getInternal NdArray.get
    rw [if_pos (by rw [hpos]; exact hb.1)]

theorem search_state_in_range_witness :
    detourGrid.dimension = (detourGrid.shape.length : Int) ∧
    ([false, false] : List Bool).length = detourGrid.shape.length ∧
    inRange detourGrid.shape (RCToInternal detourGrid [0, 0]) ∧
    afterPasses defaultFunc 3 (construct detourGrid [0, 0] [0, 2] [false, false])
      = some ((afterPasses defaultFunc 3 detourEngine).getD detourEngine) ∧
    ((afterPasses defaultFunc 3 detourEngine).getD detourEngine).openList
      = [[0, 1], [2, 0], [2, 1], [1, 2]] ∧
    detourGrid.data.shape = detourGrid.shape ∧
    (detourGrid.data.data.length : Int) = detourGrid.shape.prod ∧
    (∀ q, q ∈ ((afterPasses defaultFunc 3 detourEngine).getD detourEngine).openList ∨
        q ∈ ((afterPasses defaultFunc 3 detourEngine).getD detourEngine).closeList →
      inRange detourGrid.shape q) ∧
    (detourGrid.data.shape = detourGrid.shape →
      (detourGrid.data.data.length : Int) = detourGrid.shape.prod →
      ∀ q ∈ ((afterPasses defaultFunc 3 detourEngine).getD detourEngine).openList,
        q.length = detourGrid.data.shape.length ∧
        0 ≤ NdArray.position detourGrid.data q ∧
        (NdArray.position detourGrid.data q).toNat < detourGrid.data.data.length ∧
        getInternal ((afterPasses defaultFunc 3 detourEngine).getD detourEngine).pmfData q
          = detourGrid.data.data.getD (NdArray.position detourGrid.data q).toNat default) :=
  have hk := eq_some_getD (afterPasses defaultFunc 3 detourEngine) detourEngine
    (by with_unfolding_all decide)
  ⟨by with_unfolding_all decide, by decide, by with_unfolding_all decide, hk,
    by with_unfolding_all decide, by decide, by decide,
    search_state_in_range detourGrid [0, 0] [0, 2] [false, false] defaultFunc
      (by with_unfolding_all decide) (by decide) (by with_unfolding_all decide) 3
      ((afterPasses defaultFunc 3 detourEngine).getD detourEngine) hk⟩

/-! ## The search that runs out of open points -/

theorem end_closed_or_expanded (func : pathFinder → List Int → ℚ) {s0 : pathFinder}
    (hf : Fresh s0) (k : Nat) (t : pathFinder) (h : afterPasses func k s0 = some t) :
    SearchInv s0 t ∧ (s0.endPoint ∈ t.closeList ∨ InvExpanded s0 t) :=
  afterPasses_rule func
    (fun t => SearchInv s0 t ∧ (s0.endPoint ∈ t.closeList ∨ InvExpanded s0 t))
    (fun s s1 hP hne hb => by
      obtain ⟨p, _, _, _, hcl, hinv1, _⟩ := DijkstraBody_next_inv func hP.1 hne hb
      refine ⟨hinv1, ?_⟩
      rcases hP.2 with h1 | h1
      · left; rw [hcl]; exact List.mem_append_left _ h1
      · right; exact InvExpanded_next func hP.1 h1 hne hb)
    (fun s s1 hP hne hb => by
      obtain ⟨_, _, hcl, hinv1, _⟩ := DijkstraBody_found_inv func hP.1 hne hb
      refine ⟨hinv1, Or.inl ?_⟩
      rw [hcl]; simp)
    k s0 t ⟨SearchInv_of_fresh s0 hf, Or.inr (InvExpanded_of_fresh s0 hf)⟩ h

/-- C3, amended: when the open list becomes empty without the end point having been closed,
`Dijkstra` returns normally and reports no error, and `getResults` has no check for this case
either: the closed list is not empty, so it does not exit, and the trajectory it builds is the
end point alone. With a start point inside the grid this happens only for an end point outside
the grid. `getResults` then reads the energy of that point at its linear offset: when the
offset lies inside the storage it returns the one-point trajectory with the energy stored
there (otherwise the read is outside the storage, where the behaviour of the source is
undefined). -/
theorem unreachable_target_returns_end_alone (pmfData : pmf ℚ) (a b : List ℚ)
    (pbc : List Bool) (func : pathFinder → List Int → ℚ) (k : Nat) (t : pathFinder)
    (hk : afterPasses func k (construct pmfData a b pbc) = some t)
    (hopen : t.openList = []) (hnot : t.endPoint ∉ t.closeList) :
    (∀ fuel, k < fuel →
      Dijkstra func fuel (construct pmfData a b pbc) = some (.returned t)) ∧
    t.closeList.length ≠ 0 ∧
    (∀ n, 1 ≤ n → internalTrajectory t n = some [t.endPoint]) ∧
    (pmfData.dimension = (pmfData.shape.length : Int) → pbc.length = pmfData.shape.length →
      inRange pmfData.shape (RCToInternal pmfData a) →
      ¬ inRange pmfData.shape t.endPoint) ∧
    (∀ e : ℚ, NdArray.readCell t.pmfData.data t.endPoint = some e →
      NdArray.FitsInt (NdArray.linearOffset t.pmfData.data.shape t.endPoint) →
      ∀ n, 1 ≤ n →
        getResults t n = some (.ok ([internalToRC t.pmfData t.endPoint], [e]))) := by
  obtain ⟨hinv, hcase⟩ := end_closed_or_expanded func (construct_fresh pmfData a b pbc) k t hk
  have he : t.endPoint = (construct pmfData a b pbc).endPoint := hinv.config.endPoint
  have hstartc : (construct pmfData a b pbc).initialPoint ∈ t.closeList := by
    rcases hinv.startSeen with h | h
    · rw [hopen] at h; simp at h
    · exact h
  have hclosed : t.closeList.length ≠ 0 := by
    intro h0
    rw [List.length_eq_zero.mp h0] at hstartc
    simp at hstartc
  have htraj : ∀ n, 1 ≤ n → internalTrajectory t n = some [t.endPoint] := by
    intro n hn
    rw [he]
    apply internalTrajectory_unreached hinv _ _ n hn
    · rw [hopen]; simp
    · rw [← he]; exact hnot
  refine ⟨Dijkstra_of_afterPasses func k _ t hk hopen, hclosed, htraj, ?_, ?_⟩
  · intro hdim hpbc hstart hend
    have hc := construct_configured pmfData a b pbc hdim hpbc
    have hexp : InvExpanded (construct pmfData a b pbc) t := by
      rcases hcase with h | h
      · exact absurd (he ▸ h) hnot
      · exact h
    apply hnot
    exact closed_of_reach _ t hopen hexp.1 _ _ hstartc
      (reach_of_inRange _ hc _ _ hstart hend)
  · intro e hread hfit n hn
    unfold getResults
    rw [if_neg hclosed, htraj n hn]
    show some (Except.ok ([internalToRC t.pmfData t.endPoint],
      [NdArray.get t.pmfData.data t.endPoint])) = _
    rw [NdArray.get_of_readCell _ _ e hread hfit]

theorem unreachable_target_returns_end_alone_witness :
    afterPasses defaultFunc 9 (construct detourGrid [0, 0] [0, 4] [false, false])
      = some ((afterPasses defaultFunc 9 strayEnd).getD strayEnd) ∧
    ((afterPasses defaultFunc 9 strayEnd).getD strayEnd).openList = [] ∧
    ((afterPasses defaultFunc 9 strayEnd).getD strayEnd).endPoint
      ∉ ((afterPasses defaultFunc 9 strayEnd).getD strayEnd).closeList ∧
    ((∀ fuel, 9 < fuel →
      Dijkstra defaultFunc fuel (construct detourGrid [0, 0] [0, 4] [false, false])
        = some (.returned ((afterPasses defaultFunc 9 strayEnd).getD strayEnd))) ∧
    ((afterPasses defaultFunc 9 strayEnd).getD strayEnd).closeList.length ≠ 0 ∧
    (∀ n, 1 ≤ n →
      internalTrajectory ((afterPasses defaultFunc 9 strayEnd).getD strayEnd) n
        = some [((afterPasses defaultFunc 9 strayEnd).getD strayEnd).endPoint]) ∧
    (detourGrid.dimension = (detourGrid.shape.length : Int) →
      ([false, false] : List Bool).length = detourGrid.shape.length →
      inRange detourGrid.shape (RCToInternal detourGrid [0, 0]) →
      ¬ inRange detourGrid.shape ((afterPasses defaultFunc 9 strayEnd).getD strayEnd).endPoint) ∧
    (∀ e : ℚ,
      NdArray.readCell ((afterPasses defaultFunc 9 strayEnd).getD strayEnd).pmfData.data
        ((afterPasses defaultFunc 9 strayEnd).getD strayEnd).endPoint = some e →
      NdArray.FitsInt (NdArray.linearOffset
        ((afterPasses defaultFunc 9 strayEnd).getD strayEnd).pmfData.data.shape
        ((afterPasses defaultFunc 9 strayEnd).getD strayEnd).endPoint) →
      ∀ n, 1 ≤ n →
        getResults ((afterPasses defaultFunc 9 strayEnd).getD strayEnd) n
          = some (.ok ([internalToRC ((afterPasses defaultFunc 9 strayEnd).getD strayEnd).pmfData
              ((afterPasses defaultFunc 9 strayEnd).getD strayEnd).endPoint], [e])))) ∧
    NdArray.readCell ((afterPasses defaultFunc 9 strayEnd).getD strayEnd).pmfData.data
      ((afterPasses defaultFunc 9 strayEnd).getD strayEnd).endPoint = some 4 ∧
    NdArray.FitsInt (NdArray.linearOffset
      ((afterPasses defaultFunc 9 strayEnd).getD strayEnd).pmfData.data.shape
      ((afterPasses defaultFunc 9 strayEnd).getD strayEnd).endPoint) :=
  ⟨eq_some_getD _ _ (by with_unfolding_all decide), by with_unfolding_all decide,
    by with_unfolding_all decide,
    unreachable_target_returns_end_alone detourGrid [0, 0] [0, 4] [false, false] defaultFunc 9 _
      (eq_some_getD _ _ (by with_unfolding_all decide)) (by with_unfolding_all decide)
      (by with_unfolding_all decide),
    by with_unfolding_all decide, by with_unfolding_all decide⟩

/-- C3 as stated fails: on the 3x3 grid `detourGrid` with the start at cell (0, 0) and the end
coordinate (0, 4), which lies outside the grid, the nine cells are closed and the open list is
then empty while the end point was never closed; yet `Dijkstra` returns normally. `getResults`
then finds a non-empty closed list and no parent of the end point, so its trajectory is the end
point alone; the energy it reads for it is `data[0 * 3 + 4] = data[4] = 4`, a read inside the
storage of nine cells, and it returns the trajectory `[(0, 4)]` with the energy `[4]`. -/
theorem unreachable_target_counterexample :
    inRange detourGrid.shape strayEnd.initialPoint ∧
    ∃ t, Dijkstra defaultFunc 10 strayEnd = some (.returned t) ∧ t.openList = [] ∧
      t.closeList.length = 9 ∧ t.endPoint = [0, 4] ∧ t.endPoint ∉ t.closeList ∧
      ¬ inRange detourGrid.shape t.endPoint ∧
      NdArray.positionInt t.pmfData.data t.endPoint = 4 ∧
      t.pmfData.data.data.length = 9 ∧
      NdArray.readCell t.pmfData.data t.endPoint = some 4 ∧
      internalTrajectory t 1 = some [[0, 4]] ∧
      getResults t 1 = some (.ok ([[0, 4]], [4])) :=
  ⟨by with_unfolding_all decide,
    (afterPasses defaultFunc 9 strayEnd).getD strayEnd,
    Dijkstra_of_afterPasses defaultFunc 9 strayEnd _
      (eq_some_getD _ _ (by with_unfolding_all decide)) (by with_unfolding_all decide) 10
      (by decide),
    by with_unfolding_all decide, by with_unfolding_all decide, by with_unfolding_all decide,
    by with_unfolding_all decide, by with_unfolding_all decide, by with_unfolding_all decide,
    by with_unfolding_all decide, by with_unfolding_all decide, by with_unfolding_all decide,
    by with_unfolding_all rfl⟩

end pathFinder

namespace pmfParser

open commonTools

/-! ## The explicit-bounds constructor -/

end pmfParser
